import Mathlib

/-!
# LRUCache.c : a heap-level embedding

The program keeps its entries as `NODE` objects in dynamic memory, linked
three ways: `prev`/`next` (the recency list, head = most recently used) and
`hnext` (the chain of a hash bucket).  The embedding keeps that shape:

* a pointer is a natural number, `0` is `NULL`;
* `LRUCACHE.mem` is the dynamic memory holding the `NODE` objects
  (`none` = no live object at that address), `LRUCACHE.brk` the next address
  `malloc` hands out (addresses are not reused);
* every operation returns an `Option`: `none` means the call does not return
  (a `NULL` or dangling pointer is dereferenced, a read runs past the caller's
  buffer, or a loop walks a cyclic chain for ever);
* a loop is a recursive function with a step budget of `brk + 1`, one more than
  the number of addresses ever handed out: a walk along links that takes more
  steps has met some node twice and never ends;
* `UINT` is 32 bits and `size_t` 64 bits wide, `sizeof(NODE) = 56`,
  `sizeof(PNODE) = 8` (LP64), plain `char` is signed;
* a key is the list of the bytes of a C string before its terminating NUL,
  a payload the list of the bytes behind the `value` pointer;
* the outcome of each `malloc`/`strdup` is an input (`Alloc`, `true` = the
  allocation succeeds).

Each C function is one definition of the same name; the loops (`hashLoop`,
`walkNext`, `getLoop`, `unlinkLoop`) and three straight-line parts of
`LRUCachePut` and `LRUCacheRemove` (`putEvict`, `putLink`, `listUnlink`) are
definitions of their own.

The development has two parts: the definitions (program, observations,
invariants, scenarios), then the theorems.  The main results on the way are
that every reachable state satisfies the representation invariant `Inv`
(`Reachable.inv`) and the case analyses `Inv.get`, `Inv.put_cases`,
`Inv.removeTail` and `Inv.remove` of what each call does in such a state.
-/

namespace LRUCache

/-! ## Constants and types -/

def HASH_MAP_SIZE : Nat := 1048573
def MAX_CAPACITY : Nat := 7000000
def MAX_KEY_LENGTH : Nat := 100
def MAX_VALUE_LENGTH : Nat := 4096

/-- Number of values of a `UINT` (32 bits). -/
def UINT_RANGE : Nat := 4294967296
/-- Number of values of a `size_t` (64 bits). -/
def SIZE_T_RANGE : Nat := 18446744073709551616
/-- The value of `sizeof(NODE)`: 4 (+4 padding) + 6 * 8. -/
def SIZEOF_NODE : Nat := 56
/-- The value of `sizeof(PNODE)`. -/
def SIZEOF_PNODE : Nat := 8

/-- A `PNODE`: an address, `0` being `NULL`. -/
abbrev Ptr := Nat

/-- The C `struct _NODE`; the key and the payload it owns are kept by value. -/
structure NODE where
  hashKey : Nat
  key : List Nat
  serializedValue : List Nat
  valueSize : Nat
  prev : Ptr
  next : Ptr
  hnext : Ptr
deriving DecidableEq

/-- The C `struct _LRUCACHE` together with the dynamic memory its nodes live in. -/
structure LRUCACHE where
  capacity : Nat
  size : Nat
  sizeInBytes : Nat
  head : Ptr
  tail : Ptr
  nodes : Nat → Ptr
  mem : Ptr → Option NODE
  brk : Ptr

/-- Outcomes of the allocations one `LRUCachePut` may perform. -/
structure Alloc where
  payload : Bool
  node : Bool
  key : Bool
deriving DecidableEq

/-- All allocations succeed. -/
def Alloc.ok : Alloc := ⟨true, true, true⟩

/-! ## Memory access -/

/-- Read the object behind `p`; fails on `NULL` and on a dead address. -/
def LRUCACHE.load (c : LRUCACHE) (p : Ptr) : Option NODE :=
  if p = 0 then none else c.mem p

/-- Overwrite the object at `p`. -/
def LRUCACHE.store (c : LRUCACHE) (p : Ptr) (n : NODE) : LRUCACHE :=
  { c with mem := fun q => if q = p then some n else c.mem q }

/-- The effect of `free(p)` on a node: the object is gone. -/
def LRUCACHE.release (c : LRUCACHE) (p : Ptr) : LRUCACHE :=
  { c with mem := fun q => if q = p then none else c.mem q }

/-- The assignment `p->prev = v`. -/
def LRUCACHE.setPrev (c : LRUCACHE) (p v : Ptr) : Option LRUCACHE :=
  (c.load p).map fun n => c.store p { n with prev := v }

/-- The assignment `p->next = v`. -/
def LRUCACHE.setNext (c : LRUCACHE) (p v : Ptr) : Option LRUCACHE :=
  (c.load p).map fun n => c.store p { n with next := v }

/-- The assignment `p->hnext = v`. -/
def LRUCACHE.setHnext (c : LRUCACHE) (p v : Ptr) : Option LRUCACHE :=
  (c.load p).map fun n => c.store p { n with hnext := v }

/-- The assignment `nodes[i] = v`. -/
def LRUCACHE.setBucket (c : LRUCACHE) (i : Nat) (v : Ptr) : LRUCACHE :=
  { c with nodes := fun j => if j = i then v else c.nodes j }

/-- Subtraction in `size_t`. -/
def subSizeT (a b : Nat) : Nat := (a + (SIZE_T_RANGE - b % SIZE_T_RANGE)) % SIZE_T_RANGE

/-- Addition in `size_t`. -/
def addSizeT (a b : Nat) : Nat := (a + b) % SIZE_T_RANGE

/-! ## Library functions -/

/-- The C library `strncmp` on NUL-free byte strings. -/
def strncmp : List Nat → List Nat → Nat → Int
  | _, _, 0 => 0
  | [], [], _ + 1 => 0
  | [], _ :: _, _ + 1 => -1
  | _ :: _, [], _ + 1 => 1
  | a :: s1, b :: s2, n + 1 => if a = b then strncmp s1 s2 n else (a : Int) - (b : Int)

/-- The `int` a plain (signed) `char` holding byte `b` converts to, as a `UINT`. -/
def charToUInt (b : Nat) : Nat :=
  if b < 128 then b else (UINT_RANGE - 256 + b % 256) % UINT_RANGE

/-! ## The program -/

/-- The function `LRUSerializeData`: `some none` is the `NULL` of a failed `malloc`;
`none` is a `memcpy` that reads past the end of the caller's buffer. -/
def LRUSerializeData (value : List Nat) (dataSize : Nat) (ok : Bool) :
    Option (Option (List Nat)) :=
  if ok then
    if value.length < dataSize then none else some (some (value.take dataSize))
  else some none

/-- The `while ((c = *str++))` loop of `LRUCacheCreateHash`. -/
def hashLoop : List Nat → Nat → Nat
  | [], hash => hash
  | c :: str, hash => hashLoop str (((hash <<< 5) % UINT_RANGE + hash + charToUInt c) % UINT_RANGE)

def LRUCacheCreateHash (str : List Nat) : Nat :=
  let hash := hashLoop str 5381
  hash ^^^ (hash >>> 16)

def LRUCacheGetHashIndex (key : List Nat) : Nat :=
  LRUCacheCreateHash key % HASH_MAP_SIZE

/-- The function `LRUCacheCreate`; `none` is the `NULL` returned when an allocation fails. -/
def LRUCacheCreate (capacity : Nat) (cacheOk nodesOk : Bool) : Option LRUCACHE :=
  if !cacheOk then none
  else if !nodesOk then none
  else some
    { capacity := capacity
      size := 0
      sizeInBytes := (HASH_MAP_SIZE * SIZEOF_PNODE) % SIZE_T_RANGE
      head := 0
      tail := 0
      nodes := fun _ => 0
      mem := fun _ => none
      brk := 1 }

/-- The function `LRUCacheNodeCreate`: the new node's address, `0` when an allocation fails. -/
def LRUCacheNodeCreate (c : LRUCACHE) (key value : List Nat) (size : Nat)
    (nodeOk keyOk : Bool) : LRUCACHE × Ptr :=
  if !nodeOk then (c, 0)
  else if !keyOk then (c, 0)
  else
    let node := c.brk
    ({ c with brk := c.brk + 1 }.store node
        { hashKey := LRUCacheCreateHash key
          key := key
          serializedValue := value
          valueSize := size
          prev := 0
          next := 0
          hnext := 0 },
      node)

/-- The function `LRUCacheFreeNode`: the node is released. -/
def LRUCacheFreeNode (c : LRUCACHE) (node : Ptr) : Option LRUCACHE :=
  (c.load node).map fun _ => c.release node

def LRUCacheMoveNodeToHead (cache : LRUCACHE) (node : Ptr) : Option (LRUCACHE × Int) :=
  if node = cache.head then some (cache, 0)
  else do
    -- if (node == cache->tail) cache->tail = node->prev;
    let cache ← (if node = cache.tail then do
        let n ← cache.load node
        pure { cache with tail := n.prev }
      else pure cache)
    -- if (node->prev) node->prev->next = node->next;
    let n ← cache.load node
    let cache ← (if n.prev ≠ 0 then cache.setNext n.prev n.next else pure cache)
    -- if (node->next) node->next->prev = node->prev;
    let n ← cache.load node
    let cache ← (if n.next ≠ 0 then cache.setPrev n.next n.prev else pure cache)
    -- node->prev = NULL; node->next = cache->head;
    let cache ← cache.setPrev node 0
    let cache ← cache.setNext node cache.head
    -- if (cache->head) cache->head->prev = node;
    let cache ← (if cache.head ≠ 0 then cache.setPrev cache.head node else pure cache)
    let cache := { cache with head := node }
    -- if (!cache->tail) cache->tail = node;
    let cache := if cache.tail = 0 then { cache with tail := node } else cache
    pure (cache, 0)

/-- The loop `while (prev->next != node) prev = prev->next;` of `LRUCacheRemoveTail`. -/
def walkNext (c : LRUCACHE) (node : Ptr) : Nat → Ptr → Option Ptr
  | 0, _ => none
  | fuel + 1, prev => do
    let p ← c.load prev
    if p.next ≠ node then walkNext c node fuel p.next else pure prev

def LRUCacheRemoveTail (cache : LRUCACHE) : Option (LRUCACHE × Int) :=
  let node := cache.tail
  if node = 0 then some (cache, -1)
  else do
    let cache ← (if node = cache.head then pure { cache with head := 0, tail := 0 }
      else do
        let n ← cache.load node
        let cache := { cache with tail := n.prev }
        cache.setNext cache.tail 0)
    let n ← cache.load node
    let index := LRUCacheGetHashIndex n.key
    let cache ← (if cache.nodes index = node then pure (cache.setBucket index 0)
      else do
        let prev ← walkNext cache node (cache.brk + 1) (cache.nodes index)
        let n ← cache.load node
        cache.setNext prev n.next)
    let n ← cache.load node
    let cache := { cache with size := (cache.size + (UINT_RANGE - 1)) % UINT_RANGE }
    let cache := { cache with
      sizeInBytes := subSizeT cache.sizeInBytes
        ((SIZEOF_NODE + n.key.length + 1 + n.valueSize) % SIZE_T_RANGE) }
    let cache ← LRUCacheFreeNode cache node
    pure (cache, 0)

/-- The `while (node)` loop of `LRUCacheGet`. -/
def getLoop (cache : LRUCACHE) (key : List Nat) : Nat → Ptr → Option (LRUCACHE × Ptr)
  | 0, _ => none
  | fuel + 1, node =>
    if node = 0 then some (cache, 0)
    else do
      let n ← cache.load node
      if strncmp n.key key MAX_KEY_LENGTH = 0 then do
        let r ← LRUCacheMoveNodeToHead cache node
        pure (r.1, node)
      else getLoop cache key fuel n.hnext

def LRUCacheGet (cache : LRUCACHE) (key : List Nat) : Option (LRUCACHE × Ptr) :=
  let index := LRUCacheGetHashIndex key
  getLoop cache key (cache.brk + 1) (cache.nodes index)

/-- The last part of `LRUCachePut` (from `UINT index = ...` on): the new node is put in
front of its bucket chain and in front of the recency list. -/
def putLink (cache : LRUCACHE) (key : List Nat) (size : Nat) (node : Ptr) :
    Option (LRUCACHE × Int) := do
  let index := LRUCacheGetHashIndex key
  -- node->hnext = cache->nodes[index]; cache->nodes[index] = node;
  let cache ← cache.setHnext node (cache.nodes index)
  let cache := cache.setBucket index node
  -- node->next = cache->head;
  let cache ← cache.setNext node cache.head
  -- if (cache->head) cache->head->prev = node;
  let cache ← (if cache.head ≠ 0 then cache.setPrev cache.head node else pure cache)
  let cache := { cache with head := node }
  -- if (!cache->tail) cache->tail = node;
  let cache := if cache.tail = 0 then { cache with tail := node } else cache
  let cache := { cache with size := (cache.size + 1) % UINT_RANGE }
  let cache := { cache with
    sizeInBytes := addSizeT cache.sizeInBytes
      ((SIZEOF_NODE + key.length + 1 + size) % SIZE_T_RANGE) }
  pure (cache, 0)

/-- The statement `if (cache->size == cache->capacity) LRUCacheRemoveTail(cache);` of
`LRUCachePut`; the value `LRUCacheRemoveTail` returns is ignored. -/
def putEvict (cache : LRUCACHE) : Option LRUCACHE :=
  if cache.size = cache.capacity then (LRUCacheRemoveTail cache).map Prod.fst
  else some cache

def LRUCachePut (cache : LRUCACHE) (key value : List Nat) (size : Nat) (m : Alloc) :
    Option (LRUCACHE × Int) :=
  if size = 0 then some (cache, -1)
  else do
    let serializedValue ← LRUSerializeData value size m.payload
    match serializedValue with
    | none => pure (cache, -1)
    | some serializedValue =>
      let r ← LRUCacheGet cache key
      let cache := r.1
      let node := r.2
      if node ≠ 0 then do
        -- cache->sizeInBytes -= node->valueSize; cache->sizeInBytes += size;
        let n ← cache.load node
        let cache := { cache with sizeInBytes := subSizeT cache.sizeInBytes n.valueSize }
        let cache := { cache with sizeInBytes := addSizeT cache.sizeInBytes size }
        -- free(node->serializedValue); node->serializedValue = serializedValue;
        let n ← cache.load node
        let cache := cache.store node { n with serializedValue := serializedValue }
        let r ← LRUCacheMoveNodeToHead cache node
        pure (r.1, 0)
      else
        let r := LRUCacheNodeCreate cache key serializedValue size m.node m.key
        let cache := r.1
        let node := r.2
        if node = 0 then pure (cache, -1)
        else do
          let cache ← putEvict cache
          putLink cache key size node

/-- The loop of `LRUCacheRemove` that takes `node` out of its bucket chain. -/
def unlinkLoop (cache : LRUCACHE) (hashIndex : Nat) (node : Ptr) :
    Nat → Ptr → Ptr → Option LRUCACHE
  | 0, _, _ => none
  | fuel + 1, prev, curr =>
    if curr = 0 then some cache
    else if curr = node then do
      let cn ← cache.load curr
      if prev ≠ 0 then cache.setHnext prev cn.hnext
      else pure (cache.setBucket hashIndex cn.hnext)
    else do
      let cn ← cache.load curr
      unlinkLoop cache hashIndex node fuel curr cn.hnext

/-- The part of `LRUCacheRemove` that takes `node` out of the recency list
(the two `if (node->prev)` / `if (node->next)` statements). -/
def listUnlink (cache : LRUCACHE) (node : Ptr) : Option LRUCACHE := do
  -- if (node->prev) node->prev->next = node->next; else cache->head = node->next;
  let n ← cache.load node
  let cache ← (if n.prev ≠ 0 then cache.setNext n.prev n.next
    else pure { cache with head := n.next })
  -- if (node->next) node->next->prev = node->prev; else cache->tail = node->prev;
  let n ← cache.load node
  (if n.next ≠ 0 then cache.setPrev n.next n.prev
    else pure { cache with tail := n.prev })

/-- The function `LRUCacheRemove`.  The statements after the loop are in the order of the
source: `LRUCacheFreeNode(node)`, then `cache->size--`, then the byte accounting, which reads
`node->key` and `node->valueSize` from the node that has just been freed. -/
def LRUCacheRemove (cache : LRUCACHE) (key : List Nat) : Option (LRUCACHE × Int) := do
  let r ← LRUCacheGet cache key
  let cache := r.1
  let node := r.2
  if node = 0 then pure (cache, -1)
  else do
    let cache ← listUnlink cache node
    let hashIndex := LRUCacheGetHashIndex key
    let cache ← unlinkLoop cache hashIndex node (cache.brk + 1) 0 (cache.nodes hashIndex)
    -- LRUCacheFreeNode(node); cache->size--;
    let cache ← LRUCacheFreeNode cache node
    let cache := { cache with size := (cache.size + (UINT_RANGE - 1)) % UINT_RANGE }
    -- cache->sizeInBytes -= (sizeof(NODE) + strlen(node->key) + 1 + node->valueSize);
    let n ← cache.load node
    let cache := { cache with
      sizeInBytes := subSizeT cache.sizeInBytes
        ((SIZEOF_NODE + n.key.length + 1 + n.valueSize) % SIZE_T_RANGE) }
    pure (cache, 0)

/-! ## Observations -/

/-- Walk `next` links from `p`, collecting the addresses met. -/
def walkList (c : LRUCACHE) : Nat → Ptr → List Ptr
  | 0, _ => []
  | fuel + 1, p =>
    match c.load p with
    | none => []
    | some n => p :: walkList c fuel n.next

/-- The recency list, head (most recently used) first, as `LRUDisplayCache` walks it. -/
def recencyList (c : LRUCACHE) : List Ptr := walkList c (c.brk + 1) c.head

/-- Walk `hnext` links from `p`, collecting the addresses met. -/
def walkChain (c : LRUCACHE) : Nat → Ptr → List Ptr
  | 0, _ => []
  | fuel + 1, p =>
    match c.load p with
    | none => []
    | some n => p :: walkChain c fuel n.hnext

/-- The entries found by walking bucket `i` of the hash index. -/
def bucketList (c : LRUCACHE) (i : Nat) : List Ptr := walkChain c (c.brk + 1) (c.nodes i)

/-- The key stored in the node at `p` (empty when there is no node). -/
def keyAt (c : LRUCACHE) (p : Ptr) : List Nat :=
  match c.mem p with
  | some n => n.key
  | none => []

/-- The payload stored in the node at `p`. -/
def valueAt (c : LRUCACHE) (p : Ptr) : Option (List Nat) := (c.mem p).map NODE.serializedValue

/-- The `valueSize` field of the node at `p`. -/
def valueSizeAt (c : LRUCACHE) (p : Ptr) : Option Nat := (c.mem p).map NODE.valueSize

/-- The `while (node)` loop of `LRUCacheGet` without the call of `LRUCacheMoveNodeToHead`:
the node at which the search stops, `some 0` when the chain ends without a match. -/
def findLoop (c : LRUCACHE) (key : List Nat) : Nat → Ptr → Option Ptr
  | 0, _ => none
  | fuel + 1, node =>
    if node = 0 then some 0
    else
      match c.load node with
      | none => none
      | some n =>
        if strncmp n.key key MAX_KEY_LENGTH = 0 then some node
        else findLoop c key fuel n.hnext

/-- The node the search of `LRUCacheGet` finds for `key`: the first node in the chain of
the bucket of `key` whose key compares equal under `strncmp`; `some 0` when there is none,
`none` when the search does not come to an end. -/
def LRUCACHE.find (c : LRUCACHE) (key : List Nat) : Option Ptr :=
  findLoop c key (c.brk + 1) (c.nodes (LRUCacheGetHashIndex key))

/-- A node with its two recency links blanked: all that does not depend on the order of use. -/
def NODE.unlinked (n : NODE) : NODE := { n with prev := 0, next := 0 }

/-! ## Operations and reachable states -/

/-- One call of the public interface. -/
inductive Op where
  | put (key value : List Nat) (size : Nat) (m : Alloc)
  | get (key : List Nat)
  | remove (key : List Nat)

/-- The state after one call, when the call returns. -/
def step (c : LRUCACHE) : Op → Option LRUCACHE
  | Op.put key value size m => (LRUCachePut c key value size m).map Prod.fst
  | Op.get key => (LRUCacheGet c key).map Prod.fst
  | Op.remove key => (LRUCacheRemove c key).map Prod.fst

/-- The state after a sequence of calls, when all of them return. -/
def run (c : LRUCACHE) : List Op → Option LRUCACHE
  | [] => some c
  | op :: ops => (step c op).bind fun c1 => run c1 ops

/-- The state after a sequence of calls; the starting state when a call does not return. -/
def runD (c : LRUCACHE) (ops : List Op) : LRUCACHE := (run c ops).getD c

/-- The cache `LRUCacheCreate` returns when both of its allocations succeed. -/
def freshCache (capacity : Nat) : LRUCACHE :=
  { capacity := capacity
    size := 0
    sizeInBytes := (HASH_MAP_SIZE * SIZEOF_PNODE) % SIZE_T_RANGE
    head := 0
    tail := 0
    nodes := fun _ => 0
    mem := fun _ => none
    brk := 1 }

/-- A sequence of Put calls, each given by its key, buffer, size and allocation outcomes. -/
def putOps (ps : List (List Nat × List Nat × Nat × Alloc)) : List Op :=
  ps.map fun a => Op.put a.1 a.2.1 a.2.2.1 a.2.2.2

/-- The state after `n` calls of `LRUCacheRemove` with the same key. -/
def removeN (c : LRUCACHE) (key : List Nat) : Nat → Option LRUCACHE
  | 0 => some c
  | n + 1 => (LRUCacheRemove c key).bind fun r => removeN r.1 key n

/-- The states a caller can get to: `LRUCacheCreate` with a `UINT` capacity, then any
calls of Put, Get and Remove that return. -/
def Reachable (c : LRUCACHE) : Prop :=
  ∃ (capacity : Nat) (a b : Bool) (c0 : LRUCACHE) (ops : List Op),
    capacity < UINT_RANGE ∧ LRUCacheCreate capacity a b = some c0 ∧ run c0 ops = some c

/-! ## Invariants -/

/-- The successor of `x` in the list `L`, `0` when there is none. -/
def nextOf : List Ptr → Ptr → Ptr
  | [], _ => 0
  | a :: l, x => if x = a then l.headD 0 else nextOf l x

/-- The predecessor of `x` in the list `L`, `0` when there is none. -/
def prevOf : List Ptr → Ptr → Ptr
  | [], _ => 0
  | a :: l, x => if l.head? = some x then a else prevOf l x

/-- The recency list of `c` is the doubly linked chain of the nodes `L`, head first. -/
structure ListOK (c : LRUCACHE) (L : List Ptr) : Prop where
  nodup : L.Nodup
  nonnull : 0 ∉ L
  bound : ∀ p ∈ L, p < c.brk
  head_eq : c.head = L.headD 0
  tail_eq : c.tail = L.getLastD 0
  link : ∀ p ∈ L, ∃ n, c.mem p = some n ∧ n.prev = prevOf L p ∧ n.next = nextOf L p

/-- Following `hnext` from `p` visits exactly the nodes `C` and then reaches `NULL`. -/
def Chain (c : LRUCACHE) : Ptr → List Ptr → Prop
  | p, [] => p = 0
  | p, q :: C => p = q ∧ q ≠ 0 ∧ ∃ n, c.mem q = some n ∧ Chain c n.hnext C

/-- Bucket `i` of the hash index is the finite chain `C` of nodes of the recency list `L`,
each stored under the index of its own key. -/
def BucketOK (c : LRUCACHE) (L : List Ptr) (i : Nat) (C : List Ptr) : Prop :=
  Chain c (c.nodes i) C ∧ C.Nodup ∧
    ∀ p ∈ C, p ∈ L ∧ ∃ n, c.mem p = some n ∧ LRUCacheGetHashIndex n.key = i

/-- Every bucket of the hash index is a well-formed chain. -/
def HashOK (c : LRUCACHE) (L : List Ptr) : Prop :=
  ∀ i, ∃ C, BucketOK c L i C

/-- The representation invariant of the cache. -/
structure Inv (c : LRUCACHE) (L : List Ptr) : Prop where
  list : ListOK c L
  hash : HashOK c L
  brk_pos : 0 < c.brk

/-- Two states that differ at most in the recency order. -/
structure SameData (c c' : LRUCACHE) : Prop where
  capacity : c'.capacity = c.capacity
  size : c'.size = c.size
  sizeInBytes : c'.sizeInBytes = c.sizeInBytes
  nodes : c'.nodes = c.nodes
  brk : c'.brk = c.brk
  mem : ∀ p, (c'.mem p).map NODE.unlinked = (c.mem p).map NODE.unlinked

/-- Does the node at `p` compare equal to `key` under `LRUCacheGet`'s `strncmp`? -/
def keyMatches (c : LRUCACHE) (key : List Nat) (p : Ptr) : Bool :=
  match c.mem p with
  | some n => decide (strncmp n.key key MAX_KEY_LENGTH = 0)
  | none => false

/-- No two nodes of one bucket chain carry keys that compare equal under the bounded
`strncmp` of `LRUCacheGet`, that is, keys with the same first `MAX_KEY_LENGTH` characters. -/
def PrefixUnique (c : LRUCACHE) : Prop :=
  ∀ i C, Chain c (c.nodes i) C → (C.map fun p => (keyAt c p).take MAX_KEY_LENGTH).Nodup

/-- The capacity part of the condition of the `while` loop of `main`: a capacity for which
`main` asks again instead of calling `LRUCacheCreate`. -/
def mainRejectsCapacity (capacity : Nat) : Bool :=
  decide (capacity > MAX_CAPACITY) || decide (capacity = 0)

/-! ## Scenarios -/

/-- The key `"a"`. -/
def keyA : List Nat := [97]
/-- The key `"b"`. -/
def keyB : List Nat := [98]
/-- The key `"c"`. -/
def keyC : List Nat := [99]
/-- The key `"d"`. -/
def keyD : List Nat := [100]
/-- The key `"ab"`. -/
def keyAB : List Nat := [97, 98]
/-- The key `"bA"`, which has the same hash as `"ab"`. -/
def keyBA : List Nat := [98, 65]

/-- The four bytes of the `UINT` 1, as `main` stores a number (`sizeof(UINT)` bytes). -/
def val1 : List Nat := [1, 0, 0, 0]
/-- The four bytes of the `UINT` 2. -/
def val2 : List Nat := [2, 0, 0, 0]
/-- The four bytes of the `UINT` 3. -/
def val3 : List Nat := [3, 0, 0, 0]

/-- The cache after Create(2); Put("a",1). -/
def cacheA : LRUCACHE := runD (freshCache 2) [Op.put keyA val1 4 Alloc.ok]

/-- The cache after Create(2); Put("a",1); Put("b",2): the recency list is `"b"`, `"a"`. -/
def cacheAB : LRUCACHE :=
  runD (freshCache 2) [Op.put keyA val1 4 Alloc.ok, Op.put keyB val2 4 Alloc.ok]

/-- What a caller reads from the node `LRUCacheGet` returned: nothing for `NULL`. -/
def nodeValue (c : LRUCACHE) (p : Ptr) : Option (List Nat) :=
  if p = 0 then none else valueAt c p

/-- Scenario A: Create(2); Put a; Put b; Put c; then Get a, Get b, Get c.
The result lists the three return values of Put and what the three Gets find. -/
def scenarioA : Option (Int × Int × Int ×
    Option (List Nat) × Option (List Nat) × Option (List Nat)) := do
  let c ← LRUCacheCreate 2 true true
  let r1 ← LRUCachePut c keyA val1 4 Alloc.ok
  let r2 ← LRUCachePut r1.1 keyB val2 4 Alloc.ok
  let r3 ← LRUCachePut r2.1 keyC val3 4 Alloc.ok
  let ga ← LRUCacheGet r3.1 keyA
  let gb ← LRUCacheGet ga.1 keyB
  let gc ← LRUCacheGet gb.1 keyC
  pure (r1.2, r2.2, r3.2, nodeValue ga.1 ga.2, nodeValue gb.1 gb.2, nodeValue gc.1 gc.2)

/-- Scenario B: Create(2); Put a; Put b; Get a; Put c; then Get b, Get a, Get c.
The result lists what the three last Gets find and the final `size`. -/
def scenarioB : Option (Option (List Nat) × Option (List Nat) × Option (List Nat) × Nat) := do
  let c ← LRUCacheCreate 2 true true
  let r1 ← LRUCachePut c keyA val1 4 Alloc.ok
  let r2 ← LRUCachePut r1.1 keyB val2 4 Alloc.ok
  let g0 ← LRUCacheGet r2.1 keyA
  let r3 ← LRUCachePut g0.1 keyC val3 4 Alloc.ok
  let gb ← LRUCacheGet r3.1 keyB
  let ga ← LRUCacheGet gb.1 keyA
  let gc ← LRUCacheGet ga.1 keyC
  pure (nodeValue gb.1 gb.2, nodeValue ga.1 ga.2, nodeValue gc.1 gc.2, gc.1.size)

/-- Put a one-byte payload under `"a"`, then a two-byte payload under the same key, then
Get `"a"`: the payload and the `valueSize` of the node returned. -/
def scenarioResize : Option (Option (List Nat) × Option Nat) := do
  let c ← LRUCacheCreate 2 true true
  let r1 ← LRUCachePut c keyA [1] 1 Alloc.ok
  let r2 ← LRUCachePut r1.1 keyA [2, 3] 2 Alloc.ok
  let g ← LRUCacheGet r2.1 keyA
  pure (valueAt g.1 g.2, valueSizeAt g.1 g.2)

/-- Two keys of one bucket in a cache of capacity 2, the older one used again:
Create(2); Put ab; Put bA; Get ab.  The cache is full and its tail `"bA"` is the first
node of the bucket chain, `"ab"` the second. -/
def collisionOps : List Op :=
  [Op.put keyAB [1] 1 Alloc.ok, Op.put keyBA [2] 1 Alloc.ok, Op.get keyAB]

/-- In a cache of capacity 3: Put ab; Put bA; Put c; Get ab; Put d (which evicts `"bA"`, the
first node of the bucket that also holds `"ab"`); Put ab (which evicts `"c"`). -/
def duplicateOps : List Op :=
  [Op.put keyAB [1] 1 Alloc.ok, Op.put keyBA [2] 1 Alloc.ok, Op.put keyC [3] 1 Alloc.ok,
    Op.get keyAB, Op.put keyD [4] 1 Alloc.ok, Op.put keyAB [5] 1 Alloc.ok]

/-- Put a one-byte payload under `"a"`, a two-byte payload under `"a"`, then a one-byte
payload under `"b"`: in a cache of capacity 1 the last Put evicts `"a"`. -/
def resizeEvictOps : List Op :=
  [Op.put keyA [1] 1 Alloc.ok, Op.put keyA [2, 3] 2 Alloc.ok, Op.put keyB [9] 1 Alloc.ok]

/-- Three Puts under the key `"a"`, with payloads of one, two and three bytes. -/
def resizeOps : List Op :=
  [Op.put keyA [1] 1 Alloc.ok, Op.put keyA [2, 3] 2 Alloc.ok, Op.put keyA [4, 5, 6] 3 Alloc.ok]

/-- The key number `n` of a family of pairwise different five-character keys: the digits of
`n` in base 255, each raised by one so that no character is the terminator. -/
def counterKey (n : Nat) : List Nat :=
  [n % 255 + 1, n / 255 % 255 + 1, n / 255 ^ 2 % 255 + 1, n / 255 ^ 3 % 255 + 1,
    n / 255 ^ 4 % 255 + 1]

/-- The keys of the nodes of the recency list, head first. -/
def recencyKeys (c : LRUCACHE) : List (List Nat) := (recencyList c).map (keyAt c)

/-- The keys of the nodes found by walking bucket `i`. -/
def bucketKeys (c : LRUCACHE) (i : Nat) : List (List Nat) := (bucketList c i).map (keyAt c)

/-! # Theorems -/

/-! ### Neighbours in a list -/

theorem nextOf_nil (x : Ptr) : nextOf [] x = 0 := rfl

theorem nextOf_cons (a : Ptr) (l : List Ptr) (x : Ptr) :
    nextOf (a :: l) x = if x = a then l.headD 0 else nextOf l x := rfl

theorem prevOf_nil (x : Ptr) : prevOf [] x = 0 := rfl

theorem prevOf_cons (a : Ptr) (l : List Ptr) (x : Ptr) :
    prevOf (a :: l) x = if l.head? = some x then a else prevOf l x := rfl

theorem nextOf_of_not_mem {L : List Ptr} {x : Ptr} (h : x ∉ L) : nextOf L x = 0 := by
  induction L with
  | nil => rfl
  | cons a l ih =>
    simp only [List.mem_cons, not_or] at h
    simp [nextOf, h.1, ih h.2]

theorem prevOf_of_not_mem {L : List Ptr} {x : Ptr} (h : x ∉ L) : prevOf L x = 0 := by
  induction L with
  | nil => rfl
  | cons a l ih =>
    simp only [List.mem_cons, not_or] at h
    have : l.head? ≠ some x := fun e => h.2 (List.mem_of_mem_head? e)
    simp [prevOf, this, ih h.2]

theorem nextOf_mem (L : List Ptr) (x : Ptr) : nextOf L x = 0 ∨ nextOf L x ∈ L := by
  induction L with
  | nil => left; rfl
  | cons a l ih =>
    unfold nextOf
    split_ifs with h
    · cases l with
      | nil => left; rfl
      | cons b l => right; simp
    · rcases ih with h | h
      · left; exact h
      · right; exact List.mem_cons_of_mem _ h

theorem prevOf_mem (L : List Ptr) (x : Ptr) : prevOf L x = 0 ∨ prevOf L x ∈ L := by
  induction L with
  | nil => left; rfl
  | cons a l ih =>
    unfold prevOf
    split_ifs with h
    · right; simp
    · rcases ih with h | h
      · left; exact h
      · right; exact List.mem_cons_of_mem _ h

theorem nextOf_ne_self {L : List Ptr} (hn : L.Nodup) (h0 : 0 ∉ L) {x : Ptr} (hx : x ∈ L) :
    nextOf L x ≠ x := by
  induction L with
  | nil => simp at hx
  | cons a l ih =>
    rw [List.nodup_cons] at hn
    simp only [List.mem_cons, not_or] at h0
    unfold nextOf
    split_ifs with h
    · subst h
      cases l with
      | nil => simpa using h0.1
      | cons b l =>
        simp only [List.headD_cons]
        intro e; subst e; exact hn.1 (List.mem_cons_self _ _)
    · rcases List.mem_cons.1 hx with e | e
      · exact absurd e h
      · exact ih hn.2 h0.2 e

/-- In a duplicate-free list `y` follows `x` exactly when `x` precedes `y`. -/
theorem nextOf_eq_iff {L : List Ptr} (hn : L.Nodup) {x y : Ptr} (hy : y ≠ 0) (hx : x ≠ 0) :
    nextOf L x = y ↔ prevOf L y = x := by
  induction L with
  | nil => simp [nextOf, prevOf, hy.symm, hx.symm]
  | cons a l ih =>
    rw [List.nodup_cons] at hn
    unfold nextOf prevOf
    by_cases hxa : x = a
    · subst hxa
      cases l with
      | nil => simp [prevOf, hy.symm, hx.symm]
      | cons b l =>
        simp only [if_true, List.headD_cons, List.head?_cons, Option.some.injEq]
        constructor
        · intro e; simp [e]
        · intro e
          split_ifs at e with hb
          · exact hb
          · exfalso
            have := prevOf_mem (b :: l) y
            rw [e] at this
            rcases this with h | h
            · exact hx h
            · exact hn.1 h
    · simp only [hxa, if_false]
      by_cases hh : l.head? = some y
      · simp only [hh, if_true]
        constructor
        · intro e
          exfalso
          cases l with
          | nil => simp at hh
          | cons b l =>
            simp only [List.head?_cons, Option.some.injEq] at hh
            subst hh
            have hb : b ∉ l := (List.nodup_cons.1 hn.2).1
            unfold nextOf at e
            split_ifs at e with h1
            · cases l with
              | nil => exact hy (by simpa using e.symm)
              | cons c l => simp only [List.headD_cons] at e; subst e; exact hb (List.mem_cons_self _ _)
            · rcases nextOf_mem l x with h | h
              · exact hy (e ▸ h)
              · exact hb (e ▸ h)
        · intro e; exact absurd e.symm hxa
      · simp only [hh, if_false]
        exact ih hn.2

theorem prevOf_ne_self {L : List Ptr} (hn : L.Nodup) (h0 : 0 ∉ L) {x : Ptr} (hx : x ∈ L) :
    prevOf L x ≠ x := by
  intro e
  have hx0 : x ≠ 0 := fun h => h0 (h ▸ hx)
  exact nextOf_ne_self hn h0 hx ((nextOf_eq_iff hn hx0 hx0).2 e)

theorem prevOf_eq_zero_iff {L : List Ptr} (hn : L.Nodup) (h0 : 0 ∉ L) {x : Ptr} (hx : x ∈ L) :
    prevOf L x = 0 ↔ L.head? = some x := by
  induction L with
  | nil => simp at hx
  | cons a l ih =>
    rw [List.nodup_cons] at hn
    simp only [List.mem_cons, not_or] at h0
    unfold prevOf
    by_cases hh : l.head? = some x
    · have hxl : x ∈ l := List.mem_of_mem_head? hh
      have : a ≠ x := fun e => hn.1 (e ▸ hxl)
      simp [hh, this, Ne.symm h0.1]
    · simp only [hh, if_false, List.head?_cons, Option.some.injEq]
      rcases List.mem_cons.1 hx with e | e
      · subst e; simp [prevOf_of_not_mem hn.1]
      · have : a ≠ x := fun e' => hn.1 (e' ▸ e)
        simp [this, ih hn.2 h0.2 e, hh]

theorem nextOf_eq_zero_iff {L : List Ptr} (hn : L.Nodup) (h0 : 0 ∉ L) {x : Ptr} (hx : x ∈ L) :
    nextOf L x = 0 ↔ L.getLast? = some x := by
  induction L with
  | nil => simp at hx
  | cons a l ih =>
    rw [List.nodup_cons] at hn
    simp only [List.mem_cons, not_or] at h0
    unfold nextOf
    cases l with
    | nil =>
      simp only [List.mem_singleton] at hx
      simp [hx]
    | cons b l =>
      rw [List.getLast?_cons_cons]
      by_cases hxa : x = a
      · subst hxa
        simp only [if_true, List.headD_cons]
        constructor
        · intro e; exact absurd (e ▸ List.mem_cons_self b l) h0.2
        · intro e; exact absurd (List.mem_of_getLast?_eq_some e) hn.1
      · simp only [hxa, if_false]
        rcases List.mem_cons.1 hx with e | e
        · exact absurd e hxa
        · exact ih hn.2 h0.2 e

theorem headD_erase {l : List Ptr} {p : Ptr} (hp : p ≠ 0) :
    (l.erase p).headD 0 = if l.headD 0 = p then nextOf l p else l.headD 0 := by
  cases l with
  | nil => simp [Ne.symm hp]
  | cons b l =>
    by_cases hb : b = p
    · subst hb; simp [nextOf]
    · simp [List.erase_cons, hb]

theorem nextOf_erase {L : List Ptr} (hn : L.Nodup) {p x : Ptr} (hp : p ≠ 0) (hx : x ≠ p) :
    nextOf (L.erase p) x = if nextOf L x = p then nextOf L p else nextOf L x := by
  induction L with
  | nil => simp [nextOf]
  | cons a l ih =>
    rw [List.nodup_cons] at hn
    by_cases hap : a = p
    · subst hap
      have h1 : nextOf l x ≠ a := by
        intro e
        rcases nextOf_mem l x with h | h
        · exact hp (e ▸ h)
        · exact hn.1 (e ▸ h)
      simp [nextOf, hx, h1]
    · have hpa : p ≠ a := Ne.symm hap
      rw [List.erase_cons]
      simp only [beq_iff_eq, hap, if_false]
      unfold nextOf
      by_cases hxa : x = a
      · simp only [hxa, if_true, hpa, if_false]
        exact headD_erase hp
      · simp only [hxa, if_false, hpa]
        exact ih hn.2

theorem head?_erase_of_ne {l : List Ptr} {p x : Ptr} (hn : l.Nodup) (hx : x ≠ p) (hp : p ≠ 0) :
    (l.erase p).head? = some x ↔ (l.head? = some x ∨ (l.head? = some p ∧ prevOf l x = p)) := by
  cases l with
  | nil => simp
  | cons b l =>
    rw [List.nodup_cons] at hn
    by_cases hb : b = p
    · subst hb
      have hbx : b ≠ x := Ne.symm hx
      simp only [List.erase_cons_head, List.head?_cons, Option.some.injEq, hbx, false_or,
        true_and, prevOf]
      constructor
      · intro e; simp [e]
      · intro e
        split_ifs at e with h
        · exact h
        · exfalso
          rcases prevOf_mem l x with h' | h'
          · exact hp (e ▸ h')
          · exact hn.1 (e ▸ h')
    · simp [List.erase_cons, hb]

theorem prevOf_erase {L : List Ptr} (hn : L.Nodup) {p x : Ptr} (hp : p ≠ 0) (hx : x ≠ p)
    (hx0 : x ≠ 0) :
    prevOf (L.erase p) x = if prevOf L x = p then prevOf L p else prevOf L x := by
  induction L with
  | nil => simp [prevOf]
  | cons a l ih =>
    rw [List.nodup_cons] at hn
    by_cases hap : a = p
    · subst hap
      simp only [List.erase_cons_head]
      rw [prevOf_cons, prevOf_cons]
      by_cases hh : l.head? = some x
      · have hxl : x ∈ l := List.mem_of_mem_head? hh
        have h1 : l.head? ≠ some a := fun e => hn.1 (List.mem_of_mem_head? e)
        simp only [hh, if_true, h1, if_false, prevOf_of_not_mem hn.1]
        cases l with
        | nil => simp at hh
        | cons b l =>
          simp only [List.head?_cons, Option.some.injEq] at hh
          subst hh
          have hb : b ∉ l := (List.nodup_cons.1 hn.2).1
          have : l.head? ≠ some b := fun e => hb (List.mem_of_mem_head? e)
          simp [prevOf_cons, this, prevOf_of_not_mem hb, hx]
      · have h1 : prevOf l x ≠ a := by
          intro e
          rcases prevOf_mem l x with h | h
          · exact hp (e ▸ h)
          · exact hn.1 (e ▸ h)
        simp [hh, h1]
    · rw [List.erase_cons]
      simp only [beq_iff_eq, hap, if_false]
      rw [prevOf_cons, prevOf_cons, prevOf_cons, ih hn.2]
      have key := head?_erase_of_ne (l := l) hn.2 hx hp
      by_cases hh : l.head? = some x
      · have : (l.erase p).head? = some x := key.2 (Or.inl hh)
        simp [hh, this, hap]
      · by_cases hh2 : l.head? = some p ∧ prevOf l x = p
        · have : (l.erase p).head? = some x := key.2 (Or.inr hh2)
          rw [if_pos this, if_neg hh, if_pos hh2.2, if_pos hh2.1]
        · have h3 : (l.erase p).head? ≠ some x := by
            intro e; rcases key.1 e with h | h
            · exact hh h
            · exact hh2 h
          simp only [h3, if_false, hh]
          by_cases hq : prevOf l x = p
          · have : l.head? ≠ some p := fun e => hh2 ⟨e, hq⟩
            simp [hq, this]
          · simp [hq]

theorem getLastD_erase_aux (l : List Ptr) (d p : Ptr) (hn : (d :: l).Nodup) (hp : p ≠ d) :
    (l.erase p).getLastD d = if l.getLastD d = p then prevOf (d :: l) p else l.getLastD d := by
  induction l generalizing d with
  | nil => simp [Ne.symm hp]
  | cons a l ih =>
    have hn2 : (a :: l).Nodup := (List.nodup_cons.1 hn).2
    by_cases hap : a = p
    · subst hap
      simp only [List.erase_cons_head, List.getLastD_cons, prevOf_cons, List.head?_cons, if_true]
      cases l with
      | nil => simp
      | cons b l =>
        have : (b :: l).getLastD a ≠ a := by
          intro e
          rw [List.getLastD_cons] at e
          have h1 : a ∉ b :: l := (List.nodup_cons.1 hn2).1
          have h2 : l.getLastD b ∈ b :: l := by
            rw [List.getLastD_eq_getLast?]
            cases h : l.getLast? with
            | none => simp
            | some y => simpa using List.mem_cons_of_mem _ (List.mem_of_getLast?_eq_some h)
          exact h1 (e ▸ h2)
        rw [if_neg this, List.getLastD_cons, List.getLastD_cons]
    · rw [List.erase_cons]
      simp only [beq_iff_eq, hap, if_false, List.getLastD_cons]
      rw [ih a hn2 (Ne.symm hap)]
      have : (some a = some p) = False := by simp [hap]
      simp only [prevOf_cons (a := d), List.head?_cons, this, if_false]

theorem getLastD_erase {L : List Ptr} (hn : L.Nodup) {p : Ptr} (hp : p ≠ 0) (h0 : 0 ∉ L) :
    (L.erase p).getLastD 0 = if L.getLastD 0 = p then prevOf L p else L.getLastD 0 := by
  have h := getLastD_erase_aux L 0 p (List.nodup_cons.2 ⟨h0, hn⟩) hp
  rw [h, prevOf_cons]
  by_cases hh : L.head? = some p
  · have hp' : p ∈ L := List.mem_of_mem_head? hh
    simp [hh, (prevOf_eq_zero_iff hn h0 hp').2 hh]
  · simp [hh]

/-! ### Memory access -/

theorem load_eq {c : LRUCACHE} {p : Ptr} {n : NODE} (hp : p ≠ 0) (h : c.mem p = some n) :
    c.load p = some n := by
  simp [LRUCACHE.load, hp, h]

theorem setNext_eq {c : LRUCACHE} {p : Ptr} {n : NODE} (hp : p ≠ 0) (h : c.mem p = some n)
    (v : Ptr) : c.setNext p v = some (c.store p { n with next := v }) := by
  simp [LRUCACHE.setNext, load_eq hp h]

theorem setPrev_eq {c : LRUCACHE} {p : Ptr} {n : NODE} (hp : p ≠ 0) (h : c.mem p = some n)
    (v : Ptr) : c.setPrev p v = some (c.store p { n with prev := v }) := by
  simp [LRUCACHE.setPrev, load_eq hp h]

theorem setHnext_eq {c : LRUCACHE} {p : Ptr} {n : NODE} (hp : p ≠ 0) (h : c.mem p = some n)
    (v : Ptr) : c.setHnext p v = some (c.store p { n with hnext := v }) := by
  simp [LRUCACHE.setHnext, load_eq hp h]

theorem store_mem (c : LRUCACHE) (p : Ptr) (n : NODE) (q : Ptr) :
    (c.store p n).mem q = if q = p then some n else c.mem q := rfl

theorem store_mem_self (c : LRUCACHE) (p : Ptr) (n : NODE) : (c.store p n).mem p = some n := by
  simp [store_mem]

theorem store_mem_ne (c : LRUCACHE) {p q : Ptr} (n : NODE) (h : q ≠ p) :
    (c.store p n).mem q = c.mem q := by
  simp [store_mem, h]

/-! ### The recency list -/

theorem ListOK.ne_zero {c : LRUCACHE} {L : List Ptr} (h : ListOK c L) {p : Ptr} (hp : p ∈ L) :
    p ≠ 0 := fun e => h.nonnull (e ▸ hp)

theorem ListOK.head_mem {c : LRUCACHE} {L : List Ptr} (h : ListOK c L) (hL : L ≠ []) :
    c.head ∈ L := by
  rw [h.head_eq]
  cases L with
  | nil => exact absurd rfl hL
  | cons a l => simp

theorem ListOK.head?_eq {c : LRUCACHE} {L : List Ptr} (h : ListOK c L) {p : Ptr} (hp : p ∈ L) :
    L.head? = some p ↔ p = c.head := by
  rw [h.head_eq]
  cases L with
  | nil => simp at hp
  | cons a l => simp [eq_comm]

theorem ListOK.getLast?_eq {c : LRUCACHE} {L : List Ptr} (h : ListOK c L) {p : Ptr}
    (hp : p ∈ L) : L.getLast? = some p ↔ p = c.tail := by
  rw [h.tail_eq, List.getLastD_eq_getLast?]
  cases hl : L.getLast? with
  | none => simp [List.getLast?_eq_none_iff] at hl; subst hl; simp at hp
  | some y => simp [eq_comm]

theorem nextOf_nextOf_ne {L : List Ptr} (hn : L.Nodup) (h0 : 0 ∉ L) {x : Ptr} (hx : x ∈ L) :
    nextOf L (nextOf L x) ≠ x := by
  induction L with
  | nil => simp at hx
  | cons a l ih =>
    rw [List.nodup_cons] at hn
    simp only [List.mem_cons, not_or] at h0
    by_cases hxa : x = a
    · subst hxa
      rw [nextOf_cons x l x, if_pos rfl, nextOf_cons]
      split_ifs with h
      · cases l with
        | nil => simpa using h0.1
        | cons b l =>
          simp only [List.headD_cons] at h ⊢
          exact absurd (h ▸ List.mem_cons_self b l) hn.1
      · intro e
        rcases nextOf_mem l (l.headD 0) with h' | h'
        · exact h0.1 (by rw [← e, h'])
        · exact hn.1 (e ▸ h')
    · have hxl : x ∈ l := by
        rcases List.mem_cons.1 hx with e | e
        · exact absurd e hxa
        · exact e
      rw [nextOf_cons a l x, if_neg hxa, nextOf_cons]
      split_ifs with h
      · exfalso
        rcases nextOf_mem l x with h' | h'
        · exact h0.1 (by rw [← h, h'])
        · exact hn.1 (h ▸ h')
      · exact ih hn.2 h0.2 hxl

theorem getLastD_cons_of_nonnull {E : List Ptr} (h0 : 0 ∉ E) (p : Ptr) :
    (p :: E).getLastD 0 = if E.getLastD 0 = 0 then p else E.getLastD 0 := by
  cases E with
  | nil => simp
  | cons a l =>
    have : (a :: l).getLastD 0 ≠ 0 := by
      intro e
      apply h0
      rw [List.getLastD_cons, List.getLastD_eq_getLast?] at e
      cases h : l.getLast? with
      | none => rw [h] at e; simp at e; simp [e]
      | some y =>
        rw [h] at e; simp at e; subst e
        exact List.mem_cons_of_mem _ (List.mem_of_getLast?_eq_some h)
    rw [if_neg this]
    simp [List.getLastD_cons]

/-! ### Moving a node to the front of a list -/

theorem mem_erase_ne {L : List Ptr} (hn : L.Nodup) {p q : Ptr} :
    p ∈ L.erase q ↔ p ≠ q ∧ p ∈ L := hn.mem_erase_iff

theorem head?_erase_of_not_head {L : List Ptr} {node : Ptr} (hh : L.head? ≠ some node) :
    (L.erase node).head? = L.head? := by
  cases L with
  | nil => rfl
  | cons a l =>
    have : a ≠ node := fun e => hh (by simp [e])
    simp [List.erase_cons, this]

theorem nextOf_front_self {L : List Ptr} {node : Ptr} (hh : L.head? ≠ some node) :
    nextOf (node :: L.erase node) node = L.headD 0 := by
  rw [nextOf_cons, if_pos rfl, List.headD_eq_head?_getD, head?_erase_of_not_head hh,
    List.headD_eq_head?_getD]

theorem nextOf_front_other {L : List Ptr} (hn : L.Nodup) {node p : Ptr} (h0 : 0 ∉ L)
    (hnode : node ∈ L) (hp : p ∈ L) (hpn : p ≠ node) :
    nextOf (node :: L.erase node) p =
      if p = prevOf L node then nextOf L node else nextOf L p := by
  have hnode0 : node ≠ 0 := fun e => h0 (e ▸ hnode)
  have hp0 : p ≠ 0 := fun e => h0 (e ▸ hp)
  rw [nextOf_cons, if_neg hpn, nextOf_erase hn hnode0 hpn]
  have : nextOf L p = node ↔ p = prevOf L node := by
    rw [nextOf_eq_iff hn hnode0 hp0]; exact eq_comm
  simp only [this]

theorem prevOf_front_self {L : List Ptr} (hn : L.Nodup) {node : Ptr} :
    prevOf (node :: L.erase node) node = 0 := by
  have h1 : node ∉ L.erase node := fun h => ((mem_erase_ne hn).1 h).1 rfl
  have h2 : (L.erase node).head? ≠ some node := fun e => h1 (List.mem_of_mem_head? e)
  rw [prevOf_cons, if_neg h2, prevOf_of_not_mem h1]

theorem prevOf_front_other {L : List Ptr} (hn : L.Nodup) {node p : Ptr} (h0 : 0 ∉ L)
    (hnode : node ∈ L) (hh : L.head? ≠ some node) (hp : p ∈ L) (hpn : p ≠ node) :
    prevOf (node :: L.erase node) p =
      if p = L.headD 0 then node
      else if p = nextOf L node then prevOf L node else prevOf L p := by
  have hnode0 : node ≠ 0 := fun e => h0 (e ▸ hnode)
  have hp0 : p ≠ 0 := fun e => h0 (e ▸ hp)
  rw [prevOf_cons, head?_erase_of_not_head hh, prevOf_erase hn hnode0 hpn hp0]
  have e1 : L.head? = some p ↔ p = L.headD 0 := by
    cases L with
    | nil => simp at hp
    | cons a l => simp [eq_comm]
  have e2 : prevOf L p = node ↔ p = nextOf L node := by
    rw [← nextOf_eq_iff hn hp0 hnode0]; exact eq_comm
  simp only [e1, e2]

theorem getLastD_front {L : List Ptr} (hn : L.Nodup) {node : Ptr} (h0 : 0 ∉ L)
    (hnode : node ∈ L) (hh : L.head? ≠ some node) :
    (node :: L.erase node).getLastD 0 =
      if L.getLastD 0 = node then prevOf L node else L.getLastD 0 := by
  have hnode0 : node ≠ 0 := fun e => h0 (e ▸ hnode)
  have h0' : 0 ∉ L.erase node := fun h => h0 (List.mem_of_mem_erase h)
  rw [getLastD_cons_of_nonnull h0', getLastD_erase hn hnode0 h0]
  have ha0 : prevOf L node ≠ 0 := fun e => hh ((prevOf_eq_zero_iff hn h0 hnode).1 e)
  have hl0 : L.getLastD 0 ≠ 0 := by
    intro e
    apply h0
    rw [List.getLastD_eq_getLast?] at e
    cases h : L.getLast? with
    | none => rw [List.getLast?_eq_none_iff] at h; subst h; simp at hnode
    | some y => rw [h] at e; simp at e; subst e; exact List.mem_of_getLast?_eq_some h
  split_ifs <;> simp_all

theorem nodup_front {L : List Ptr} (hn : L.Nodup) (node : Ptr) :
    (node :: L.erase node).Nodup :=
  List.nodup_cons.2 ⟨fun h => ((mem_erase_ne hn).1 h).1 rfl, hn.erase node⟩

theorem mem_front {L : List Ptr} (hn : L.Nodup) {node : Ptr} (hnode : node ∈ L) (p : Ptr) :
    p ∈ node :: L.erase node ↔ p ∈ L := by
  rw [List.mem_cons, mem_erase_ne hn]
  constructor
  · rintro (rfl | h)
    · exact hnode
    · exact h.2
  · intro h
    by_cases e : p = node
    · exact Or.inl e
    · exact Or.inr ⟨e, h⟩

theorem ListOK.front {c c' : LRUCACHE} {L : List Ptr} {node : Ptr} (h : ListOK c L)
    (hn : node ∈ L) (hh : node ≠ c.head) (hbrk : c'.brk = c.brk) (hhead : c'.head = node)
    (htail : c'.tail = if c.tail = node then prevOf L node else c.tail)
    (hmem : ∀ p ∈ L, ∃ n n', c.mem p = some n ∧ c'.mem p = some n' ∧
      n'.prev = (if p = node then 0 else if p = c.head then node
        else if p = nextOf L node then prevOf L node else n.prev) ∧
      n'.next = (if p = node then c.head
        else if p = prevOf L node then nextOf L node else n.next)) :
    ListOK c' (node :: L.erase node) := by
  have hhd : L.head? ≠ some node := fun e => hh ((h.head?_eq hn).1 e)
  refine ⟨nodup_front h.nodup node, ?_, ?_, ?_, ?_, ?_⟩
  · rw [mem_front h.nodup hn]; exact h.nonnull
  · intro p hp
    rw [mem_front h.nodup hn] at hp
    rw [hbrk]; exact h.bound p hp
  · simp [hhead]
  · rw [getLastD_front h.nodup h.nonnull hn hhd, htail, h.tail_eq]
  · intro p hp
    rw [mem_front h.nodup hn] at hp
    obtain ⟨n, n', hm, hm', hp', hn'⟩ := hmem p hp
    obtain ⟨n0, hm0, hp0, hn0⟩ := h.link p hp
    rw [hm] at hm0
    cases hm0
    refine ⟨n', hm', ?_, ?_⟩
    · rw [hp']
      by_cases e : p = node
      · subst e; rw [if_pos rfl, prevOf_front_self h.nodup]
      · rw [if_neg e, prevOf_front_other h.nodup h.nonnull hn hhd hp e, ← h.head_eq, hp0]
    · rw [hn']
      by_cases e : p = node
      · subst e; rw [if_pos rfl, nextOf_front_self hhd, h.head_eq]
      · rw [if_neg e, nextOf_front_other h.nodup h.nonnull hn hp e, hn0]

theorem moveToHead_spec {c : LRUCACHE} {L : List Ptr} (h : ListOK c L) {node : Ptr}
    (hn : node ∈ L) :
    ∃ c', LRUCacheMoveNodeToHead c node = some (c', 0) ∧
      ListOK c' (node :: L.erase node) ∧ SameData c c' := by
  by_cases hh : node = c.head
  · refine ⟨c, by simp [LRUCacheMoveNodeToHead, hh], ?_, ⟨rfl, rfl, rfl, rfl, rfl, fun _ => rfl⟩⟩
    have h1 : L.head? = some node := (h.head?_eq hn).2 hh
    obtain ⟨l, rfl⟩ : ∃ l, L = node :: l := by
      cases L with
      | nil => simp at hn
      | cons a l => simp at h1; exact ⟨l, by rw [h1]⟩
    simpa using h
  · have hnode0 := h.ne_zero hn
    obtain ⟨n, hm, hprev, hnext⟩ := h.link node hn
    have hhd : L.head? ≠ some node := fun e => hh ((h.head?_eq hn).1 e)
    have ha0 : prevOf L node ≠ 0 := fun e => hhd ((prevOf_eq_zero_iff h.nodup h.nonnull hn).1 e)
    have haL : prevOf L node ∈ L := (prevOf_mem L node).resolve_left ha0
    have han : prevOf L node ≠ node := prevOf_ne_self h.nodup h.nonnull hn
    obtain ⟨na, hma, hprev_a, hnext_a⟩ := h.link _ haL
    have hLne : L ≠ [] := List.ne_nil_of_mem hn
    have hhL := h.head_mem hLne
    have hh0 := h.ne_zero hhL
    obtain ⟨nh, hmh, hprev_h, hnext_h⟩ := h.link _ hhL
    by_cases hb : nextOf L node = 0
    · have htl : node = c.tail :=
        (h.getLast?_eq hn).1 ((nextOf_eq_zero_iff h.nodup h.nonnull hn).1 hb)
      by_cases hha : c.head = prevOf L node
      · simp only [LRUCacheMoveNodeToHead, hh, ← htl, LRUCACHE.load, LRUCACHE.setNext,
          LRUCACHE.setPrev, LRUCACHE.store, hnode0, hm, hprev, hnext, ha0, hma, han, Ne.symm han,
          hb, hh0, hmh, hha, if_true, if_false, Option.bind_eq_bind, Option.some_bind,
          Option.map_some', ne_eq, not_true_eq_false, not_false_eq_true, Option.pure_def]
        refine ⟨_, rfl, h.front hn hh rfl rfl ?_ ?_, ⟨rfl, rfl, rfl, rfl, rfl, ?_⟩⟩
        · simp [← htl]
        · intro p hp
          obtain ⟨np, hmp, -, -⟩ := h.link p hp
          by_cases e1 : p = node
          · subst e1; simp [hm, hha, Ne.symm han, hb]
          · by_cases e2 : p = prevOf L node
            · subst e2; simp [hma, hha, han, hb]
            · simp [hmp, e1, e2, hha, hb, h.ne_zero hp]
        · intro p
          by_cases e1 : p = node
          · subst e1; simp [hm, Ne.symm han, NODE.unlinked]
          · by_cases e2 : p = prevOf L node
            · subst e2; simp [hma, NODE.unlinked]
            · simp [e1, e2]
      · simp only [LRUCacheMoveNodeToHead, hh, ← htl, LRUCACHE.load, LRUCACHE.setNext,
          LRUCACHE.setPrev, LRUCACHE.store, hnode0, hm, hprev, hnext, ha0, hma, han, Ne.symm han,
          hb, hh0, hmh, hha, Ne.symm hh, if_true, if_false, Option.bind_eq_bind,
          Option.some_bind, Option.map_some', ne_eq, not_true_eq_false, not_false_eq_true,
          Option.pure_def]
        refine ⟨_, rfl, h.front hn hh rfl rfl ?_ ?_, ⟨rfl, rfl, rfl, rfl, rfl, ?_⟩⟩
        · simp [← htl]
        · intro p hp
          obtain ⟨np, hmp, -, -⟩ := h.link p hp
          by_cases e1 : p = node
          · subst e1; simp [hm, hh, Ne.symm han, hb]
          · by_cases e2 : p = prevOf L node
            · subst e2; simp [hma, Ne.symm hha, han, hb, ha0]
            · by_cases e3 : p = c.head
              · subst e3; simp [hmh, e1, e2, hb, hh0]
              · simp [hmp, e1, e2, e3, hb, h.ne_zero hp]
        · intro p
          by_cases e1 : p = node
          · subst e1; simp [hm, hh, NODE.unlinked]
          · by_cases e2 : p = prevOf L node
            · subst e2; simp [hma, Ne.symm hha, han, NODE.unlinked]
            · by_cases e3 : p = c.head
              · subst e3; simp [hmh, e1, e2, NODE.unlinked]
              · simp [e1, e2, e3]
    · have hbL : nextOf L node ∈ L := (nextOf_mem L node).resolve_left hb
      have hbn : nextOf L node ≠ node := nextOf_ne_self h.nodup h.nonnull hn
      have hna : nextOf L (prevOf L node) = node := (nextOf_eq_iff h.nodup hnode0 ha0).2 rfl
      have hba : nextOf L node ≠ prevOf L node := by
        intro e
        apply nextOf_nextOf_ne h.nodup h.nonnull hn
        rw [e, hna]
      have hbh : nextOf L node ≠ c.head := by
        intro e
        have h1 : prevOf L (nextOf L node) = node := (nextOf_eq_iff h.nodup hb hnode0).1 rfl
        have h2 : prevOf L c.head = 0 :=
          (prevOf_eq_zero_iff h.nodup h.nonnull hhL).2 ((h.head?_eq hhL).2 rfl)
        rw [e, h2] at h1
        exact hnode0 h1.symm
      have htl : node ≠ c.tail := fun e =>
        hb ((nextOf_eq_zero_iff h.nodup h.nonnull hn).2 ((h.getLast?_eq hn).2 e))
      have ht0 : c.tail ≠ 0 := by
        rw [h.tail_eq, List.getLastD_eq_getLast?]
        intro e
        cases hl : L.getLast? with
        | none => rw [List.getLast?_eq_none_iff] at hl; exact hLne hl
        | some y =>
          rw [hl] at e; simp at e; subst e
          exact h.nonnull (List.mem_of_getLast?_eq_some hl)
      obtain ⟨nb, hmb, hprev_b, hnext_b⟩ := h.link _ hbL
      by_cases hha : c.head = prevOf L node
      · simp only [LRUCacheMoveNodeToHead, hh, htl, LRUCACHE.load, LRUCACHE.setNext,
          LRUCACHE.setPrev, LRUCACHE.store, hnode0, hm, hprev, hnext, ha0, hma, han, Ne.symm han,
          hb, hh0, hmh, hha, hmb, hba, hbn, Ne.symm hba, Ne.symm hbn, ht0, if_true, if_false,
          Option.bind_eq_bind, Option.some_bind, Option.map_some', ne_eq, not_true_eq_false,
          not_false_eq_true, Option.pure_def]
        refine ⟨_, rfl, h.front hn hh rfl rfl ?_ ?_, ⟨rfl, rfl, rfl, rfl, rfl, ?_⟩⟩
        · simp [Ne.symm htl]
        · intro p hp
          obtain ⟨np, hmp, -, -⟩ := h.link p hp
          by_cases e1 : p = node
          · subst e1; simp [hm, hha, Ne.symm han, hb]
          · by_cases e2 : p = prevOf L node
            · subst e2; simp [hma, hha, han, hb, Ne.symm hba]
            · by_cases e3 : p = nextOf L node
              · subst e3; simp [hmb, hha, hbn, hba]
              · simp [hmp, e1, e2, e3, hha, hb, h.ne_zero hp]
        · intro p
          by_cases e1 : p = node
          · subst e1; simp [hm, Ne.symm han, NODE.unlinked]
          · by_cases e2 : p = prevOf L node
            · subst e2; simp [hma, NODE.unlinked]
            · by_cases e3 : p = nextOf L node
              · subst e3; simp [hmb, hbn, hba, NODE.unlinked]
              · simp [e1, e2, e3]
      · simp only [LRUCacheMoveNodeToHead, hh, htl, LRUCACHE.load, LRUCACHE.setNext,
          LRUCACHE.setPrev, LRUCACHE.store, hnode0, hm, hprev, hnext, ha0, hma, han, Ne.symm han,
          hb, hh0, hmh, hha, hmb, hba, hbn, Ne.symm hba, Ne.symm hbn, ht0, Ne.symm hh,
          Ne.symm hbh, if_true, if_false,
          Option.bind_eq_bind, Option.some_bind, Option.map_some', ne_eq, not_true_eq_false,
          not_false_eq_true, Option.pure_def]
        refine ⟨_, rfl, h.front hn hh rfl rfl ?_ ?_, ⟨rfl, rfl, rfl, rfl, rfl, ?_⟩⟩
        · simp [Ne.symm htl]
        · intro p hp
          obtain ⟨np, hmp, -, -⟩ := h.link p hp
          by_cases e1 : p = node
          · subst e1; simp [hm, hh, Ne.symm han, hb]
          · by_cases e2 : p = prevOf L node
            · subst e2; simp [hma, Ne.symm hha, han, hb, Ne.symm hba]
            · by_cases e3 : p = nextOf L node
              · subst e3; simp [hmb, hbh, hbn, hba]
              · by_cases e4 : p = c.head
                · subst e4; simp [hmh, e1, e2, e3, hb, hh0]
                · simp [hmp, e1, e2, e3, e4, hb, h.ne_zero hp]
        · intro p
          by_cases e1 : p = node
          · subst e1; simp [hm, hh, NODE.unlinked]
          · by_cases e2 : p = prevOf L node
            · subst e2; simp [hma, Ne.symm hha, han, Ne.symm hba, NODE.unlinked]
            · by_cases e3 : p = nextOf L node
              · subst e3; simp [hmb, hbh, hbn, hba, NODE.unlinked]
              · by_cases e4 : p = c.head
                · subst e4; simp [hmh, e1, e2, e3, NODE.unlinked]
                · simp [e1, e2, e3, e4]

/-! ### States that differ in the recency order only -/

theorem SameData.refl (c : LRUCACHE) : SameData c c :=
  ⟨rfl, rfl, rfl, rfl, rfl, fun _ => rfl⟩

theorem SameData.trans {a b c : LRUCACHE} (h1 : SameData a b) (h2 : SameData b c) :
    SameData a c :=
  ⟨h2.capacity.trans h1.capacity, h2.size.trans h1.size, h2.sizeInBytes.trans h1.sizeInBytes,
    h2.nodes.trans h1.nodes, h2.brk.trans h1.brk, fun p => (h2.mem p).trans (h1.mem p)⟩

theorem SameData.symm {a b : LRUCACHE} (h : SameData a b) : SameData b a :=
  ⟨h.capacity.symm, h.size.symm, h.sizeInBytes.symm, h.nodes.symm, h.brk.symm,
    fun p => (h.mem p).symm⟩

theorem SameData.mem_some {c c' : LRUCACHE} (h : SameData c c') {p : Ptr} {n : NODE}
    (hm : c.mem p = some n) : ∃ n', c'.mem p = some n' ∧ n'.unlinked = n.unlinked := by
  have := h.mem p
  rw [hm] at this
  cases hm' : c'.mem p with
  | none => rw [hm'] at this; simp at this
  | some n' => rw [hm'] at this; simp at this; exact ⟨n', rfl, this⟩

theorem unlinked_eq {n n' : NODE} (h : n'.unlinked = n.unlinked) :
    n'.key = n.key ∧ n'.hnext = n.hnext ∧ n'.serializedValue = n.serializedValue ∧
      n'.valueSize = n.valueSize ∧ n'.hashKey = n.hashKey := by
  cases n; cases n'
  simp [NODE.unlinked] at h
  simp [h]

theorem SameData.load_some {c c' : LRUCACHE} (h : SameData c c') {p : Ptr} {n : NODE}
    (hm : c.load p = some n) : ∃ n', c'.load p = some n' ∧ n'.unlinked = n.unlinked := by
  unfold LRUCACHE.load at hm ⊢
  split_ifs at hm ⊢ with hp
  exact h.mem_some hm

theorem SameData.load_none {c c' : LRUCACHE} (h : SameData c c') {p : Ptr}
    (hm : c.load p = none) : c'.load p = none := by
  cases h' : c'.load p with
  | none => rfl
  | some n' =>
    obtain ⟨n, hn, -⟩ := h.symm.load_some h'
    rw [hm] at hn; cases hn

theorem SameData.keyAt_eq {c c' : LRUCACHE} (h : SameData c c') (p : Ptr) :
    keyAt c' p = keyAt c p := by
  unfold LRUCache.keyAt
  cases hm : c.mem p with
  | none =>
    have := h.mem p
    rw [hm] at this
    cases hm' : c'.mem p with
    | none => rfl
    | some n' => rw [hm'] at this; simp at this
  | some n =>
    obtain ⟨n', hn', e⟩ := h.mem_some hm
    simp [hn', (unlinked_eq e).1]

theorem SameData.valueAt_eq {c c' : LRUCACHE} (h : SameData c c') (p : Ptr) :
    valueAt c' p = valueAt c p := by
  unfold LRUCache.valueAt
  cases hm : c.mem p with
  | none =>
    have := h.mem p
    rw [hm] at this
    cases hm' : c'.mem p with
    | none => rfl
    | some n' => rw [hm'] at this; simp at this
  | some n =>
    obtain ⟨n', hn', e⟩ := h.mem_some hm
    simp [hn', (unlinked_eq e).2.2.1]

theorem SameData.valueSizeAt_eq {c c' : LRUCACHE} (h : SameData c c') (p : Ptr) :
    valueSizeAt c' p = valueSizeAt c p := by
  unfold LRUCache.valueSizeAt
  cases hm : c.mem p with
  | none =>
    have := h.mem p
    rw [hm] at this
    cases hm' : c'.mem p with
    | none => rfl
    | some n' => rw [hm'] at this; simp at this
  | some n =>
    obtain ⟨n', hn', e⟩ := h.mem_some hm
    simp [hn', (unlinked_eq e).2.2.2.1]

/-! ### The search -/

theorem findLoop_congr {c c' : LRUCACHE} (h : SameData c c') (key : List Nat) (fuel : Nat)
    (p : Ptr) : findLoop c' key fuel p = findLoop c key fuel p := by
  induction fuel generalizing p with
  | zero => rfl
  | succ f ih =>
    unfold findLoop
    by_cases hp : p = 0
    · simp [hp]
    · simp only [hp, if_false]
      cases hm : c.load p with
      | none => rw [h.load_none hm]
      | some n =>
        obtain ⟨n', hn', e⟩ := h.load_some hm
        rw [hn']
        simp only [(unlinked_eq e).1, (unlinked_eq e).2.1, ih]

theorem find_congr {c c' : LRUCACHE} (h : SameData c c') (key : List Nat) :
    c'.find key = c.find key := by
  unfold LRUCACHE.find
  rw [h.brk, h.nodes, findLoop_congr h]

/-- The function `LRUCacheGet` is the search followed by the promotion of the node found. -/
theorem getLoop_eq (c : LRUCACHE) (key : List Nat) (fuel : Nat) (p : Ptr) :
    getLoop c key fuel p =
      match findLoop c key fuel p with
      | none => none
      | some q => if q = 0 then some (c, 0)
          else (LRUCacheMoveNodeToHead c q).map fun r => (r.1, q) := by
  induction fuel generalizing p with
  | zero => rfl
  | succ f ih =>
    unfold getLoop findLoop
    by_cases hp : p = 0
    · simp [hp]
    · simp only [hp, if_false]
      cases hm : c.load p with
      | none => simp
      | some n =>
        simp only [Option.bind_eq_bind, Option.some_bind]
        by_cases hk : strncmp n.key key MAX_KEY_LENGTH = 0
        · simp only [hk, if_true, hp, if_false]
          cases LRUCacheMoveNodeToHead c p <;> simp
        · simp only [hk, if_false]
          exact ih _

theorem get_eq (c : LRUCACHE) (key : List Nat) :
    LRUCacheGet c key =
      match c.find key with
      | none => none
      | some q => if q = 0 then some (c, 0)
          else (LRUCacheMoveNodeToHead c q).map fun r => (r.1, q) :=
  getLoop_eq c key _ _

/-! ### Bucket chains -/

theorem Chain.congr {c c' : LRUCACHE} {p : Ptr} {C : List Ptr}
    (hmem : ∀ q ∈ C, ∀ n, c.mem q = some n → ∃ n', c'.mem q = some n' ∧ n'.hnext = n.hnext)
    (h : Chain c p C) : Chain c' p C := by
  induction C generalizing p with
  | nil => exact h
  | cons q C ih =>
    obtain ⟨h1, h2, n, hn, h3⟩ := h
    obtain ⟨n', hn', e⟩ := hmem q (List.mem_cons_self _ _) n hn
    refine ⟨h1, h2, n', hn', ?_⟩
    rw [e]
    exact ih (fun r hr => hmem r (List.mem_cons_of_mem _ hr)) h3

theorem Chain.findLoop_eq {c : LRUCACHE} {p : Ptr} {C : List Ptr} (h : Chain c p C)
    (key : List Nat) {fuel : Nat} (hf : C.length < fuel) :
    findLoop c key fuel p = some ((C.find? (keyMatches c key)).getD 0) := by
  induction C generalizing p fuel with
  | nil =>
    obtain ⟨f, rfl⟩ : ∃ f, fuel = f + 1 := ⟨fuel - 1, by simp at hf; omega⟩
    have : p = 0 := h
    simp [LRUCache.findLoop, this]
  | cons q C ih =>
    obtain ⟨f, rfl⟩ : ∃ f, fuel = f + 1 := ⟨fuel - 1, by simp at hf; omega⟩
    obtain ⟨h1, h2, n, hn, h3⟩ := h
    subst h1
    unfold LRUCache.findLoop
    simp only [h2, if_false, load_eq h2 hn, List.find?_cons, keyMatches, hn]
    by_cases hk : strncmp n.key key MAX_KEY_LENGTH = 0
    · simp [hk]
    · simp only [hk, if_false, decide_False]
      exact ih h3 (by simp at hf; omega)

theorem length_le_of_bound {L : List Ptr} (hn : L.Nodup) {b : Nat} (hb : ∀ p ∈ L, p < b) :
    L.length ≤ b := by
  have h1 : L ⊆ List.range b := fun p hp => List.mem_range.2 (hb p hp)
  have h2 := (List.subperm_of_subset hn h1).length_le
  simpa using h2

theorem Inv.chain_length {c : LRUCACHE} {L : List Ptr} (h : Inv c L) {C : List Ptr}
    (hn : C.Nodup) (hs : ∀ p ∈ C, p ∈ L) : C.length < c.brk + 1 := by
  have := length_le_of_bound hn (fun p hp => h.list.bound p (hs p hp))
  omega

/-- The search always comes to an end in a state that satisfies the invariant: it finds either
nothing or a node of the recency list that is in the bucket of `key` and matches it. -/
theorem Inv.find_eq {c : LRUCACHE} {L : List Ptr} (h : Inv c L) (key : List Nat) :
    ∃ q, c.find key = some q ∧ (q ≠ 0 → q ∈ L ∧ keyMatches c key q = true) := by
  obtain ⟨C, hC, hnd, hmem⟩ := h.hash (LRUCacheGetHashIndex key)
  refine ⟨_, hC.findLoop_eq key (h.chain_length hnd (fun p hp => (hmem p hp).1)), ?_⟩
  intro hq
  cases hf : C.find? (keyMatches c key) with
  | none => rw [hf] at hq; exact absurd rfl hq
  | some q =>
    simp only [Option.getD_some]
    exact ⟨(hmem q (List.mem_of_find?_eq_some hf)).1, List.find?_some hf⟩

/-! ### Frame lemmas for the invariant -/

theorem ListOK.links_congr {c c' : LRUCACHE} {L : List Ptr} (h : ListOK c L)
    (hhead : c'.head = c.head) (htail : c'.tail = c.tail) (hbrk : c.brk ≤ c'.brk)
    (hmem : ∀ p ∈ L, ∀ n, c.mem p = some n →
      ∃ n', c'.mem p = some n' ∧ n'.prev = n.prev ∧ n'.next = n.next) :
    ListOK c' L := by
  refine ⟨h.nodup, h.nonnull, fun p hp => lt_of_lt_of_le (h.bound p hp) hbrk,
    hhead.trans h.head_eq, htail.trans h.tail_eq, ?_⟩
  intro p hp
  obtain ⟨n, hn, h1, h2⟩ := h.link p hp
  obtain ⟨n', hn', e1, e2⟩ := hmem p hp n hn
  exact ⟨n', hn', e1.trans h1, e2.trans h2⟩

theorem BucketOK.bucket_congr {c c' : LRUCACHE} {L L' : List Ptr} {i : Nat} {C : List Ptr}
    (h : BucketOK c L i C) (hnodes : c'.nodes i = c.nodes i)
    (hmem : ∀ p ∈ C, p ∈ L' ∧ ∀ n, c.mem p = some n →
      ∃ n', c'.mem p = some n' ∧ n'.key = n.key ∧ n'.hnext = n.hnext) :
    BucketOK c' L' i C := by
  obtain ⟨h1, h2, h3⟩ := h
  refine ⟨?_, h2, ?_⟩
  · rw [hnodes]
    refine Chain.congr (fun q hq n hn => ?_) h1
    obtain ⟨n', hn', -, e⟩ := (hmem q hq).2 n hn
    exact ⟨n', hn', e⟩
  · intro p hp
    obtain ⟨-, n, hn, hi⟩ := h3 p hp
    obtain ⟨n', hn', e, -⟩ := (hmem p hp).2 n hn
    exact ⟨(hmem p hp).1, n', hn', by rw [e]; exact hi⟩

theorem HashOK.hash_congr {c c' : LRUCACHE} {L L' : List Ptr} (h : HashOK c L)
    (hnodes : c'.nodes = c.nodes) (hL : ∀ p ∈ L, p ∈ L')
    (hmem : ∀ p ∈ L, ∀ n, c.mem p = some n →
      ∃ n', c'.mem p = some n' ∧ n'.key = n.key ∧ n'.hnext = n.hnext) :
    HashOK c' L' := by
  intro i
  obtain ⟨C, hC⟩ := h i
  refine ⟨C, hC.bucket_congr (by rw [hnodes]) ?_⟩
  intro p hp
  exact ⟨hL p (hC.2.2 p hp).1, hmem p (hC.2.2 p hp).1⟩

theorem SameData.mem_data {c c' : LRUCACHE} (h : SameData c c') (p : Ptr) (n : NODE)
    (hn : c.mem p = some n) : ∃ n', c'.mem p = some n' ∧ n'.key = n.key ∧ n'.hnext = n.hnext := by
  obtain ⟨n', hn', e⟩ := h.mem_some hn
  exact ⟨n', hn', (unlinked_eq e).1, (unlinked_eq e).2.1⟩

/-- Promoting a node of the list keeps the invariant. -/
theorem Inv.moveToHead {c : LRUCACHE} {L : List Ptr} (h : Inv c L) {node : Ptr}
    (hn : node ∈ L) :
    ∃ c', LRUCacheMoveNodeToHead c node = some (c', 0) ∧
      Inv c' (node :: L.erase node) ∧ SameData c c' := by
  obtain ⟨c', h1, h2, h3⟩ := moveToHead_spec h.list hn
  refine ⟨c', h1, ⟨h2, ?_, by rw [h3.brk]; exact h.brk_pos⟩, h3⟩
  exact h.hash.hash_congr h3.nodes (fun p hp => (mem_front h.list.nodup hn p).2 hp)
    (fun p _ n hn => h3.mem_data p n hn)

/-- What `LRUCacheGet` does in a state that satisfies the invariant. -/
theorem Inv.get {c : LRUCACHE} {L : List Ptr} (h : Inv c L) (key : List Nat) :
    (c.find key = some 0 ∧ LRUCacheGet c key = some (c, 0)) ∨
    ∃ q c', q ≠ 0 ∧ c.find key = some q ∧ q ∈ L ∧ keyMatches c key q = true ∧
      LRUCacheGet c key = some (c', q) ∧ LRUCacheMoveNodeToHead c q = some (c', 0) ∧
      Inv c' (q :: L.erase q) ∧ SameData c c' := by
  obtain ⟨q, hq, hq'⟩ := h.find_eq key
  by_cases h0 : q = 0
  · left
    subst h0
    exact ⟨hq, by rw [get_eq, hq]; simp⟩
  · right
    obtain ⟨hqL, hk⟩ := hq' h0
    obtain ⟨c', h1, h2, h3⟩ := h.moveToHead hqL
    exact ⟨q, c', h0, hq, hqL, hk, by rw [get_eq, hq]; simp [h0, h1], h1, h2, h3⟩

/-! ### Unlinking a node from the list, and pushing one in front -/

theorem ListOK.erase {c c' : LRUCACHE} {L : List Ptr} {t : Ptr} (h : ListOK c L) (ht : t ∈ L)
    (hbrk : c.brk ≤ c'.brk)
    (hhead : c'.head = if c.head = t then nextOf L t else c.head)
    (htail : c'.tail = if c.tail = t then prevOf L t else c.tail)
    (hmem : ∀ p ∈ L, p ≠ t → ∃ n n', c.mem p = some n ∧ c'.mem p = some n' ∧
      n'.prev = (if p = nextOf L t then prevOf L t else n.prev) ∧
      n'.next = (if p = prevOf L t then nextOf L t else n.next)) :
    ListOK c' (L.erase t) := by
  have ht0 : t ≠ 0 := h.ne_zero ht
  refine ⟨h.nodup.erase t, fun h0 => h.nonnull (List.mem_of_mem_erase h0), ?_, ?_, ?_, ?_⟩
  · intro p hp
    exact lt_of_lt_of_le (h.bound p (List.mem_of_mem_erase hp)) hbrk
  · rw [hhead, headD_erase ht0, h.head_eq]
  · rw [htail, getLastD_erase h.nodup ht0 h.nonnull, h.tail_eq]
  · intro p hp
    obtain ⟨hpt, hpL⟩ := (mem_erase_ne h.nodup).1 hp
    have hp0 : p ≠ 0 := h.ne_zero hpL
    obtain ⟨n, n', hm, hm', hp', hn'⟩ := hmem p hpL hpt
    obtain ⟨n0, hm0, hp0', hn0⟩ := h.link p hpL
    rw [hm] at hm0
    cases hm0
    refine ⟨n', hm', ?_, ?_⟩
    · rw [hp', prevOf_erase h.nodup ht0 hpt hp0, hp0']
      have e : prevOf L p = t ↔ p = nextOf L t := by
        rw [← nextOf_eq_iff h.nodup hp0 ht0]; exact eq_comm
      simp only [e]
    · rw [hn', nextOf_erase h.nodup ht0 hpt, hn0]
      have e : nextOf L p = t ↔ p = prevOf L t := by
        rw [nextOf_eq_iff h.nodup ht0 hp0]; exact eq_comm
      simp only [e]

theorem ListOK.push {c c' : LRUCACHE} {L : List Ptr} {node : Ptr} (h : ListOK c L)
    (hn : node ∉ L) (hn0 : node ≠ 0) (hbrk : c.brk ≤ c'.brk) (hnb : node < c'.brk)
    (hhead : c'.head = node) (htail : c'.tail = if c.tail = 0 then node else c.tail)
    (hnode : ∃ n, c'.mem node = some n ∧ n.prev = 0 ∧ n.next = c.head)
    (hmem : ∀ p ∈ L, ∃ n n', c.mem p = some n ∧ c'.mem p = some n' ∧
      n'.prev = (if p = c.head then node else n.prev) ∧ n'.next = n.next) :
    ListOK c' (node :: L) := by
  refine ⟨List.nodup_cons.2 ⟨hn, h.nodup⟩, ?_, ?_, ?_, ?_, ?_⟩
  · simp only [List.mem_cons, not_or]
    exact ⟨Ne.symm hn0, h.nonnull⟩
  · intro p hp
    rcases List.mem_cons.1 hp with e | e
    · rw [e]; exact hnb
    · exact lt_of_lt_of_le (h.bound p e) hbrk
  · simp [hhead]
  · rw [getLastD_cons_of_nonnull h.nonnull, htail, h.tail_eq]
  · intro p hp
    rcases List.mem_cons.1 hp with e | e
    · subst e
      obtain ⟨n, hm, h1, h2⟩ := hnode
      refine ⟨n, hm, ?_, ?_⟩
      · have : L.head? ≠ some p := fun e => hn (List.mem_of_mem_head? e)
        rw [prevOf_cons, if_neg this, prevOf_of_not_mem hn, h1]
      · rw [nextOf_cons, if_pos rfl, h2, h.head_eq]
    · have hpn : p ≠ node := fun e' => hn (e' ▸ e)
      obtain ⟨n, n', hm, hm', hp', hn'⟩ := hmem p e
      obtain ⟨n0, hm0, hp0', hn0⟩ := h.link p e
      rw [hm] at hm0
      cases hm0
      refine ⟨n', hm', ?_, ?_⟩
      · rw [hp', prevOf_cons, hp0']
        have e1 : L.head? = some p ↔ p = c.head := h.head?_eq e
        simp only [e1]
      · rw [hn', nextOf_cons, if_neg hpn, hn0]

/-! ### Eviction -/

theorem ListOK.tail_mem {c : LRUCACHE} {L : List Ptr} (h : ListOK c L) (hL : L ≠ []) :
    c.tail ∈ L := by
  rw [h.tail_eq, List.getLastD_eq_getLast?]
  cases hl : L.getLast? with
  | none => rw [List.getLast?_eq_none_iff] at hl; exact absurd hl hL
  | some y => simpa using List.mem_of_getLast?_eq_some hl

theorem ListOK.nextOf_tail {c : LRUCACHE} {L : List Ptr} (h : ListOK c L) (hL : L ≠ []) :
    nextOf L c.tail = 0 :=
  (nextOf_eq_zero_iff h.nodup h.nonnull (h.tail_mem hL)).2
    ((h.getLast?_eq (h.tail_mem hL)).2 rfl)

theorem ListOK.prevOf_head {c : LRUCACHE} {L : List Ptr} (h : ListOK c L) (hL : L ≠ []) :
    prevOf L c.head = 0 :=
  (prevOf_eq_zero_iff h.nodup h.nonnull (h.head_mem hL)).2
    ((h.head?_eq (h.head_mem hL)).2 rfl)

/-- In a well-formed list no `next` link leads to a node outside the list, so the loop of
`LRUCacheRemoveTail` that looks for the predecessor of such a node runs into `NULL`. -/
theorem walkNext_none {c : LRUCACHE} {E : List Ptr} (h : ListOK c E) {t : Ptr} (ht : t ∉ E)
    (ht0 : t ≠ 0) (fuel : Nat) (b : Ptr) (hb : b = 0 ∨ b ∈ E) : walkNext c t fuel b = none := by
  induction fuel generalizing b with
  | zero => rfl
  | succ f ih =>
    unfold walkNext
    rcases hb with hb | hb
    · simp [LRUCACHE.load, hb]
    · obtain ⟨n, hm, -, hn⟩ := h.link b hb
      have hne : n.next ≠ t := by
        rw [hn]
        intro e
        rcases nextOf_mem E b with h' | h'
        · exact ht0 (e ▸ h')
        · exact ht (e ▸ h')
      simp only [load_eq (h.ne_zero hb) hm, Option.bind_eq_bind, Option.some_bind, ne_eq, hne,
        not_false_eq_true, if_true]
      apply ih
      rw [hn]
      exact nextOf_mem E b

theorem removeTail_nil {c : LRUCACHE} (h : c.tail = 0) : LRUCacheRemoveTail c = some (c, -1) := by
  simp [LRUCacheRemoveTail, h]

theorem BucketOK.first_mem {c : LRUCACHE} {L : List Ptr} {i : Nat} {C : List Ptr}
    (h : BucketOK c L i C) : c.nodes i = 0 ∨ (c.nodes i ∈ C ∧ c.nodes i ∈ L) := by
  cases C with
  | nil => left; exact h.1
  | cons q C =>
    right
    have : c.nodes i = q := h.1.1
    rw [this]
    exact ⟨List.mem_cons_self _ _, (h.2.2 q (List.mem_cons_self _ _)).1⟩

theorem BucketOK.index_eq {c : LRUCACHE} {L : List Ptr} {i : Nat} {C : List Ptr}
    (h : BucketOK c L i C) {p : Ptr} (hp : p ∈ C) {n : NODE} (hn : c.mem p = some n) :
    LRUCacheGetHashIndex n.key = i := by
  obtain ⟨-, n', hn', e⟩ := h.2.2 p hp
  rw [hn] at hn'
  cases hn'
  exact e

/-- The list part of `LRUCacheRemoveTail`: the state before the hash index is touched. -/
theorem ListOK.unlinkTail {c : LRUCACHE} {L : List Ptr} (h : ListOK c L) (hL : L ≠ []) :
    ∃ c1 n, c.mem c.tail = some n ∧
      (if c.tail = c.head then some { c with head := 0, tail := 0 }
        else (c.load c.tail).bind fun n =>
          LRUCACHE.setNext { c with tail := n.prev } n.prev 0) = some c1 ∧
      ListOK c1 (L.erase c.tail) ∧ c1.mem c.tail = some n ∧
      c1.nodes = c.nodes ∧ c1.brk = c.brk ∧ c1.size = c.size ∧ c1.capacity = c.capacity ∧
      c1.sizeInBytes = c.sizeInBytes ∧
      (∀ p, p ∉ L → c1.mem p = c.mem p) ∧
      (∀ p, (c1.mem p).map NODE.unlinked = (c.mem p).map NODE.unlinked) := by
  have htL := h.tail_mem hL
  have ht0 := h.ne_zero htL
  obtain ⟨n, hm, hprev, hnext⟩ := h.link _ htL
  have hnt := h.nextOf_tail hL
  by_cases hth : c.tail = c.head
  · refine ⟨{ c with head := 0, tail := 0 }, n, hm, by simp [hth], ?_, hm, rfl, rfl, rfl, rfl,
      rfl, fun _ _ => rfl, fun _ => rfl⟩
    have hpt : prevOf L c.tail = 0 := by rw [hth]; exact h.prevOf_head hL
    refine h.erase htL (le_refl _) ?_ ?_ ?_
    · simp [← hth, hnt]
    · simp [hpt]
    · intro p hp hpt'
      obtain ⟨np, hmp, -, -⟩ := h.link p hp
      refine ⟨np, np, hmp, hmp, ?_, ?_⟩
      · rw [hnt, if_neg (h.ne_zero hp)]
      · rw [hpt, if_neg (h.ne_zero hp)]
  · have hhd : L.head? ≠ some c.tail := fun e => hth ((h.head?_eq htL).1 e)
    have ha0 : prevOf L c.tail ≠ 0 :=
      fun e => hhd ((prevOf_eq_zero_iff h.nodup h.nonnull htL).1 e)
    have haL : prevOf L c.tail ∈ L := (prevOf_mem L c.tail).resolve_left ha0
    have han : prevOf L c.tail ≠ c.tail := prevOf_ne_self h.nodup h.nonnull htL
    obtain ⟨na, hma, -, -⟩ := h.link _ haL
    refine ⟨({ c with tail := n.prev } : LRUCACHE).store n.prev { na with next := 0 }, n, hm, ?_,
      ?_, ?_, rfl, rfl, rfl, rfl, rfl, ?_, ?_⟩
    · simp [hth, LRUCACHE.setNext, LRUCACHE.load, ht0, hm, hprev, ha0, hma]
    · refine h.erase htL (le_refl _) ?_ ?_ ?_
      · simp [LRUCACHE.store, Ne.symm hth]
      · simp [LRUCACHE.store, hprev]
      · intro p hp hpt'
        obtain ⟨np, hmp, -, -⟩ := h.link p hp
        by_cases e : p = prevOf L c.tail
        · subst e
          refine ⟨na, { na with next := 0 }, hma, by simp [LRUCACHE.store, hprev], ?_, ?_⟩
          · simp [hnt, ha0]
          · simp [hnt]
        · refine ⟨np, np, hmp, by simp [LRUCACHE.store, hprev, e, hmp], ?_, ?_⟩
          · rw [hnt, if_neg (h.ne_zero hp)]
          · rw [if_neg e]
    · simp [LRUCACHE.store, hprev, Ne.symm han, hm]
    · intro p hp
      have : p ≠ prevOf L c.tail := fun e => hp (e ▸ haL)
      simp [LRUCACHE.store, hprev, this]
    · intro p
      by_cases e : p = prevOf L c.tail
      · subst e; simp [LRUCACHE.store, hprev, hma, NODE.unlinked]
      · simp [LRUCACHE.store, hprev, e]

/-- The call `LRUCacheRemoveTail` on a non-empty list: it returns exactly when the tail node is the first
node of its bucket; the bucket is then emptied. When the tail is anywhere else in its bucket
chain the call does not return. -/
theorem Inv.removeTail {c : LRUCACHE} {L : List Ptr} (h : Inv c L) (hL : L ≠ []) :
    ∃ n, c.tail ∈ L ∧ c.mem c.tail = some n ∧
      (c.nodes (LRUCacheGetHashIndex n.key) ≠ c.tail → LRUCacheRemoveTail c = none) ∧
      (c.nodes (LRUCacheGetHashIndex n.key) = c.tail →
        ∃ c', LRUCacheRemoveTail c = some (c', 0) ∧ Inv c' (L.erase c.tail) ∧
          c'.capacity = c.capacity ∧ c'.size = (c.size + (UINT_RANGE - 1)) % UINT_RANGE ∧
          c'.brk = c.brk ∧
          c'.nodes = (c.setBucket (LRUCacheGetHashIndex n.key) 0).nodes ∧
          c'.sizeInBytes = subSizeT c.sizeInBytes
            ((SIZEOF_NODE + n.key.length + 1 + n.valueSize) % SIZE_T_RANGE) ∧
          c'.mem c.tail = none ∧
          (∀ p, p ∉ L → c'.mem p = c.mem p) ∧
          (∀ p, p ≠ c.tail → (c'.mem p).map NODE.unlinked = (c.mem p).map NODE.unlinked)) := by
  have htL := h.list.tail_mem hL
  have ht0 := h.list.ne_zero htL
  obtain ⟨c1, n, hm, hstep, hl1, hm1, hnodes1, hbrk1, hsize1, hcap1, hbytes1, hframe1, hdata1⟩ :=
    h.list.unlinkTail hL
  have hte : c.tail ∉ L.erase c.tail := fun e => ((mem_erase_ne h.list.nodup).1 e).1 rfl
  refine ⟨n, htL, hm, ?_, ?_⟩
  · intro hne
    obtain ⟨C, hC⟩ := h.hash (LRUCacheGetHashIndex n.key)
    have hb : c1.nodes (LRUCacheGetHashIndex n.key) = 0 ∨
        c1.nodes (LRUCacheGetHashIndex n.key) ∈ L.erase c.tail := by
      rw [hnodes1]
      rcases hC.first_mem with h0 | ⟨-, h1⟩
      · exact Or.inl h0
      · exact Or.inr ((mem_erase_ne h.list.nodup).2 ⟨hne, h1⟩)
    have hw := walkNext_none hl1 hte ht0 (c1.brk + 1) _ hb
    unfold LRUCacheRemoveTail
    dsimp only
    rw [if_neg ht0]
    simp only [Option.pure_def, Option.bind_eq_bind]
    rw [hstep]
    simp only [Option.some_bind, load_eq ht0 hm1, hnodes1, hne, if_false]
    rw [hnodes1] at hw
    simp [hw]
  · intro heq
    unfold LRUCacheRemoveTail
    dsimp only
    rw [if_neg ht0]
    simp only [Option.pure_def, Option.bind_eq_bind]
    rw [hstep]
    simp only [Option.some_bind, load_eq ht0 hm1, hnodes1, heq, if_true, LRUCACHE.setBucket,
      LRUCacheFreeNode, LRUCACHE.load, ht0, if_false, hm1, Option.map_some', LRUCACHE.release]
    refine ⟨_, rfl, ⟨?_, ?_, ?_⟩, hcap1, by simp [hsize1], hbrk1, by simp [hnodes1],
      by simp [hbytes1], by simp, ?_, ?_⟩
    · refine hl1.links_congr rfl rfl (le_refl _) ?_
      intro p hp n' hn'
      have : p ≠ c.tail := fun e => hte (e ▸ hp)
      exact ⟨n', by simp [this, hn'], rfl, rfl⟩
    · intro i
      by_cases hi : i = LRUCacheGetHashIndex n.key
      · refine ⟨[], ?_, List.nodup_nil, by simp⟩
        simp [Chain, hi]
      · obtain ⟨C, hC⟩ := h.hash i
        have hnotin : c.tail ∉ C := by
          intro e
          exact hi (hC.index_eq e hm).symm
        refine ⟨C, ?_, hC.2.1, ?_⟩
        · simp only [hi, if_false, hnodes1]
          refine Chain.congr ?_ hC.1
          intro q hq nq hnq
          have hqt : q ≠ c.tail := fun e => hnotin (e ▸ hq)
          have := hdata1 q
          rw [hnq] at this
          cases hq1 : c1.mem q with
          | none => rw [hq1] at this; simp at this
          | some n1 =>
            rw [hq1] at this
            simp only [Option.map_some', Option.some.injEq] at this
            exact ⟨n1, by simp [hqt, hq1], (unlinked_eq this).2.1⟩
        · intro p hp
          have hpt : p ≠ c.tail := fun e => hnotin (e ▸ hp)
          obtain ⟨hpL, np, hnp, hidx⟩ := hC.2.2 p hp
          have := hdata1 p
          rw [hnp] at this
          cases hq1 : c1.mem p with
          | none => rw [hq1] at this; simp at this
          | some n1 =>
            rw [hq1] at this
            simp only [Option.map_some', Option.some.injEq] at this
            exact ⟨(mem_erase_ne h.list.nodup).2 ⟨hpt, hpL⟩, n1, by simp [hpt, hq1],
              by rw [(unlinked_eq this).1]; exact hidx⟩
    · simp only [hbrk1]; exact h.brk_pos
    · intro p hp
      have : p ≠ c.tail := fun e => hp (e ▸ htL)
      simp [this, hframe1 p hp]
    · intro p hp
      simp [hp, hdata1 p]

/-! ### Frame conditions as equations between projections -/

theorem link_exists {m m' : Option NODE} {n : NODE} (hm : m = some n) {f g : NODE → Ptr}
    (hp : m'.map NODE.prev = m.map f) (hn : m'.map NODE.next = m.map g) :
    ∃ n', m' = some n' ∧ n'.prev = f n ∧ n'.next = g n := by
  subst hm
  cases m' with
  | none => simp at hp
  | some n' => simp at hp hn; exact ⟨n', rfl, hp, hn⟩

theorem data_exists {m m' : Option NODE} {n : NODE} (hm : m = some n)
    (h : m'.map NODE.unlinked = m.map NODE.unlinked) :
    ∃ n', m' = some n' ∧ n'.key = n.key ∧ n'.hnext = n.hnext := by
  subst hm
  cases m' with
  | none => simp at h
  | some n' => simp at h; exact ⟨n', rfl, (unlinked_eq h).1, (unlinked_eq h).2.1⟩

theorem ListOK.push_of_map {c c' : LRUCACHE} {L : List Ptr} {node : Ptr} (h : ListOK c L)
    (hn : node ∉ L) (hn0 : node ≠ 0) (hbrk : c.brk ≤ c'.brk) (hnb : node < c'.brk)
    (hhead : c'.head = node) (htail : c'.tail = if c.tail = 0 then node else c.tail)
    (hnode : (c'.mem node).map NODE.prev = some 0 ∧ (c'.mem node).map NODE.next = some c.head)
    (hmem : ∀ p ∈ L, (c'.mem p).map NODE.prev
        = (c.mem p).map (fun n => if p = c.head then node else n.prev) ∧
      (c'.mem p).map NODE.next = (c.mem p).map NODE.next) :
    ListOK c' (node :: L) := by
  refine h.push hn hn0 hbrk hnb hhead htail ?_ ?_
  · cases hm : c'.mem node with
    | none => rw [hm] at hnode; simp at hnode
    | some n => rw [hm] at hnode; simp at hnode; exact ⟨n, rfl, hnode.1, hnode.2⟩
  · intro p hp
    obtain ⟨n, hm, -, -⟩ := h.link p hp
    obtain ⟨n', h1, h2, h3⟩ := link_exists hm (hmem p hp).1 (hmem p hp).2
    exact ⟨n, n', hm, h1, h2, h3⟩

theorem ListOK.erase_of_map {c c' : LRUCACHE} {L : List Ptr} {t : Ptr} (h : ListOK c L)
    (ht : t ∈ L) (hbrk : c.brk ≤ c'.brk)
    (hhead : c'.head = if c.head = t then nextOf L t else c.head)
    (htail : c'.tail = if c.tail = t then prevOf L t else c.tail)
    (hmem : ∀ p ∈ L, p ≠ t → (c'.mem p).map NODE.prev
        = (c.mem p).map (fun n => if p = nextOf L t then prevOf L t else n.prev) ∧
      (c'.mem p).map NODE.next
        = (c.mem p).map (fun n => if p = prevOf L t then nextOf L t else n.next)) :
    ListOK c' (L.erase t) := by
  refine h.erase ht hbrk hhead htail ?_
  intro p hp hpt
  obtain ⟨n, hm, -, -⟩ := h.link p hp
  obtain ⟨n', h1, h2, h3⟩ := link_exists hm (hmem p hp hpt).1 (hmem p hp hpt).2
  exact ⟨n, n', hm, h1, h2, h3⟩

theorem ListOK.links_congr_of_map {c c' : LRUCACHE} {L : List Ptr} (h : ListOK c L)
    (hhead : c'.head = c.head) (htail : c'.tail = c.tail) (hbrk : c.brk ≤ c'.brk)
    (hmem : ∀ p ∈ L, (c'.mem p).map NODE.prev = (c.mem p).map NODE.prev ∧
      (c'.mem p).map NODE.next = (c.mem p).map NODE.next) :
    ListOK c' L := by
  refine h.links_congr hhead htail hbrk ?_
  intro p hp n hm
  exact link_exists hm (hmem p hp).1 (hmem p hp).2

theorem HashOK.hash_congr_of_map {c c' : LRUCACHE} {L L' : List Ptr} (h : HashOK c L)
    (hnodes : c'.nodes = c.nodes) (hL : ∀ p ∈ L, p ∈ L')
    (hmem : ∀ p ∈ L, (c'.mem p).map NODE.unlinked = (c.mem p).map NODE.unlinked) :
    HashOK c' L' :=
  h.hash_congr hnodes hL (fun p hp _ hn => data_exists hn (hmem p hp))

/-- A new node in front of its bucket chain. -/
theorem HashOK.push_front {c c' : LRUCACHE} {L : List Ptr} {node : Ptr} (h : HashOK c L)
    (hn : node ∉ L) (hn0 : node ≠ 0) (key : List Nat)
    (hnodes : c'.nodes = (c.setBucket (LRUCacheGetHashIndex key) node).nodes)
    (hframe : ∀ p, p ≠ node → (c'.mem p).map NODE.unlinked = (c.mem p).map NODE.unlinked)
    (hnode : ∃ n', c'.mem node = some n' ∧ n'.key = key ∧
      n'.hnext = c.nodes (LRUCacheGetHashIndex key)) :
    HashOK c' (node :: L) := by
  intro i
  obtain ⟨C, hC⟩ := h i
  have hnC : node ∉ C := fun e => hn (hC.2.2 node e).1
  have hcongr : ∀ p ∈ C, p ∈ node :: L ∧ ∀ n, c.mem p = some n →
      ∃ n', c'.mem p = some n' ∧ n'.key = n.key ∧ n'.hnext = n.hnext := by
    intro p hp
    have hpn : p ≠ node := fun e => hnC (e ▸ hp)
    exact ⟨List.mem_cons_of_mem _ (hC.2.2 p hp).1, fun n hnp => data_exists hnp (hframe p hpn)⟩
  obtain ⟨n', hn', hk', hh'⟩ := hnode
  by_cases hi : i = LRUCacheGetHashIndex key
  · refine ⟨node :: C, ⟨?_, List.nodup_cons.2 ⟨hnC, hC.2.1⟩, ?_⟩⟩
    · subst hi
      refine ⟨by simp [hnodes, LRUCACHE.setBucket], hn0, n', hn', ?_⟩
      rw [hh']
      refine Chain.congr ?_ hC.1
      intro q hq n hnq
      obtain ⟨n1, h1, -, h2⟩ := (hcongr q hq).2 n hnq
      exact ⟨n1, h1, h2⟩
    · intro p hp
      rcases List.mem_cons.1 hp with e | e
      · subst e
        exact ⟨List.mem_cons_self _ _, n', hn', by rw [hk', hi]⟩
      · obtain ⟨n, hnp, hidx⟩ := (hC.2.2 p e).2
        obtain ⟨n1, h1, h2, -⟩ := (hcongr p e).2 n hnp
        exact ⟨List.mem_cons_of_mem _ (hC.2.2 p e).1, n1, h1, by rw [h2]; exact hidx⟩
  · exact ⟨C, hC.bucket_congr (by simp [hnodes, LRUCACHE.setBucket, hi]) hcongr⟩

/-! ### Insertion of a new node -/

theorem putLink_spec {c : LRUCACHE} {L : List Ptr} (h : Inv c L) {node : Ptr} (hn : node ∉ L)
    (hn0 : node ≠ 0) (hnb : node < c.brk) {nn : NODE} (hm : c.mem node = some nn)
    (hprev : nn.prev = 0) (key : List Nat) (hkey : nn.key = key) (size : Nat) :
    ∃ c', putLink c key size node = some (c', 0) ∧ Inv c' (node :: L) ∧
      c'.size = (c.size + 1) % UINT_RANGE ∧ c'.capacity = c.capacity ∧ c'.brk = c.brk ∧
      c'.nodes = (c.setBucket (LRUCacheGetHashIndex key) node).nodes ∧
      c'.sizeInBytes = addSizeT c.sizeInBytes
        ((SIZEOF_NODE + key.length + 1 + size) % SIZE_T_RANGE) ∧
      (∀ p, p ≠ node → (c'.mem p).map NODE.unlinked = (c.mem p).map NODE.unlinked) ∧
      (c'.mem node).map NODE.unlinked =
        some { nn.unlinked with hnext := c.nodes (LRUCacheGetHashIndex key) } := by
  have hl := h.list
  obtain ⟨c', hrun, hhead, htail, hsize, hcap, hbrk, hnodes, hbytes, hframe, hnode, hlinks,
      hnlinks⟩ :
      ∃ c', putLink c key size node = some (c', 0) ∧ c'.head = node ∧
        (c'.tail = if c.tail = 0 then node else c.tail) ∧
        c'.size = (c.size + 1) % UINT_RANGE ∧ c'.capacity = c.capacity ∧ c'.brk = c.brk ∧
        c'.nodes = (c.setBucket (LRUCacheGetHashIndex key) node).nodes ∧
        c'.sizeInBytes = addSizeT c.sizeInBytes
          ((SIZEOF_NODE + key.length + 1 + size) % SIZE_T_RANGE) ∧
        (∀ p, p ≠ node → (c'.mem p).map NODE.unlinked = (c.mem p).map NODE.unlinked) ∧
        (c'.mem node).map NODE.unlinked =
          some { nn.unlinked with hnext := c.nodes (LRUCacheGetHashIndex key) } ∧
        (∀ p ∈ L, (c'.mem p).map NODE.prev
            = (c.mem p).map (fun n => if p = c.head then node else n.prev) ∧
          (c'.mem p).map NODE.next = (c.mem p).map NODE.next) ∧
        ((c'.mem node).map NODE.prev = some 0 ∧ (c'.mem node).map NODE.next = some c.head) := by
    by_cases hh : c.head = 0
    · have hLnil : L = [] := by
        by_contra hne
        exact hl.ne_zero (hl.head_mem hne) hh
      subst hLnil
      have ht : c.tail = 0 := by simpa using hl.tail_eq
      simp only [putLink, LRUCACHE.setHnext, LRUCACHE.setNext, LRUCACHE.setPrev, LRUCACHE.load,
        LRUCACHE.store, LRUCACHE.setBucket, hn0, hm, hh, ht, if_true, if_false,
        Option.bind_eq_bind, Option.some_bind, Option.map_some', ne_eq, not_true_eq_false,
        not_false_eq_true, Option.pure_def]
      refine ⟨_, rfl, rfl, rfl, rfl, rfl, rfl, rfl, rfl, ?_, ?_, ?_, ?_⟩
      · intro p hp
        simp [hp]
      · simp [NODE.unlinked]
      · simp
      · simp [hprev]
    · have hLne : L ≠ [] := by
        intro e
        subst e
        exact hh (by simpa using hl.head_eq)
      have hhL := hl.head_mem hLne
      have hhn : c.head ≠ node := fun e => hn (e ▸ hhL)
      obtain ⟨nh, hmh, -, -⟩ := hl.link _ hhL
      have ht : c.tail ≠ 0 := hl.ne_zero (hl.tail_mem hLne)
      simp only [putLink, LRUCACHE.setHnext, LRUCACHE.setNext, LRUCACHE.setPrev, LRUCACHE.load,
        LRUCACHE.store, LRUCACHE.setBucket, hn0, hm, hh, ht, hhn, hmh, if_true, if_false,
        Option.bind_eq_bind, Option.some_bind, Option.map_some', ne_eq, not_true_eq_false,
        not_false_eq_true, Option.pure_def]
      refine ⟨_, rfl, rfl, by simp [ht], rfl, rfl, rfl, rfl, rfl, ?_, ?_, ?_, ?_⟩
      · intro p hp
        by_cases e : p = c.head
        · subst e; simp [hmh, NODE.unlinked]
        · simp [e, hp]
      · simp [Ne.symm hhn, NODE.unlinked]
      · intro p hp
        have hpn : p ≠ node := fun e => hn (e ▸ hp)
        by_cases e : p = c.head
        · subst e; simp [hmh]
        · simp [e, hpn]
      · simp [Ne.symm hhn, hprev]
  refine ⟨c', hrun, ⟨?_, ?_, by rw [hbrk]; exact h.brk_pos⟩, hsize, hcap, hbrk, hnodes, hbytes,
    hframe, hnode⟩
  · exact hl.push_of_map hn hn0 (le_of_eq hbrk.symm) (by rw [hbrk]; exact hnb) hhead htail
      hnlinks hlinks
  · refine h.hash.push_front hn hn0 key hnodes hframe ?_
    cases hm' : c'.mem node with
    | none => rw [hm'] at hnode; simp at hnode
    | some n' =>
      rw [hm'] at hnode
      simp only [Option.map_some', Option.some.injEq] at hnode
      refine ⟨n', rfl, ?_, ?_⟩
      · have := congrArg NODE.key hnode
        simpa [NODE.unlinked, hkey] using this
      · have := congrArg NODE.hnext hnode
        simpa [NODE.unlinked] using this

/-! ### `LRUCachePut` -/

/-- Changing the payload of a node (and the byte count) keeps the invariant. -/
theorem Inv.setValue {c : LRUCACHE} {L : List Ptr} (h : Inv c L) {q : Ptr} {n : NODE}
    (hm : c.mem q = some n) (v : List Nat) (b : Nat) :
    Inv (({ c with sizeInBytes := b } : LRUCACHE).store q { n with serializedValue := v }) L := by
  refine ⟨?_, ?_, h.brk_pos⟩
  · refine h.list.links_congr_of_map rfl rfl (le_refl _) ?_
    intro p _
    by_cases e : p = q
    · subst e; simp [LRUCACHE.store, hm]
    · simp [LRUCACHE.store, e]
  · refine h.hash.hash_congr rfl (fun p hp => hp) ?_
    intro p _ np hnp
    by_cases e : p = q
    · subst e
      rw [hm] at hnp
      cases hnp
      exact ⟨{ n with serializedValue := v }, by simp [LRUCACHE.store], rfl, rfl⟩
    · exact ⟨np, by simp [LRUCACHE.store, e, hnp], rfl, rfl⟩

/-- Allocating a node keeps the invariant: the new address is not in the list. -/
theorem Inv.alloc {c : LRUCACHE} {L : List Ptr} (h : Inv c L) (n : NODE) :
    Inv (({ c with brk := c.brk + 1 } : LRUCACHE).store c.brk n) L ∧ c.brk ∉ L := by
  have hnot : c.brk ∉ L := fun e => lt_irrefl _ (h.list.bound _ e)
  refine ⟨⟨?_, ?_, Nat.succ_pos _⟩, hnot⟩
  · refine h.list.links_congr_of_map rfl rfl (Nat.le_succ _) ?_
    intro p hp
    have : p ≠ c.brk := fun e => hnot (e ▸ hp)
    simp [LRUCACHE.store, this]
  · refine h.hash.hash_congr_of_map rfl (fun p hp => hp) ?_
    intro p hp
    have : p ≠ c.brk := fun e => hnot (e ▸ hp)
    simp [LRUCACHE.store, this]

/-- The eviction step of `LRUCachePut`. -/
theorem Inv.putEvict_cases {c : LRUCACHE} {L : List Ptr} (h : Inv c L) :
    putEvict c = none ∨
    (putEvict c = some c ∧ (c.size ≠ c.capacity ∨ L = [])) ∨
    ∃ c' n, putEvict c = some c' ∧ c.size = c.capacity ∧ L ≠ [] ∧ c.tail ∈ L ∧
      c.mem c.tail = some n ∧ c.nodes (LRUCacheGetHashIndex n.key) = c.tail ∧
      LRUCacheRemoveTail c = some (c', 0) ∧
      Inv c' (L.erase c.tail) ∧
      c'.capacity = c.capacity ∧ c'.size = (c.size + (UINT_RANGE - 1)) % UINT_RANGE ∧
      c'.brk = c.brk ∧
      c'.nodes = (c.setBucket (LRUCacheGetHashIndex n.key) 0).nodes ∧
      c'.sizeInBytes = subSizeT c.sizeInBytes
        ((SIZEOF_NODE + n.key.length + 1 + n.valueSize) % SIZE_T_RANGE) ∧
      c'.mem c.tail = none ∧
      (∀ p, p ∉ L → c'.mem p = c.mem p) ∧
      (∀ p, p ≠ c.tail → (c'.mem p).map NODE.unlinked = (c.mem p).map NODE.unlinked) := by
  unfold putEvict
  by_cases hs : c.size = c.capacity
  · rw [if_pos hs]
    by_cases hL : L = []
    · subst hL
      have ht : c.tail = 0 := by simpa using h.list.tail_eq
      right; left
      simp [removeTail_nil ht]
    · obtain ⟨n, htL, hm, hcrash, hok⟩ := h.removeTail hL
      by_cases hb : c.nodes (LRUCacheGetHashIndex n.key) = c.tail
      · obtain ⟨c', hrun, hrest⟩ := hok hb
        right; right
        exact ⟨c', n, by simp [hrun], hs, hL, htL, hm, hb, hrun, hrest⟩
      · left
        simp [hcrash hb]
  · right; left
    simp [hs]

theorem strncmp_self (s : List Nat) (n : Nat) : strncmp s s n = 0 := by
  induction s generalizing n with
  | nil => cases n <;> simp [strncmp]
  | cons a s ih => cases n <;> simp [strncmp, ih]

/-- The node `LRUCacheNodeCreate` makes for `LRUCachePut`. -/
theorem nodeCreate_ok (c : LRUCACHE) (key value : List Nat) (size : Nat) :
    LRUCacheNodeCreate c key value size true true =
      (({ c with brk := c.brk + 1 } : LRUCACHE).store c.brk
        ⟨LRUCacheCreateHash key, key, value, size, 0, 0, 0⟩, c.brk) := by
  simp [LRUCacheNodeCreate]

theorem nodeCreate_fail (c : LRUCACHE) (key value : List Nat) (size : Nat) {a b : Bool}
    (h : ¬(a = true ∧ b = true)) : LRUCacheNodeCreate c key value size a b = (c, 0) := by
  cases a <;> cases b <;> simp_all [LRUCacheNodeCreate]

/-- The call `LRUCachePut` when the key is found: the payload of the node found is replaced. -/
theorem put_hit {c c1 : LRUCACHE} {E : List Ptr} (key value : List Nat)
    {size : Nat} (m : Alloc) (hs : size ≠ 0) (hp : m.payload = true) (hv : size ≤ value.length)
    {q : Ptr} (hq0 : q ≠ 0)
    (hg : LRUCacheGet c key = some (c1, q)) (hinv1 : Inv c1 (q :: E)) :
    ∃ n1, c1.mem q = some n1 ∧
      LRUCachePut c key value size m =
        some ((({ c1 with sizeInBytes := addSizeT (subSizeT c1.sizeInBytes n1.valueSize) size }
          : LRUCACHE).store q { n1 with serializedValue := value.take size }), 0) ∧
      Inv (({ c1 with sizeInBytes := addSizeT (subSizeT c1.sizeInBytes n1.valueSize) size }
          : LRUCACHE).store q { n1 with serializedValue := value.take size })
        (q :: E) := by
  obtain ⟨n1, hm1, -, -⟩ := hinv1.list.link q (List.mem_cons_self _ _)
  have hhead : c1.head = q := by simpa using hinv1.list.head_eq
  refine ⟨n1, hm1, ?_, hinv1.setValue hm1 _ _⟩
  have hv' : ¬ value.length < size := by omega
  unfold LRUCachePut
  simp only [hs, if_false, LRUSerializeData, hp, if_true, hv', Option.bind_eq_bind,
    Option.some_bind, hg, ne_eq, hq0, not_false_eq_true, LRUCACHE.load, hm1,
    LRUCacheMoveNodeToHead, LRUCACHE.store, hhead, Option.pure_def]

/-- The call `LRUCachePut` when the key is not found. -/
theorem Inv.put_miss {c : LRUCACHE} {L : List Ptr} (h : Inv c L) (key value : List Nat)
    {size : Nat} (m : Alloc) (hs : size ≠ 0) (hp : m.payload = true) (hv : size ≤ value.length)
    (hg : LRUCacheGet c key = some (c, 0)) (hn : m.node = true) (hk : m.key = true) :
    Inv (LRUCacheNodeCreate c key (value.take size) size true true).1 L ∧
    (putEvict (LRUCacheNodeCreate c key (value.take size) size true true).1 = none →
      LRUCachePut c key value size m = none) ∧
    ∀ c2, putEvict (LRUCacheNodeCreate c key (value.take size) size true true).1 = some c2 →
      ∀ L2, Inv c2 L2 → c.brk ∉ L2 → c2.brk = c.brk + 1 →
        c2.mem c.brk = some ⟨LRUCacheCreateHash key, key, value.take size, size, 0, 0, 0⟩ →
      ∃ c', LRUCachePut c key value size m = some (c', 0) ∧ Inv c' (c.brk :: L2) ∧
        c'.size = (c2.size + 1) % UINT_RANGE ∧ c'.capacity = c2.capacity ∧
        c'.brk = c.brk + 1 ∧
        c'.nodes = (c2.setBucket (LRUCacheGetHashIndex key) c.brk).nodes ∧
        c'.sizeInBytes = addSizeT c2.sizeInBytes
          ((SIZEOF_NODE + key.length + 1 + size) % SIZE_T_RANGE) ∧
        (∀ p, p ≠ c.brk → (c'.mem p).map NODE.unlinked = (c2.mem p).map NODE.unlinked) ∧
        (c'.mem c.brk).map NODE.unlinked =
          some ⟨LRUCacheCreateHash key, key, value.take size, size, 0, 0,
            c2.nodes (LRUCacheGetHashIndex key)⟩ := by
  have hv' : ¬ value.length < size := by omega
  have hb0 : c.brk ≠ 0 := Nat.pos_iff_ne_zero.1 h.brk_pos
  have hput : LRUCachePut c key value size m =
      (putEvict (LRUCacheNodeCreate c key (value.take size) size true true).1).bind
        fun c2 => putLink c2 key size c.brk := by
    unfold LRUCachePut
    simp only [hs, if_false, LRUSerializeData, hp, if_true, hv', Option.bind_eq_bind,
      Option.some_bind, hg, ne_eq, not_true_eq_false, hn, hk, nodeCreate_ok, hb0]
  refine ⟨?_, ?_, ?_⟩
  · rw [nodeCreate_ok]
    exact (h.alloc _).1
  · intro he
    rw [hput, he]
    rfl
  · intro c2 he L2 hinv2 hnot hbrk2 hmem2
    obtain ⟨c', hrun, hinv', hsize, hcap, hbrk, hnodes, hbytes, hframe, hnode⟩ :=
      putLink_spec hinv2 hnot hb0 (by rw [hbrk2]; exact Nat.lt_succ_self _) hmem2 rfl key rfl size
    refine ⟨c', ?_, hinv', hsize, hcap, by rw [hbrk, hbrk2], hnodes, hbytes, hframe, ?_⟩
    · rw [hput, he]
      exact hrun
    · rw [hnode]
      simp [NODE.unlinked]

/-- All the ways a call of `LRUCachePut` can go in a state that satisfies the invariant:
it does not return; it fails and changes nothing; it replaces the payload of the node found;
or it links a new node in, after the eviction of the tail when the cache is full. -/
theorem Inv.put_cases {c : LRUCACHE} {L : List Ptr} (h : Inv c L) (key value : List Nat)
    (size : Nat) (m : Alloc) :
    LRUCachePut c key value size m = none ∨
    LRUCachePut c key value size m = some (c, -1) ∨
    (∃ q c1 n1, q ≠ 0 ∧ q ∈ L ∧ c.find key = some q ∧ LRUCacheGet c key = some (c1, q) ∧
      SameData c c1 ∧ Inv c1 (q :: L.erase q) ∧ c1.mem q = some n1 ∧
      size ≠ 0 ∧ size ≤ value.length ∧ m.payload = true ∧
      LRUCachePut c key value size m =
        some ((({ c1 with sizeInBytes := addSizeT (subSizeT c1.sizeInBytes n1.valueSize) size }
          : LRUCACHE).store q { n1 with serializedValue := value.take size }), 0) ∧
      Inv (({ c1 with sizeInBytes := addSizeT (subSizeT c1.sizeInBytes n1.valueSize) size }
          : LRUCACHE).store q { n1 with serializedValue := value.take size })
        (q :: L.erase q)) ∨
    (∃ c2 L2 c', c.find key = some 0 ∧ size ≠ 0 ∧ size ≤ value.length ∧ m = Alloc.ok ∧
      Inv c2 L2 ∧ c.brk ∉ L2 ∧ c2.capacity = c.capacity ∧
      ((L2 = L ∧ c2.size = c.size ∧ c2.nodes = c.nodes ∧ (c.size ≠ c.capacity ∨ L = []) ∧
          c2.sizeInBytes = c.sizeInBytes ∧
          (∀ p, p ≠ c.brk → c2.mem p = c.mem p)) ∨
        (∃ n, L2 = L.erase c.tail ∧ c.tail ∈ L ∧ c.size = c.capacity ∧
          c.mem c.tail = some n ∧ c.nodes (LRUCacheGetHashIndex n.key) = c.tail ∧
          c2.size = (c.size + (UINT_RANGE - 1)) % UINT_RANGE ∧
          c2.nodes = (c.setBucket (LRUCacheGetHashIndex n.key) 0).nodes ∧
          c2.sizeInBytes = subSizeT c.sizeInBytes
            ((SIZEOF_NODE + n.key.length + 1 + n.valueSize) % SIZE_T_RANGE) ∧
          c2.mem c.tail = none ∧
          (∀ p, p ≠ c.tail → p ≠ c.brk →
            (c2.mem p).map NODE.unlinked = (c.mem p).map NODE.unlinked))) ∧
      LRUCachePut c key value size m = some (c', 0) ∧ Inv c' (c.brk :: L2) ∧
      c'.size = (c2.size + 1) % UINT_RANGE ∧ c'.capacity = c.capacity ∧
      c'.brk = c.brk + 1 ∧
      c'.nodes = (c2.setBucket (LRUCacheGetHashIndex key) c.brk).nodes ∧
      c'.sizeInBytes = addSizeT c2.sizeInBytes
        ((SIZEOF_NODE + key.length + 1 + size) % SIZE_T_RANGE) ∧
      (∀ p, p ≠ c.brk → (c'.mem p).map NODE.unlinked = (c2.mem p).map NODE.unlinked) ∧
      (c'.mem c.brk).map NODE.unlinked =
        some ⟨LRUCacheCreateHash key, key, value.take size, size, 0, 0,
          c2.nodes (LRUCacheGetHashIndex key)⟩) := by
  by_cases hs : size = 0
  · right; left
    simp [LRUCachePut, hs]
  by_cases hp : m.payload = true
  swap
  · right; left
    simp [LRUCachePut, hs, LRUSerializeData, hp]
  by_cases hv : value.length < size
  · left
    simp [LRUCachePut, hs, LRUSerializeData, hp, hv]
  have hv' : size ≤ value.length := by omega
  rcases h.get key with ⟨hf, hg⟩ | ⟨q, c1, hq0, hf, hqL, -, hg, -, hinv1, hsame⟩
  · by_cases hnk : m.node = true ∧ m.key = true
    swap
    · right; left
      simp [LRUCachePut, hs, LRUSerializeData, hp, hv, hg, nodeCreate_fail _ _ _ _ hnk]
    have hmok : m = Alloc.ok := by
      cases m
      simp only [Alloc.ok, Alloc.mk.injEq]
      exact ⟨hp, hnk.1, hnk.2⟩
    obtain ⟨hinv1, hcrash, hok⟩ := h.put_miss key value m hs hp hv' hg hnk.1 hnk.2
    have hnotL : c.brk ∉ L := (h.alloc ⟨0, [], [], 0, 0, 0, 0⟩).2
    rw [nodeCreate_ok] at hinv1 hcrash hok
    rcases hinv1.putEvict_cases with he | ⟨he, hcond⟩ | ⟨c2, n, he, hsz, hL, htL, hmt, hb, -,
      hinv2, hcap2, hsize2, hbrk2, hnodes2, hbytes2, hdead, hfr1, hfr2⟩
    · left
      exact hcrash he
    · right; right; right
      obtain ⟨c', hc'⟩ := hok _ he L hinv1 hnotL rfl (by simp [LRUCACHE.store])
      refine ⟨_, L, c', hf, hs, hv', hmok, hinv1, hnotL, rfl, Or.inl ⟨rfl, rfl, rfl, hcond, rfl, ?_⟩,
        hc'⟩
      intro p hp
      simp [LRUCACHE.store, hp]
    · right; right; right
      have hne : c.tail ≠ c.brk := fun e => hnotL (e ▸ htL)
      have hmt' : c.mem c.tail = some n := by
        simpa [LRUCACHE.store, hne] using hmt
      have hnot2 : c.brk ∉ L.erase c.tail := fun e => hnotL (List.mem_of_mem_erase e)
      obtain ⟨c', hc'⟩ := hok c2 he (L.erase c.tail) hinv2 hnot2 hbrk2
        (by rw [hfr1 _ hnotL]; simp [LRUCACHE.store])
      refine ⟨c2, L.erase c.tail, c', hf, hs, hv', hmok, hinv2, hnot2, hcap2,
        Or.inr ⟨n, rfl, htL, hsz, hmt', hb, hsize2, hnodes2, hbytes2, hdead, ?_⟩, ?_⟩
      · intro p hp1 hp2
        rw [hfr2 p hp1]
        simp [LRUCACHE.store, hp2]
      · obtain ⟨h1, h2, h3, h4, h5, h6, h7, h8, h9⟩ := hc'
        exact ⟨h1, h2, h3, by rw [h4, hcap2]; rfl, h5, h6, h7, h8, h9⟩
  · right; right; left
    obtain ⟨n1, hm1, hput, hinv'⟩ := put_hit key value m hs hp hv' hq0 hg hinv1
    exact ⟨q, c1, n1, hq0, hqL, hf, hg, hsame, hinv1, hm1, hs, hv', hp, hput, hinv'⟩

/-! ### Taking a node out of its bucket chain -/

theorem Chain.congr_eq {c c' : LRUCACHE} {p : Ptr} {C : List Ptr}
    (hmem : ∀ q ∈ C, c'.mem q = c.mem q) (h : Chain c p C) : Chain c' p C :=
  Chain.congr (fun q hq n hn => ⟨n, by rw [hmem q hq]; exact hn, rfl⟩) h

/-- A state has at most one chain from a given node. -/
theorem Chain.unique {c : LRUCACHE} {p : Ptr} {C C' : List Ptr}
    (h : Chain c p C) (h' : Chain c p C') : C = C' := by
  induction C generalizing p C' with
  | nil =>
    cases C' with
    | nil => rfl
    | cons q C' =>
      have h0 : p = 0 := h
      obtain ⟨h1, h2, -⟩ := h'
      exact absurd (h1.symm.trans h0) h2
  | cons q C ih =>
    obtain ⟨h1, h2, n, hn, h3⟩ := h
    cases C' with
    | nil =>
      have h0 : p = 0 := h'
      exact absurd (h1.symm.trans h0) h2
    | cons q' C' =>
      obtain ⟨h1', -, n', hn', h3'⟩ := h'
      have e : q = q' := h1.symm.trans h1'
      subst e
      rw [hn] at hn'
      cases hn'
      rw [ih h3 h3']

/-- The loop of `LRUCacheRemove`, entered with a predecessor in hand. -/
theorem unlinkLoop_inner {c : LRUCACHE} (i : Nat) {q : Ptr} (C : List Ptr) :
    ∀ (prev curr : Ptr) (fuel : Nat) (np : NODE), c.mem prev = some np → np.hnext = curr →
      prev ∉ C → prev ≠ 0 → Chain c curr C → C.Nodup → q ∈ C → C.length < fuel →
      ∃ c', unlinkLoop c i q fuel prev curr = some c' ∧ c'.nodes = c.nodes ∧
        c'.head = c.head ∧ c'.tail = c.tail ∧ c'.brk = c.brk ∧ c'.size = c.size ∧
        c'.capacity = c.capacity ∧ c'.sizeInBytes = c.sizeInBytes ∧
        Chain c' prev (prev :: C.erase q) ∧
        (∀ p, p ∉ prev :: C → c'.mem p = c.mem p) ∧
        (∀ p, (c'.mem p).map (fun n => { n with hnext := 0 })
          = (c.mem p).map (fun n => { n with hnext := 0 })) ∧
        c'.mem q = c.mem q := by
  induction C with
  | nil => intro _ _ _ _ _ _ _ _ _ _ hq; simp at hq
  | cons x C ih =>
    intro prev curr fuel np hmp hnp hprevC hprev0 hch hnd hq hf
    obtain ⟨f, rfl⟩ : ∃ f, fuel = f + 1 := ⟨fuel - 1, by simp at hf; omega⟩
    obtain ⟨h1, hx0, nx, hmx, hch'⟩ := hch
    subst h1
    have hpx : prev ≠ curr := fun e => hprevC (e ▸ List.mem_cons_self _ _)
    have hprevC' : prev ∉ C := fun e => hprevC (List.mem_cons_of_mem _ e)
    rw [List.nodup_cons] at hnd
    by_cases hxq : curr = q
    · subst hxq
      refine ⟨c.store prev { np with hnext := nx.hnext }, ?_, rfl, rfl, rfl, rfl, rfl, rfl, rfl,
        ?_, ?_, ?_, ?_⟩
      · simp [unlinkLoop, hx0, LRUCACHE.load, hmx, hprev0, LRUCACHE.setHnext, hmp]
      · rw [List.erase_cons_head]
        refine ⟨rfl, hprev0, { np with hnext := nx.hnext }, by simp [LRUCACHE.store], ?_⟩
        refine Chain.congr_eq ?_ hch'
        intro r hr
        have : r ≠ prev := fun e => hprevC' (e ▸ hr)
        simp [LRUCACHE.store, this]
      · intro p hp
        have : p ≠ prev := fun e => hp (e ▸ List.mem_cons_self _ _)
        simp [LRUCACHE.store, this]
      · intro p
        by_cases e : p = prev
        · subst e; simp [LRUCACHE.store, hmp]
        · simp [LRUCACHE.store, e]
      · simp [LRUCACHE.store, Ne.symm hpx]
    · have hqC : q ∈ C := by
        rcases List.mem_cons.1 hq with e | e
        · exact absurd e.symm hxq
        · exact e
      obtain ⟨c', hrun, hnodes, hhead, htail, hbrk, hsize, hcap, hbytes, hchain, hframe, hdata,
        hqm⟩ := ih curr nx.hnext f nx hmx rfl hnd.1 hx0 hch' hnd.2 hqC (by simp at hf; omega)
      refine ⟨c', ?_, hnodes, hhead, htail, hbrk, hsize, hcap, hbytes, ?_, ?_, hdata, hqm⟩
      · simp [unlinkLoop, hx0, hxq, LRUCACHE.load, hmx, hrun]
      · have e1 : (curr :: C).erase q = curr :: C.erase q := by
          rw [List.erase_cons]; simp [hxq]
        rw [e1]
        have hne : prev ∉ curr :: C := hprevC
        refine ⟨rfl, hprev0, np, by rw [hframe prev hne]; exact hmp, ?_⟩
        rw [hnp]
        exact hchain
      · intro p hp
        apply hframe
        intro e
        exact hp (List.mem_cons_of_mem _ e)

/-- The loop of `LRUCacheRemove` from the bucket: the node is taken out of the chain. -/
theorem unlinkLoop_spec {c : LRUCACHE} (i : Nat) {q : Ptr} {C : List Ptr}
    (hch : Chain c (c.nodes i) C) (hnd : C.Nodup) (hq : q ∈ C) {fuel : Nat}
    (hf : C.length < fuel) :
    ∃ c', unlinkLoop c i q fuel 0 (c.nodes i) = some c' ∧
      (∀ j, j ≠ i → c'.nodes j = c.nodes j) ∧
      c'.head = c.head ∧ c'.tail = c.tail ∧ c'.brk = c.brk ∧ c'.size = c.size ∧
      c'.capacity = c.capacity ∧ c'.sizeInBytes = c.sizeInBytes ∧
      Chain c' (c'.nodes i) (C.erase q) ∧
      (∀ p, p ∉ C → c'.mem p = c.mem p) ∧
      (∀ p, (c'.mem p).map (fun n => { n with hnext := 0 })
        = (c.mem p).map (fun n => { n with hnext := 0 })) ∧
      c'.mem q = c.mem q := by
  cases C with
  | nil => simp at hq
  | cons x C =>
    obtain ⟨f, rfl⟩ : ∃ f, fuel = f + 1 := ⟨fuel - 1, by simp at hf; omega⟩
    obtain ⟨h1, hx0, nx, hmx, hch'⟩ := hch
    rw [List.nodup_cons] at hnd
    by_cases hxq : x = q
    · subst hxq
      refine ⟨c.setBucket i nx.hnext, ?_, ?_, rfl, rfl, rfl, rfl, rfl, rfl, ?_, fun _ _ => rfl,
        fun _ => rfl, rfl⟩
      · simp [unlinkLoop, h1, hx0, LRUCACHE.load, hmx]
      · intro j hj
        simp [LRUCACHE.setBucket, hj]
      · rw [List.erase_cons_head]
        have : (c.setBucket i nx.hnext).nodes i = nx.hnext := by simp [LRUCACHE.setBucket]
        rw [this]
        exact Chain.congr_eq (c := c) (fun _ _ => rfl) hch'
    · have hqC : q ∈ C := by
        rcases List.mem_cons.1 hq with e | e
        · exact absurd e.symm hxq
        · exact e
      obtain ⟨c', hrun, hnodes, hhead, htail, hbrk, hsize, hcap, hbytes, hchain, hframe, hdata,
        hqm⟩ := unlinkLoop_inner i C x nx.hnext f nx hmx rfl hnd.1 hx0 hch' hnd.2 hqC
          (by simp at hf; omega)
      refine ⟨c', ?_, fun j _ => by rw [hnodes], hhead, htail, hbrk, hsize, hcap, hbytes, ?_,
        hframe, hdata, hqm⟩
      · simp [unlinkLoop, h1, hx0, hxq, LRUCACHE.load, hmx, hrun]
      · have e1 : (x :: C).erase q = x :: C.erase q := by
          rw [List.erase_cons]; simp [hxq]
        rw [e1, hnodes, h1]
        exact hchain

/-! ### `LRUCacheRemove` -/

/-- The node the search finds is in the chain of the bucket of the key. -/
theorem Inv.find_mem {c : LRUCACHE} {L : List Ptr} (h : Inv c L) {key : List Nat} {q : Ptr}
    (hf : c.find key = some q) (hq : q ≠ 0) :
    ∃ C, BucketOK c L (LRUCacheGetHashIndex key) C ∧ q ∈ C := by
  obtain ⟨C, hC⟩ := h.hash (LRUCacheGetHashIndex key)
  have h1 := hC.1.findLoop_eq key (h.chain_length hC.2.1 (fun p hp => (hC.2.2 p hp).1))
  unfold LRUCACHE.find at hf
  rw [h1] at hf
  refine ⟨C, hC, ?_⟩
  cases hfind : C.find? (keyMatches c key) with
  | none => rw [hfind] at hf; simp at hf; exact absurd hf.symm hq
  | some q' =>
    rw [hfind] at hf
    simp at hf
    subst hf
    exact List.mem_of_find?_eq_some hfind

/-- Taking the head node out of the recency list. -/
theorem ListOK.unlinkHead {c : LRUCACHE} {q : Ptr} {E : List Ptr} (h : ListOK c (q :: E)) :
    ∃ c' n, c.mem q = some n ∧ listUnlink c q = some c' ∧ ListOK c' E ∧ c'.mem q = some n ∧
      c'.nodes = c.nodes ∧ c'.brk = c.brk ∧ c'.size = c.size ∧ c'.capacity = c.capacity ∧
      c'.sizeInBytes = c.sizeInBytes ∧
      (∀ p, (c'.mem p).map NODE.unlinked = (c.mem p).map NODE.unlinked) := by
  have hqL : q ∈ q :: E := List.mem_cons_self _ _
  have hq0 := h.ne_zero hqL
  obtain ⟨n, hm, hprev, hnext⟩ := h.link q hqL
  have hnd := List.nodup_cons.1 h.nodup
  have hp0 : prevOf (q :: E) q = 0 :=
    (prevOf_eq_zero_iff h.nodup h.nonnull hqL).2 (by simp)
  have hnx : nextOf (q :: E) q = E.headD 0 := by simp [nextOf_cons]
  rw [hp0] at hprev
  rw [hnx] at hnext
  have hhead : c.head = q := by simpa using h.head_eq
  have herase : (q :: E).erase q = E := List.erase_cons_head q E
  cases E with
  | nil =>
    have htail : c.tail = q := by simpa using h.tail_eq
    simp only [List.headD_nil] at hnext
    refine ⟨{ c with head := 0, tail := 0 }, n, hm, ?_, ?_, hm, rfl, rfl, rfl, rfl, rfl,
      fun _ => rfl⟩
    · simp [listUnlink, LRUCACHE.load, hq0, hm, hprev, hnext]
    · have := @ListOK.erase_of_map c { c with head := 0, tail := 0 } _ _ h hqL (le_refl _)
        (by simp [hhead, nextOf_cons]) (by simp [htail, hp0]) (by simp)
      rwa [herase] at this
  | cons b E' =>
    simp only [List.headD_cons] at hnext
    have hbL : b ∈ q :: b :: E' := by simp
    have hb0 := h.ne_zero hbL
    have hbq : b ≠ q := fun e => hnd.1 (e ▸ List.mem_cons_self _ _)
    obtain ⟨nb, hmb, -, -⟩ := h.link b hbL
    have htail : c.tail ≠ q := by
      rw [h.tail_eq]
      intro e
      have : nextOf (q :: b :: E') q = 0 :=
        (nextOf_eq_zero_iff h.nodup h.nonnull hqL).2
          (by rw [← e, List.getLastD_eq_getLast?]; simp [List.getLast?_cons_cons]
              cases hl : (b :: E').getLast? with
              | none => simp at hl
              | some y => simp)
      rw [hnx] at this
      exact hb0 (by simpa using this)
    refine ⟨({ c with head := b } : LRUCACHE).store b { nb with prev := 0 }, n, hm, ?_, ?_, ?_,
      rfl, rfl, rfl, rfl, rfl, ?_⟩
    · simp [listUnlink, LRUCACHE.load, LRUCACHE.setPrev, LRUCACHE.store, hq0, hm, hprev, hnext,
        hb0, hmb]
    · have := @ListOK.erase_of_map c
        (({ c with head := b } : LRUCACHE).store b { nb with prev := 0 }) _ _ h hqL (le_refl _)
        (by simp [LRUCACHE.store, hhead, nextOf_cons]) (by simp [LRUCACHE.store, htail]) ?_
      · rwa [herase] at this
      · intro p hp hpq
        rw [hp0, hnx]
        simp only [List.headD_cons]
        by_cases e : p = b
        · subst e; simp [LRUCACHE.store, hmb, h.ne_zero hp]
        · simp [LRUCACHE.store, e, h.ne_zero hp]
    · simp [LRUCACHE.store, Ne.symm hbq, hm]
    · intro p
      by_cases e : p = b
      · subst e; simp [LRUCACHE.store, hmb, NODE.unlinked]
      · simp [LRUCACHE.store, e]

theorem hnextless_eq {n n' : NODE}
    (h : ({ n' with hnext := 0 } : NODE) = { n with hnext := 0 }) :
    n'.key = n.key ∧ n'.prev = n.prev ∧ n'.next = n.next ∧
      n'.serializedValue = n.serializedValue ∧ n'.valueSize = n.valueSize := by
  cases n; cases n'
  simp at h
  simp [h]

theorem hnextless_some {m m' : Option NODE} {n : NODE} (hm : m = some n)
    (h : m'.map (fun n => ({ n with hnext := 0 } : NODE)) = m.map (fun n => { n with hnext := 0 })) :
    ∃ n', m' = some n' ∧ n'.key = n.key ∧ n'.prev = n.prev ∧ n'.next = n.next ∧
      n'.serializedValue = n.serializedValue ∧ n'.valueSize = n.valueSize := by
  subst hm
  cases m' with
  | none => simp at h
  | some n' =>
    simp only [Option.map_some', Option.some.injEq] at h
    exact ⟨n', rfl, hnextless_eq h⟩

theorem unlinked_some {m m' : Option NODE} {n : NODE} (hm : m = some n)
    (h : m'.map NODE.unlinked = m.map NODE.unlinked) :
    ∃ n', m' = some n' ∧ n'.key = n.key ∧ n'.hnext = n.hnext ∧
      n'.serializedValue = n.serializedValue ∧ n'.valueSize = n.valueSize := by
  subst hm
  cases m' with
  | none => simp at h
  | some n' =>
    simp only [Option.map_some', Option.some.injEq] at h
    exact ⟨n', rfl, (unlinked_eq h).1, (unlinked_eq h).2.1, (unlinked_eq h).2.2.1,
      (unlinked_eq h).2.2.2.1⟩

/-- The unlinking part of `LRUCacheRemove` in a state that satisfies the invariant, for a key
that is found: the search, the two list statements, the loop over the bucket chain and
`LRUCacheFreeNode` all return, and the state they leave has the node taken out of the recency
list and out of its bucket chain and freed, everything else being as it was. -/
theorem Inv.remove_unlink {c : LRUCACHE} {L : List Ptr} (h : Inv c L) {key : List Nat}
    {q : Ptr} (hf : c.find key = some q) (hq0 : q ≠ 0) :
    ∃ c1 c3 c4 c' n, q ∈ L ∧ LRUCacheGet c key = some (c1, q) ∧ c.mem q = some n ∧
      listUnlink c1 q = some c3 ∧
      unlinkLoop c3 (LRUCacheGetHashIndex key) q (c3.brk + 1) 0
        (c3.nodes (LRUCacheGetHashIndex key)) = some c4 ∧
      LRUCacheFreeNode c4 q = some c' ∧ Inv c' (L.erase q) ∧
      c'.size = c.size ∧ c'.capacity = c.capacity ∧ c'.brk = c.brk ∧ c'.mem q = none ∧
      (∀ p, p ≠ q → ∀ np, c.mem p = some np → ∃ np', c'.mem p = some np' ∧
        np'.key = np.key ∧ np'.serializedValue = np.serializedValue ∧
        np'.valueSize = np.valueSize) ∧
      c'.nodes (LRUCacheGetHashIndex key) ≠ q ∧
      (∀ j Cj, BucketOK c L j Cj → Chain c' (c'.nodes j) (Cj.erase q)) := by
  rcases h.get key with ⟨hf0, -⟩ | ⟨q', c1, -, hf', hqL, -, hg, -, hinv1, hsame⟩
  · rw [hf] at hf0
    exact absurd (Option.some.inj hf0) hq0
  have e : q' = q := Option.some.inj (hf'.symm.trans hf)
  rw [e] at hqL hg hinv1
  clear hf' e
  obtain ⟨C, hC, hqC⟩ := h.find_mem hf hq0
  obtain ⟨c3, n1, -, hrun3, hl3, hm3, hnodes3, hbrk3, hsize3, hcap3, -, hdata3⟩ :=
    hinv1.list.unlinkHead
  obtain ⟨n, hmq⟩ : ∃ n, c.mem q = some n := by
    obtain ⟨n, hn, -⟩ := h.list.link q hqL
    exact ⟨n, hn⟩
  have hdata : ∀ p, (c3.mem p).map NODE.unlinked = (c.mem p).map NODE.unlinked :=
    fun p => (hdata3 p).trans (hsame.mem p)
  have hchain3 : Chain c3 (c3.nodes (LRUCacheGetHashIndex key)) C := by
    rw [hnodes3, hsame.nodes]
    refine Chain.congr ?_ hC.1
    intro p _ np hnp
    obtain ⟨n', h1, -, h2, -⟩ := unlinked_some hnp (hdata p)
    exact ⟨n', h1, h2⟩
  have hfuel : C.length < c3.brk + 1 := by
    rw [hbrk3, hsame.brk]
    exact h.chain_length hC.2.1 (fun p hp => (hC.2.2 p hp).1)
  obtain ⟨c4, hrun4, hnodes4, hhead4, htail4, hbrk4, hsize4, hcap4, -, hchain4, hframe4,
    hdata4, hqm4⟩ := unlinkLoop_spec (LRUCacheGetHashIndex key) hchain3 hC.2.1 hqC hfuel
  have hm4 : c4.mem q = some n1 := hqm4.trans hm3
  have hE : ∀ p, p ∈ L.erase q ↔ p ≠ q ∧ p ∈ L := fun p => mem_erase_ne h.list.nodup
  have herase : (q :: L.erase q).erase q = L.erase q := List.erase_cons_head _ _
  obtain ⟨c', hfree, hmem', hhead', htail', hnodes', hbrk', hcap', hsize'⟩ :
      ∃ c', LRUCacheFreeNode c4 q = some c' ∧
        c'.mem = (fun p => if p = q then none else c4.mem p) ∧
        c'.head = c4.head ∧ c'.tail = c4.tail ∧ c'.nodes = c4.nodes ∧ c'.brk = c4.brk ∧
        c'.capacity = c4.capacity ∧ c'.size = c4.size :=
    ⟨c4.release q, by simp [LRUCacheFreeNode, LRUCACHE.load, hq0, hm4], rfl, rfl, rfl, rfl, rfl,
      rfl, rfl⟩
  have hmemne : ∀ p, p ≠ q → c'.mem p = c4.mem p := by
    intro p hp
    rw [hmem']
    simp [hp]
  have hchains : ∀ j Cj, BucketOK c L j Cj → Chain c' (c'.nodes j) (Cj.erase q) := by
    intro j Cj hCj
    by_cases hj : j = LRUCacheGetHashIndex key
    · subst hj
      have e : Cj = C := hCj.1.unique hC.1
      subst e
      rw [hnodes']
      refine Chain.congr_eq (c := c4) ?_ hchain4
      intro p hp
      exact hmemne p ((mem_erase_ne hC.2.1).1 hp).1
    · have hdisj : ∀ p ∈ Cj, p ∉ C := by
        intro p hp hpC
        obtain ⟨-, np, hnp, -⟩ := hCj.2.2 p hp
        exact hj ((hCj.index_eq hp hnp).symm.trans (hC.index_eq hpC hnp))
      have hqCj : q ∉ Cj := fun e => hdisj q e hqC
      rw [List.erase_of_not_mem hqCj]
      have : c'.nodes j = c.nodes j := by
        rw [hnodes', hnodes4 j hj, hnodes3, hsame.nodes]
      rw [this]
      refine Chain.congr ?_ hCj.1
      intro p hp np hnp
      have hpq : p ≠ q := fun e => hqCj (e ▸ hp)
      obtain ⟨n3, hn3, -, e3, -⟩ := unlinked_some hnp (hdata p)
      exact ⟨n3, by rw [hmemne p hpq, hframe4 p (hdisj p hp)]; exact hn3, e3⟩
  have hhead : c'.nodes (LRUCacheGetHashIndex key) ≠ q := by
    intro e
    have h1 := hchains _ C hC
    rw [e] at h1
    have hqe : q ∉ C.erase q := fun e => ((mem_erase_ne hC.2.1).1 e).1 rfl
    cases hCe : C.erase q with
    | nil => rw [hCe] at h1; exact hq0 h1
    | cons r R =>
      rw [hCe] at h1 hqe
      exact hqe (h1.1 ▸ List.mem_cons_self _ _)
  refine ⟨c1, c3, c4, c', n, hqL, hg, hmq, hrun3, hrun4, hfree, ⟨?_, ?_, ?_⟩, ?_, ?_, ?_, ?_, ?_,
    hhead, hchains⟩
  · -- the recency list
    refine hl3.links_congr_of_map (hhead'.trans hhead4) (htail'.trans htail4)
      (le_of_eq (hbrk'.trans hbrk4).symm) ?_
    intro p hp
    have hpq : p ≠ q := ((hE p).1 hp).1
    obtain ⟨n3, hn3, -, -⟩ := hl3.link p hp
    obtain ⟨n4, hn4, -, e1, e2, -⟩ := hnextless_some hn3 (hdata4 p)
    simp [hmemne p hpq, hn3, hn4, e1, e2]
  · -- the hash index
    intro j
    by_cases hj : j = LRUCacheGetHashIndex key
    · subst hj
      refine ⟨C.erase q, ?_, hC.2.1.erase q, ?_⟩
      · rw [hnodes']
        refine Chain.congr_eq (c := c4) ?_ hchain4
        intro p hp
        exact hmemne p ((mem_erase_ne hC.2.1).1 hp).1
      · intro p hp
        obtain ⟨hpq, hpC⟩ := (mem_erase_ne hC.2.1).1 hp
        obtain ⟨hpL, np, hnp, hidx⟩ := hC.2.2 p hpC
        obtain ⟨n3, hn3, e3, -⟩ := unlinked_some hnp (hdata p)
        obtain ⟨n4, hn4, e4, -⟩ := hnextless_some hn3 (hdata4 p)
        exact ⟨(hE p).2 ⟨hpq, hpL⟩, n4, by rw [hmemne p hpq]; exact hn4,
          by rw [e4, e3]; exact hidx⟩
    · obtain ⟨Cj, hCj⟩ := h.hash j
      have hdisj : ∀ p ∈ Cj, p ∉ C := by
        intro p hp hpC
        obtain ⟨-, np, hnp, -⟩ := hCj.2.2 p hp
        exact hj ((hCj.index_eq hp hnp).symm.trans (hC.index_eq hpC hnp))
      have hmemj : ∀ p ∈ Cj, c'.mem p = c3.mem p := by
        intro p hp
        have hpq : p ≠ q := fun e => hdisj p hp (e ▸ hqC)
        rw [hmemne p hpq, hframe4 p (hdisj p hp)]
      refine ⟨Cj, ?_, hCj.2.1, ?_⟩
      · have : c'.nodes j = c.nodes j := by
          rw [hnodes', hnodes4 j hj, hnodes3, hsame.nodes]
        rw [this]
        refine Chain.congr ?_ hCj.1
        intro p hp np hnp
        obtain ⟨n3, hn3, -, e3, -⟩ := unlinked_some hnp (hdata p)
        exact ⟨n3, by rw [hmemj p hp]; exact hn3, e3⟩
      · intro p hp
        have hpq : p ≠ q := fun e => hdisj p hp (e ▸ hqC)
        obtain ⟨hpL, np, hnp, hidx⟩ := hCj.2.2 p hp
        obtain ⟨n3, hn3, e3, -⟩ := unlinked_some hnp (hdata p)
        exact ⟨(hE p).2 ⟨hpq, hpL⟩, n3, by rw [hmemj p hp]; exact hn3,
          by rw [e3]; exact hidx⟩
  · rw [hbrk', hbrk4, hbrk3, hsame.brk]; exact h.brk_pos
  · rw [hsize', hsize4, hsize3, hsame.size]
  · rw [hcap', hcap4, hcap3, hsame.capacity]
  · rw [hbrk', hbrk4, hbrk3, hsame.brk]
  · rw [hmem']; simp
  · intro p hpq np hnp
    obtain ⟨n3, hn3, e3, -, e3', e3''⟩ := unlinked_some hnp (hdata p)
    obtain ⟨n4, hn4, e4, -, -, e4', e4''⟩ := hnextless_some hn3 (hdata4 p)
    exact ⟨n4, by rw [hmemne p hpq]; exact hn4, e4.trans e3, e4'.trans e3',
      e4''.trans e3''⟩

/-- After `LRUCacheFreeNode(node)` the node is gone, so the byte accounting of
`LRUCacheRemove`, which reads `node->key` and `node->valueSize` after that call, reads a freed
object: once the search has returned a node the call does not return. -/
theorem remove_found {c c1 : LRUCACHE} {key : List Nat} {q : Ptr}
    (hg : LRUCacheGet c key = some (c1, q)) (hq : q ≠ 0) : LRUCacheRemove c key = none := by
  simp only [LRUCacheRemove, hg, Option.bind_eq_bind, Option.some_bind, hq, if_false]
  cases listUnlink c1 q with
  | none => rfl
  | some c3 =>
    simp only [Option.some_bind]
    cases unlinkLoop c3 (LRUCacheGetHashIndex key) q (c3.brk + 1) 0
        (c3.nodes (LRUCacheGetHashIndex key)) with
    | none => rfl
    | some c4 =>
      simp only [Option.some_bind, LRUCacheFreeNode]
      cases c4.load q with
      | none => rfl
      | some n => simp [LRUCACHE.load, LRUCACHE.release]

/-- A key that is found: `LRUCacheRemove` does not return, in any state. -/
theorem remove_of_find {c : LRUCACHE} {key : List Nat} {q : Ptr}
    (hf : c.find key = some q) (hq : q ≠ 0) : LRUCacheRemove c key = none := by
  cases hg : LRUCacheGet c key with
  | none => simp [LRUCacheRemove, hg]
  | some r =>
    obtain ⟨c1, q'⟩ := r
    have hg' := hg
    rw [get_eq, hf] at hg'
    simp only [hq, if_false, Option.map_eq_some'] at hg'
    obtain ⟨r', -, e⟩ := hg'
    simp only [Prod.mk.injEq] at e
    rw [← e.2] at hg
    exact remove_found hg hq

/-- What `LRUCacheRemove` does in a state that satisfies the invariant: for a key that is not
found it returns -1 and changes nothing; for a key that is found it does not return. -/
theorem Inv.remove {c : LRUCACHE} {L : List Ptr} (h : Inv c L) (key : List Nat) :
    (c.find key = some 0 ∧ LRUCacheRemove c key = some (c, -1)) ∨
    ∃ q, q ≠ 0 ∧ q ∈ L ∧ c.find key = some q ∧ LRUCacheRemove c key = none := by
  rcases h.get key with ⟨hf, hg⟩ | ⟨q, c1, hq0, hf, hqL, -, hg, -, -, -⟩
  · left
    exact ⟨hf, by simp [LRUCacheRemove, hg]⟩
  · right
    exact ⟨q, hq0, hqL, hf, remove_found hg hq0⟩

/-! ### Reachable states satisfy the invariant -/

theorem create_eq (capacity : Nat) :
    LRUCacheCreate capacity true true = some (freshCache capacity) := rfl

theorem create_some {capacity : Nat} {a b : Bool} {c : LRUCACHE}
    (h : LRUCacheCreate capacity a b = some c) : c = freshCache capacity := by
  cases a <;> cases b <;> simp [LRUCacheCreate] at h
  rw [← h]; rfl

theorem Inv.fresh (capacity : Nat) : Inv (freshCache capacity) [] := by
  refine ⟨⟨List.nodup_nil, by simp, by simp, rfl, rfl, by simp⟩, ?_, by simp [freshCache]⟩
  intro i
  exact ⟨[], rfl, List.nodup_nil, by simp⟩

theorem Inv.put_inv {c : LRUCACHE} {L : List Ptr} (h : Inv c L) {key value : List Nat} {size : Nat}
    {m : Alloc} {c' : LRUCACHE} {r : Int} (hr : LRUCachePut c key value size m = some (c', r)) :
    ∃ L', Inv c' L' := by
  rcases h.put_cases key value size m with h1 | h1 | ⟨q, c1, n1, -, -, -, -, -, -, -, -, -, -,
    h1, h2⟩ | ⟨c2, L2, c'', -, -, -, -, -, -, -, -, h1, h2, -⟩
  · rw [h1] at hr; cases hr
  · rw [h1] at hr; cases hr; exact ⟨L, h⟩
  · rw [h1] at hr; cases hr; exact ⟨_, h2⟩
  · rw [h1] at hr; cases hr; exact ⟨_, h2⟩

theorem Inv.step_inv {c : LRUCACHE} {L : List Ptr} (h : Inv c L) {op : Op} {c' : LRUCACHE}
    (hs : step c op = some c') : ∃ L', Inv c' L' := by
  cases op with
  | put key value size m =>
    simp only [step, Option.map_eq_some'] at hs
    obtain ⟨⟨c1, r⟩, h1, h2⟩ := hs
    cases h2
    exact h.put_inv h1
  | get key =>
    simp only [step, Option.map_eq_some'] at hs
    obtain ⟨⟨c1, r⟩, h1, h2⟩ := hs
    cases h2
    rcases h.get key with ⟨-, hg⟩ | ⟨q, c2, -, -, -, -, hg, -, hinv, -⟩
    · rw [hg] at h1; cases h1; exact ⟨L, h⟩
    · rw [hg] at h1; cases h1; exact ⟨_, hinv⟩
  | remove key =>
    simp only [step, Option.map_eq_some'] at hs
    obtain ⟨⟨c1, r⟩, h1, h2⟩ := hs
    cases h2
    rcases h.remove key with ⟨-, hg⟩ | ⟨q, -, -, -, hg⟩
    · rw [hg] at h1; cases h1; exact ⟨L, h⟩
    · rw [hg] at h1; cases h1

theorem Inv.run_inv {c : LRUCACHE} {L : List Ptr} (h : Inv c L) {ops : List Op} {c' : LRUCACHE}
    (hs : run c ops = some c') : ∃ L', Inv c' L' := by
  induction ops generalizing c L with
  | nil => simp only [run, Option.some.injEq] at hs; subst hs; exact ⟨L, h⟩
  | cons op ops ih =>
    simp only [run, Option.bind_eq_some] at hs
    obtain ⟨c1, h1, h2⟩ := hs
    obtain ⟨L1, hL1⟩ := h.step_inv h1
    exact ih hL1 h2

/-- Every state a caller can get to satisfies the representation invariant. -/
theorem Reachable.inv {c : LRUCACHE} (h : Reachable c) : ∃ L, Inv c L := by
  obtain ⟨capacity, a, b, c0, ops, -, hc, hr⟩ := h
  rw [create_some hc] at hr
  exact (Inv.fresh capacity).run_inv hr

theorem reachable_runD {capacity : Nat} (hcap : capacity < UINT_RANGE) (ops : List Op)
    (h : (run (freshCache capacity) ops).isSome = true) :
    Reachable (runD (freshCache capacity) ops) := by
  refine ⟨capacity, true, true, freshCache capacity, ops, hcap, rfl, ?_⟩
  unfold runD
  cases hr : run (freshCache capacity) ops with
  | none => rw [hr] at h; simp at h
  | some c => rfl

theorem Reachable.step_reach {c c' : LRUCACHE} (h : Reachable c) {op : Op}
    (hs : step c op = some c') : Reachable c' := by
  obtain ⟨capacity, a, b, c0, ops, hcap, hc, hr⟩ := h
  refine ⟨capacity, a, b, c0, ops ++ [op], hcap, hc, ?_⟩
  clear hc
  induction ops generalizing c0 with
  | nil =>
    simp only [run, Option.some.injEq] at hr
    subst hr
    simp [run, hs]
  | cons o ops ih =>
    simp only [run, Option.bind_eq_some] at hr
    obtain ⟨c1, h1, h2⟩ := hr
    simp only [List.cons_append, run, h1, Option.some_bind]
    exact ih c1 h2

/-! ### The recency list as the program walks it -/

theorem nextOf_append {P S : List Ptr} {x : Ptr} (hn : (P ++ x :: S).Nodup) :
    nextOf (P ++ x :: S) x = S.headD 0 := by
  induction P with
  | nil => simp [nextOf_cons]
  | cons a P ih =>
    have hn' := List.nodup_cons.1 hn
    have : x ≠ a := by
      intro e
      apply hn'.1
      rw [← e]
      simp
    rw [List.cons_append, nextOf_cons, if_neg this]
    exact ih hn'.2

theorem ListOK.walkList_suffix {c : LRUCACHE} {L : List Ptr} (h : ListOK c L) (S : List Ptr) :
    ∀ (P : List Ptr) (fuel : Nat), L = P ++ S → S.length < fuel →
      walkList c fuel (S.headD 0) = S := by
  induction S with
  | nil =>
    intro P fuel _ hf
    obtain ⟨f, rfl⟩ : ∃ f, fuel = f + 1 := ⟨fuel - 1, by simp at hf; omega⟩
    simp [walkList, LRUCACHE.load]
  | cons x S ih =>
    intro P fuel hL hf
    obtain ⟨f, rfl⟩ : ∃ f, fuel = f + 1 := ⟨fuel - 1, by simp at hf; omega⟩
    have hx : x ∈ L := by rw [hL]; simp
    obtain ⟨n, hm, -, hn⟩ := h.link x hx
    have hnx : nextOf L x = S.headD 0 := by
      have := h.nodup
      rw [hL] at this ⊢
      exact nextOf_append this
    simp only [List.headD_cons, walkList, load_eq (h.ne_zero hx) hm, hn, hnx]
    rw [ih (P ++ [x]) f (by simp [hL]) (by simp at hf; omega)]

/-- The walk from `head` along `next` visits exactly the nodes of the list, in order. -/
theorem ListOK.recencyList_eq {c : LRUCACHE} {L : List Ptr} (h : ListOK c L) :
    recencyList c = L := by
  unfold recencyList
  rw [h.head_eq]
  have := length_le_of_bound h.nodup h.bound
  exact h.walkList_suffix L [] (c.brk + 1) rfl (by omega)

/-! ### Size and capacity -/

theorem uint_pred {s : Nat} (h1 : 1 ≤ s) (h2 : s < UINT_RANGE) :
    (s + (UINT_RANGE - 1)) % UINT_RANGE = s - 1 := by
  simp only [UINT_RANGE] at h2 ⊢
  omega

theorem length_front {L : List Ptr} {q : Ptr} (hq : q ∈ L) :
    (q :: L.erase q).length = L.length := by
  have := List.length_pos_of_mem hq
  rw [List.length_cons, List.length_erase_of_mem hq]
  omega

/-- With a capacity of at least 1 the `size` field is the length of the recency list and never
exceeds the capacity, whatever the caller does. -/
theorem Inv.step_size {c : LRUCACHE} {L : List Ptr} (h : Inv c L) (hsz : c.size = L.length)
    (hle : L.length ≤ c.capacity) (h1 : 1 ≤ c.capacity) (h2 : c.capacity < UINT_RANGE)
    {op : Op} {c' : LRUCACHE} (hs : step c op = some c') :
    ∃ L', Inv c' L' ∧ c'.size = L'.length ∧ L'.length ≤ c'.capacity ∧
      c'.capacity = c.capacity := by
  cases op with
  | put key value size m =>
    simp only [step, Option.map_eq_some'] at hs
    obtain ⟨⟨c1, r⟩, hr, e⟩ := hs
    cases e
    rcases h.put_cases key value size m with h0 | h0 | ⟨q, c1, n1, -, hqL, -, -, hsame, -, -, -,
      -, -, h0, hinv⟩ | ⟨c2, L2, c'', -, -, -, -, -, -, hcap2, hev, h0, hinv, hsize, hcap, -⟩
    · rw [h0] at hr; cases hr
    · rw [h0] at hr; cases hr; exact ⟨L, h, hsz, hle, rfl⟩
    · rw [h0] at hr; cases hr
      refine ⟨_, hinv, ?_, ?_, ?_⟩
      · simp only [LRUCACHE.store]
        rw [hsame.size, hsz, length_front hqL]
      · simp only [LRUCACHE.store]
        rw [hsame.capacity, length_front hqL]
        exact hle
      · simp only [LRUCACHE.store]
        exact hsame.capacity
    · rw [h0] at hr; cases hr
      refine ⟨_, hinv, ?_, ?_, hcap⟩
      · rcases hev with ⟨rfl, e2, -, hcond, -⟩ | ⟨n, rfl, htL, hfull, -, -, e2, -⟩
        · have hlt : L2.length < c.capacity := by
            rcases hcond with hne | hnil
            · rw [hsz] at hne; omega
            · rw [hnil]; simpa using h1
          rw [hsize, e2, hsz, List.length_cons]
          simp only [UINT_RANGE] at h2 ⊢
          omega
        · have hpos := List.length_pos_of_mem htL
          rw [hsize, e2, uint_pred (by rw [hsz]; exact hpos) (by rw [hfull]; exact h2), hsz,
            List.length_cons, List.length_erase_of_mem htL]
          simp only [UINT_RANGE] at h2 ⊢
          omega
      · rw [hcap]
        rcases hev with ⟨rfl, -, -, hcond, -⟩ | ⟨n, rfl, htL, -, -, -, -, -⟩
        · rcases hcond with hne | hnil
          · rw [hsz] at hne
            rw [List.length_cons]; omega
          · rw [hnil]; simpa using h1
        · have hpos := List.length_pos_of_mem htL
          rw [List.length_cons, List.length_erase_of_mem htL]
          omega
  | get key =>
    simp only [step, Option.map_eq_some'] at hs
    obtain ⟨⟨c1, r⟩, hr, e⟩ := hs
    cases e
    rcases h.get key with ⟨-, hg⟩ | ⟨q, c2, -, -, hqL, -, hg, -, hinv, hsame⟩
    · rw [hg] at hr; cases hr; exact ⟨L, h, hsz, hle, rfl⟩
    · rw [hg] at hr; cases hr
      exact ⟨_, hinv, by rw [hsame.size, hsz, length_front hqL],
        by rw [hsame.capacity, length_front hqL]; exact hle, hsame.capacity⟩
  | remove key =>
    simp only [step, Option.map_eq_some'] at hs
    obtain ⟨⟨c1, r⟩, hr, e⟩ := hs
    cases e
    rcases h.remove key with ⟨-, hg⟩ | ⟨q, -, -, -, hg⟩
    · rw [hg] at hr; cases hr; exact ⟨L, h, hsz, hle, rfl⟩
    · rw [hg] at hr; cases hr

theorem Inv.run_size {c : LRUCACHE} {L : List Ptr} (h : Inv c L) (hsz : c.size = L.length)
    (hle : L.length ≤ c.capacity) (h1 : 1 ≤ c.capacity) (h2 : c.capacity < UINT_RANGE)
    {ops : List Op} {c' : LRUCACHE} (hs : run c ops = some c') :
    c'.size ≤ c'.capacity ∧ c'.capacity = c.capacity := by
  induction ops generalizing c L with
  | nil =>
    simp only [run, Option.some.injEq] at hs
    subst hs
    exact ⟨by rw [hsz]; exact hle, rfl⟩
  | cons op ops ih =>
    simp only [run, Option.bind_eq_some] at hs
    obtain ⟨c1, hs1, hs2⟩ := hs
    obtain ⟨L1, hinv1, e1, e2, e3⟩ := h.step_size hsz hle h1 h2 hs1
    obtain ⟨r1, r2⟩ := ih hinv1 e1 e2 (by rw [e3]; exact h1) (by rw [e3]; exact h2) hs2
    exact ⟨r1, r2.trans e3⟩

/-! ### What the search depends on -/

theorem findLoop_congr_index {c c' : LRUCACHE}
    (hmem : ∀ p, (c'.mem p).map (fun n => (n.key, n.hnext))
      = (c.mem p).map (fun n => (n.key, n.hnext)))
    (key : List Nat) (fuel : Nat) (p : Ptr) :
    findLoop c' key fuel p = findLoop c key fuel p := by
  induction fuel generalizing p with
  | zero => rfl
  | succ f ih =>
    unfold findLoop
    by_cases hp : p = 0
    · simp [hp]
    · simp only [hp, if_false, LRUCACHE.load]
      have := hmem p
      cases hm : c.mem p with
      | none =>
        rw [hm] at this
        cases hm' : c'.mem p with
        | none => rfl
        | some n' => rw [hm'] at this; simp at this
      | some n =>
        rw [hm] at this
        cases hm' : c'.mem p with
        | none => rw [hm'] at this; simp at this
        | some n' =>
          rw [hm'] at this
          simp only [Option.map_some', Option.some.injEq, Prod.mk.injEq] at this
          simp only [this.1, this.2, ih]

/-- Replacing a payload does not change what the search finds. -/
theorem find_setValue {c : LRUCACHE} {q : Ptr} {n : NODE} (hm : c.mem q = some n)
    (v : List Nat) (b : Nat) (key : List Nat) :
    (({ c with sizeInBytes := b } : LRUCACHE).store q { n with serializedValue := v }).find key
      = c.find key := by
  unfold LRUCACHE.find
  simp only [LRUCACHE.store]
  apply findLoop_congr_index
  intro p
  by_cases e : p = q
  · subst e; simp [hm]
  · simp [e]

/-- After a successful `LRUCachePut` the search finds a node for the key: it is the head of
the recency list and holds the bytes that were put. -/
theorem Inv.put_found {c : LRUCACHE} {L : List Ptr} (h : Inv c L) {key value : List Nat}
    {size : Nat} {m : Alloc} {c' : LRUCACHE}
    (hr : LRUCachePut c key value size m = some (c', 0)) :
    ∃ p L', p ≠ 0 ∧ Inv c' L' ∧ c'.find key = some p ∧ c'.head = p ∧
      valueAt c' p = some (value.take size) := by
  rcases h.put_cases key value size m with h0 | h0 | ⟨q, c1, n1, hq0, hqL, hf, -, hsame, hinv1,
      hm1, -, -, -, h0, hinv⟩ | ⟨c2, L2, c'', -, -, -, -, hinv2, hnot, -, -, h0, hinv, -, -, hbrk,
      hnodes, -, -, hnode⟩
  · rw [h0] at hr; cases hr
  · rw [h0] at hr; cases hr
  · rw [h0] at hr
    cases hr
    refine ⟨q, _, hq0, hinv, ?_, ?_, ?_⟩
    · rw [find_setValue hm1, find_congr hsame, hf]
    · simpa using hinv.list.head_eq
    · simp [valueAt, LRUCACHE.store]
  · rw [h0] at hr
    cases hr
    have hb0 : c.brk ≠ 0 := Nat.pos_iff_ne_zero.1 h.brk_pos
    obtain ⟨n', hn', e⟩ : ∃ n', c'.mem c.brk = some n' ∧ n'.unlinked =
        ⟨LRUCacheCreateHash key, key, value.take size, size, 0, 0,
          c2.nodes (LRUCacheGetHashIndex key)⟩ := by
      cases hm : c'.mem c.brk with
      | none => rw [hm] at hnode; simp at hnode
      | some n' => rw [hm] at hnode; simp at hnode; exact ⟨n', rfl, hnode⟩
    have hkey : n'.key = key := by
      have := congrArg NODE.key e
      simpa [NODE.unlinked] using this
    have hval : n'.serializedValue = value.take size := by
      have := congrArg NODE.serializedValue e
      simpa [NODE.unlinked] using this
    refine ⟨c.brk, _, hb0, hinv, ?_, ?_, ?_⟩
    · unfold LRUCACHE.find
      rw [hbrk, hnodes]
      simp [LRUCACHE.setBucket, findLoop, hb0, LRUCACHE.load, hn', hkey, strncmp_self]
    · simpa using hinv.list.head_eq
    · simp [valueAt, hn', hval]

/-! ## The claims -/

/-- C1 (capacity invariant): for a capacity `1 ≤ capacity` (a `UINT`), whatever sequence of
Put calls is applied to the cache `LRUCacheCreate` returned, any keys, buffers, sizes and
allocation outcomes, the `size` field of the state reached when all those calls return is at
most `capacity`.  Every prefix of a sequence is a sequence, so this holds after each Put. -/
theorem C1_capacity_invariant (capacity : Nat) (a b : Bool) (c0 c : LRUCACHE)
    (ps : List (List Nat × List Nat × Nat × Alloc))
    (h1 : 1 ≤ capacity) (h2 : capacity < UINT_RANGE)
    (hc : LRUCacheCreate capacity a b = some c0) (hr : run c0 (putOps ps) = some c) :
    c.size ≤ capacity := by
  rw [create_some hc] at hr
  have := (Inv.fresh capacity).run_size (L := []) rfl (Nat.zero_le _) h1 h2 hr
  rw [this.2] at this
  exact this.1

theorem C1_capacity_invariant_witness :
    (1 ≤ 2 ∧ 2 < UINT_RANGE ∧ LRUCacheCreate 2 true true = some (freshCache 2) ∧
      (run (freshCache 2) (putOps [(keyA, val1, 4, Alloc.ok), (keyB, val2, 4, Alloc.ok),
        (keyC, val3, 4, Alloc.ok)])).isSome = true) ∧
    (runD (freshCache 2) (putOps [(keyA, val1, 4, Alloc.ok), (keyB, val2, 4, Alloc.ok),
      (keyC, val3, 4, Alloc.ok)])).size ≤ 2 :=
  ⟨⟨by decide, by decide, rfl, by decide⟩,
    C1_capacity_invariant 2 true true (freshCache 2) _ [(keyA, val1, 4, Alloc.ok),
      (keyB, val2, 4, Alloc.ok), (keyC, val3, 4, Alloc.ok)] (by decide) (by decide) rfl rfl⟩

/-- C2 (round trip), the case the program gets wrong: Create(2); Put("a", 1 byte);
Put("a", 2 bytes); Get("a").  The node returned holds the two bytes of the second Put, but its
`valueSize` field still says 1: `LRUCachePut` replaces `serializedValue` of an existing node
and leaves `valueSize` as it was. -/
theorem C2_update_keeps_old_valueSize :
    scenarioResize = some (some [2, 3], some 1) := by
  decide

/-- C3 (eviction), where the program goes wrong.  After Create(2); Put ab; Put bA; Get ab the
cache is full, `"c"` is absent, the tail is `"bA"` and `"ab"` is found through the hash index.
Put `"c"` returns 0 and evicts `"bA"`, but afterwards `"ab"`, still in the recency list, is no
longer found through the hash index: `LRUCacheRemoveTail` sets the bucket to `NULL` instead of
`node->hnext`.  Without the Get (tail `"ab"`, second in its bucket chain) the Put does not
return at all: the loop of `LRUCacheRemoveTail` follows `next` instead of `hnext` and runs
into `NULL`. -/
theorem C3_eviction_loses_bucket_neighbour :
    (runD (freshCache 2) collisionOps).size = 2 ∧
    (runD (freshCache 2) collisionOps).capacity = 2 ∧
    (runD (freshCache 2) collisionOps).find keyC = some 0 ∧
    (runD (freshCache 2) collisionOps).find keyAB = some 1 ∧
    recencyKeys (runD (freshCache 2) collisionOps) = [keyAB, keyBA] ∧
    (LRUCachePut (runD (freshCache 2) collisionOps) keyC [3] 1 Alloc.ok).map Prod.snd = some 0 ∧
    recencyKeys (runD (freshCache 2) (collisionOps ++ [Op.put keyC [3] 1 Alloc.ok]))
      = [keyC, keyAB] ∧
    (runD (freshCache 2) (collisionOps ++ [Op.put keyC [3] 1 Alloc.ok])).find keyAB = some 0 ∧
    (LRUCachePut (runD (freshCache 2)
        [Op.put keyAB [1] 1 Alloc.ok, Op.put keyBA [2] 1 Alloc.ok]) keyC [3] 1 Alloc.ok).isNone
      = true := by
  decide

/-- C4 (recency ordering): in a reachable state, when the search of `LRUCacheGet` finds the
node `p` for the key `K`, then `LRUCacheGet(K)` returns `p`, and `LRUCachePut(K, v, n)` with
`n > 0` (the buffer holds `n` bytes, the copy is allocated) returns 0; after either call `p`
is the head and the recency list is `p` followed by the list before with `p` deleted. The
keys of all nodes are as before. -/
theorem C4_recency_order (c : LRUCACHE) (K : List Nat) (p : Ptr) (hr : Reachable c)
    (hp : c.find K = some p) (hp0 : p ≠ 0) :
    p ∈ recencyList c ∧
    (∃ c', LRUCacheGet c K = some (c', p) ∧ c'.head = p ∧
      recencyList c' = p :: (recencyList c).erase p ∧ ∀ q, keyAt c' q = keyAt c q) ∧
    (∀ (v : List Nat) (n : Nat) (m : Alloc), n ≠ 0 → n ≤ v.length → m.payload = true →
      ∃ c', LRUCachePut c K v n m = some (c', 0) ∧ c'.head = p ∧
        recencyList c' = p :: (recencyList c).erase p ∧ ∀ q, keyAt c' q = keyAt c q) := by
  obtain ⟨L, h⟩ := hr.inv
  rcases h.get K with ⟨hf, -⟩ | ⟨q, c1, -, hf, hqL, -, hg, -, hinv1, hsame⟩
  · rw [hf] at hp; cases hp; exact absurd rfl hp0
  · have e : q = p := Option.some.inj (hf.symm.trans hp)
    rw [e] at hqL hg hinv1
    have hhead1 : c1.head = p := by simpa using hinv1.list.head_eq
    rw [h.list.recencyList_eq]
    refine ⟨hqL, ⟨c1, hg, hhead1, hinv1.list.recencyList_eq, hsame.keyAt_eq⟩, ?_⟩
    intro v n m hn hv hm
    obtain ⟨n1, hm1, hput, hinv'⟩ := put_hit K v m hn hm hv hp0 hg hinv1
    refine ⟨_, hput, ?_, hinv'.list.recencyList_eq, ?_⟩
    · simpa using hinv'.list.head_eq
    · intro r
      rw [← hsame.keyAt_eq r]
      unfold keyAt
      by_cases e : r = p
      · subst e; simp [LRUCACHE.store, hm1]
      · simp [LRUCACHE.store, e]

theorem C4_recency_order_witness :
    (Reachable cacheAB ∧ cacheAB.find keyA = some 1) ∧
    1 ∈ recencyList cacheAB ∧
    (∃ c', LRUCacheGet cacheAB keyA = some (c', 1) ∧ c'.head = 1 ∧
      recencyList c' = 1 :: (recencyList cacheAB).erase 1 ∧
      ∀ q, keyAt c' q = keyAt cacheAB q) ∧
    (∀ (v : List Nat) (n : Nat) (m : Alloc), n ≠ 0 → n ≤ v.length → m.payload = true →
      ∃ c', LRUCachePut cacheAB keyA v n m = some (c', 0) ∧ c'.head = 1 ∧
        recencyList c' = 1 :: (recencyList cacheAB).erase 1 ∧
        ∀ q, keyAt c' q = keyAt cacheAB q) :=
  ⟨⟨reachable_runD (by decide) _ (by decide), by decide⟩,
    C4_recency_order cacheAB keyA 1 (reachable_runD (by decide) _ (by decide)) (by decide)
      (by decide)⟩

/-- C5 (reachability invariant), where the program goes wrong: after Create(2); Put ab; Put bA;
Get ab; Put c (all four calls return) the recency list holds `"c"` and `"ab"`, `size` is 2, and
the walk of the bucket of `"ab"` finds nothing. -/
theorem C5_list_entry_missing_from_index :
    (run (freshCache 2) (collisionOps ++ [Op.put keyC [3] 1 Alloc.ok])).isSome = true ∧
    recencyKeys (runD (freshCache 2) (collisionOps ++ [Op.put keyC [3] 1 Alloc.ok]))
      = [keyC, keyAB] ∧
    (runD (freshCache 2) (collisionOps ++ [Op.put keyC [3] 1 Alloc.ok])).size = 2 ∧
    bucketKeys (runD (freshCache 2) (collisionOps ++ [Op.put keyC [3] 1 Alloc.ok]))
      (LRUCacheGetHashIndex keyAB) = [] ∧
    bucketKeys (runD (freshCache 2) (collisionOps ++ [Op.put keyC [3] 1 Alloc.ok]))
      (LRUCacheGetHashIndex keyC) = [keyC] := by
  decide

/-- C6 (scenario B): Create(2); Put("a",1); Put("b",2); Get("a"); Put("c",3).  Afterwards
Get("b") finds nothing, Get("a") returns the value 1, Get("c") the value 3, and `size` is 2:
the entry evicted is `"b"`, not `"a"`. -/
theorem C6_scenario_B : scenarioB = some (none, some val1, some val3, 2) := by
  decide

/-- C7 (scenario A): Create(2); Put("a",1); Put("b",2); Put("c",3), all three returning 0.
Afterwards Get("a") finds nothing, Get("b") returns the value 2 and Get("c") the value 3. -/
theorem C7_scenario_A : scenarioA = some (0, 0, 0, none, some val2, some val3) :=
  rfl

/-- C8 (scenario D, update in place): in a reachable state, after a Put of `k` that returned
0, a second Put of `k` with a payload `v2` of `n2 > 0` bytes (its copy allocated) returns 0
and leaves `size` as the first Put left it; the Get of `k` that follows returns a node that
holds `v2` and is the head of the recency list. -/
theorem C8_update_in_place (c c1 : LRUCACHE) (k v1 v2 : List Nat) (n1 n2 : Nat)
    (m1 m2 : Alloc) (hr : Reachable c) (hput1 : LRUCachePut c k v1 n1 m1 = some (c1, 0))
    (hn2 : n2 ≠ 0) (hv2 : v2.length = n2) (hm2 : m2.payload = true) :
    ∃ c2, LRUCachePut c1 k v2 n2 m2 = some (c2, 0) ∧ c2.size = c1.size ∧
      ∃ c3 p, LRUCacheGet c2 k = some (c3, p) ∧ p ≠ 0 ∧ valueAt c3 p = some v2 ∧
        c3.head = p ∧ (recencyList c3).head? = some p := by
  obtain ⟨L, h⟩ := hr.inv
  obtain ⟨p, L1, hp0, hinv1, hf1, -, -⟩ := h.put_found hput1
  rcases hinv1.get k with ⟨hf, -⟩ | ⟨q, c1', -, hf, hqL, -, hg, -, hinv1', hsame⟩
  · rw [hf] at hf1; cases hf1; exact absurd rfl hp0
  · have e : q = p := Option.some.inj (hf.symm.trans hf1)
    rw [e] at hf hqL hg hinv1'
    obtain ⟨nq, hmq, hput2, hinv2⟩ :=
      put_hit k v2 m2 hn2 hm2 (le_of_eq hv2.symm) hp0 hg hinv1'
    refine ⟨_, hput2, ?_, ?_⟩
    · simp only [LRUCACHE.store]
      exact hsame.size
    · have hfind2 := (find_setValue hmq (v2.take n2)
        (addSizeT (subSizeT c1'.sizeInBytes nq.valueSize) n2) k).trans
          ((find_congr hsame k).trans hf)
      rcases hinv2.get k with ⟨hf', -⟩ | ⟨q', c3, -, hf', -, -, hg', -, hinv3, hsame3⟩
      · rw [hf'] at hfind2; cases hfind2; exact absurd rfl hp0
      · have e' : q' = p := Option.some.inj (hf'.symm.trans hfind2)
        rw [e'] at hg' hinv3
        have hhead3 : c3.head = p := by simpa using hinv3.list.head_eq
        refine ⟨c3, p, hg', hp0, ?_, hhead3, ?_⟩
        · rw [hsame3.valueAt_eq]
          simp [valueAt, LRUCACHE.store, ← hv2]
        · rw [hinv3.list.recencyList_eq]
          rfl

theorem C8_update_in_place_witness :
    (Reachable (freshCache 2) ∧
      LRUCachePut (freshCache 2) keyA val1 4 Alloc.ok = some (cacheA, 0)) ∧
    ∃ c2, LRUCachePut cacheA keyA val2 4 Alloc.ok = some (c2, 0) ∧ c2.size = cacheA.size ∧
      ∃ c3 p, LRUCacheGet c2 keyA = some (c3, p) ∧ p ≠ 0 ∧ valueAt c3 p = some val2 ∧
        c3.head = p ∧ (recencyList c3).head? = some p :=
  ⟨⟨reachable_runD (by decide) [] (by decide), rfl⟩,
    C8_update_in_place (freshCache 2) cacheA keyA val1 val2 4 4 Alloc.ok Alloc.ok
      (reachable_runD (by decide) [] (by decide)) rfl (by decide) (by decide) (by decide)⟩

/-- C9 (scenario C): `LRUCachePut` with `size == 0` returns -1 and the state it returns is the
state it was given, whatever the state, the key, the buffer and the allocation outcomes; no
field, bucket, link or stored value changes, also when the key is present. -/
theorem C9_zero_size_rejected (c : LRUCACHE) (key value : List Nat) (m : Alloc) :
    LRUCachePut c key value 0 m = some (c, -1) := by
  simp [LRUCachePut]

/-- C10 (idempotent removal): when the search finds no node for `k` (it ends at `NULL`),
`LRUCacheRemove(k)` returns -1 and the state it returns is the state it was given; so any
number of such calls in a row gives that same state. -/
theorem C10_remove_absent (c : LRUCACHE) (k : List Nat) (h : c.find k = some 0) :
    LRUCacheRemove c k = some (c, -1) ∧ ∀ n, removeN c k n = some c := by
  have hg : LRUCacheGet c k = some (c, 0) := by rw [get_eq, h]; simp
  have hrem : LRUCacheRemove c k = some (c, -1) := by simp [LRUCacheRemove, hg]
  refine ⟨hrem, ?_⟩
  intro n
  induction n with
  | zero => rfl
  | succ n ih => simp [removeN, hrem, ih]

theorem C10_remove_absent_witness :
    cacheA.find keyB = some 0 ∧
    LRUCacheRemove cacheA keyB = some (cacheA, -1) ∧ ∀ n, removeN cacheA keyB n = some cacheA :=
  ⟨by decide, C10_remove_absent cacheA keyB (by decide)⟩

/-! ### The bounded comparison of keys and the search through a bucket chain -/

/-- The bounded `strncmp` is 0 exactly when the two strings agree on their first `n`
characters. -/
theorem strncmp_eq_zero_iff (a b : List Nat) (n : Nat) :
    strncmp a b n = 0 ↔ a.take n = b.take n := by
  induction a generalizing b n with
  | nil =>
    cases n with
    | zero => simp [strncmp]
    | succ n => cases b <;> simp [strncmp]
  | cons x a ih =>
    cases n with
    | zero => simp [strncmp]
    | succ n =>
      cases b with
      | nil => simp [strncmp]
      | cons y b =>
        by_cases hxy : x = y
        · simp [strncmp, hxy, ih]
        · have : (x : Int) - (y : Int) ≠ 0 := by
            intro e
            exact hxy (by omega)
          simp [strncmp, hxy, this]

theorem keyMatches_iff {c : LRUCACHE} {key : List Nat} {p : Ptr} {n : NODE}
    (hn : c.mem p = some n) :
    keyMatches c key p = true ↔ n.key.take MAX_KEY_LENGTH = key.take MAX_KEY_LENGTH := by
  simp [keyMatches, hn, strncmp_eq_zero_iff]

theorem keyMatches_mem {c : LRUCACHE} {key : List Nat} {p : Ptr}
    (h : keyMatches c key p = true) : ∃ n, c.mem p = some n := by
  unfold keyMatches at h
  cases hm : c.mem p with
  | none => rw [hm] at h; simp at h
  | some n => exact ⟨n, rfl⟩

/-- Two keys with the same first `MAX_KEY_LENGTH` characters match the same nodes. -/
theorem keyMatches_congr_key {c : LRUCACHE} {k k' : List Nat}
    (hk : k.take MAX_KEY_LENGTH = k'.take MAX_KEY_LENGTH) (p : Ptr) :
    keyMatches c k p = keyMatches c k' p := by
  unfold keyMatches
  cases c.mem p with
  | none => rfl
  | some n =>
    simp only [strncmp_eq_zero_iff, hk]

/-- The search of `LRUCacheGet` returns the first node of the bucket chain that matches. -/
theorem Inv.find_chain {c : LRUCACHE} {L : List Ptr} (h : Inv c L) (key : List Nat)
    {C : List Ptr} (hC : BucketOK c L (LRUCacheGetHashIndex key) C) :
    c.find key = some ((C.find? (keyMatches c key)).getD 0) :=
  hC.1.findLoop_eq key (h.chain_length hC.2.1 (fun p hp => (hC.2.2 p hp).1))

/-- A chain given for a bucket is the chain of the invariant. -/
theorem Inv.bucket_of_chain {c : LRUCACHE} {L : List Ptr} (h : Inv c L) {i : Nat}
    {C : List Ptr} (hC : Chain c (c.nodes i) C) : BucketOK c L i C := by
  obtain ⟨C', hC'⟩ := h.hash i
  rw [hC.unique hC'.1]
  exact hC'

theorem Chain.walkChain_eq {c : LRUCACHE} {p : Ptr} {C : List Ptr} (h : Chain c p C)
    {fuel : Nat} (hf : C.length < fuel) : walkChain c fuel p = C := by
  induction C generalizing p fuel with
  | nil =>
    obtain ⟨f, rfl⟩ : ∃ f, fuel = f + 1 := ⟨fuel - 1, by simp at hf; omega⟩
    have : p = 0 := h
    simp [walkChain, this, LRUCACHE.load]
  | cons q C ih =>
    obtain ⟨f, rfl⟩ : ∃ f, fuel = f + 1 := ⟨fuel - 1, by simp at hf; omega⟩
    obtain ⟨h1, h2, n, hn, h3⟩ := h
    subst h1
    simp only [walkChain, load_eq h2 hn]
    rw [ih h3 (by simp at hf; omega)]

/-- Walking a bucket of the hash index visits exactly the chain of the bucket. -/
theorem Inv.bucketList_eq {c : LRUCACHE} {L : List Ptr} (h : Inv c L) {i : Nat}
    {C : List Ptr} (hC : Chain c (c.nodes i) C) : bucketList c i = C := by
  have hb := h.bucket_of_chain hC
  exact hC.walkChain_eq (h.chain_length hb.2.1 (fun p hp => (hb.2.2 p hp).1))

/-- The first match in a list is not affected by taking another element out. -/
theorem find?_erase_of_ne {C : List Ptr} {f : Ptr → Bool} {q r : Ptr}
    (hf : C.find? f = some r) (hrq : r ≠ q) : (C.erase q).find? f = some r := by
  induction C with
  | nil => simp at hf
  | cons a C ih =>
    by_cases haq : a = q
    · subst haq
      rw [List.erase_cons_head]
      rw [List.find?_cons] at hf
      cases hfa : f a with
      | true => rw [hfa] at hf; simp at hf; exact absurd hf.symm hrq
      | false => rw [hfa] at hf; exact hf
    · rw [List.erase_cons_tail (by simpa using haq)]
      rw [List.find?_cons] at hf ⊢
      cases hfa : f a with
      | true => rw [hfa] at hf; exact hf
      | false => rw [hfa] at hf; exact ih hf

/-! ### How the calls change the bucket chains -/

theorem keyAt_of_mem {c : LRUCACHE} {p : Ptr} {n : NODE} (h : c.mem p = some n) :
    keyAt c p = n.key := by
  simp [keyAt, h]

theorem keyAt_congr {c c' : LRUCACHE} {p : Ptr}
    (h : (c'.mem p).map NODE.unlinked = (c.mem p).map NODE.unlinked) :
    keyAt c' p = keyAt c p := by
  cases hm : c.mem p with
  | none =>
    cases hm' : c'.mem p with
    | none => simp [keyAt, hm, hm']
    | some n' => rw [hm, hm'] at h; simp at h
  | some n =>
    obtain ⟨n', h1, h2, -⟩ := unlinked_some hm h
    rw [keyAt_of_mem h1, keyAt_of_mem hm, h2]

theorem valueAt_congr {c c' : LRUCACHE} {p : Ptr}
    (h : (c'.mem p).map NODE.unlinked = (c.mem p).map NODE.unlinked) :
    valueAt c' p = valueAt c p := by
  cases hm : c.mem p with
  | none =>
    cases hm' : c'.mem p with
    | none => simp [valueAt, hm, hm']
    | some n' => rw [hm, hm'] at h; simp at h
  | some n =>
    obtain ⟨n', h1, -, -, h2, -⟩ := unlinked_some hm h
    simp [valueAt, h1, hm, h2]

theorem keyMatches_congr {c c' : LRUCACHE} {p : Ptr}
    (h : (c'.mem p).map NODE.unlinked = (c.mem p).map NODE.unlinked) (key : List Nat) :
    keyMatches c' key p = keyMatches c key p := by
  cases hm : c.mem p with
  | none =>
    cases hm' : c'.mem p with
    | none => simp [keyMatches, hm, hm']
    | some n' => rw [hm, hm'] at h; simp at h
  | some n =>
    obtain ⟨n', h1, h2, -⟩ := unlinked_some hm h
    simp [keyMatches, h1, hm, h2]

theorem Chain.congr_unlinked {c c' : LRUCACHE} {p : Ptr} {C : List Ptr}
    (hmem : ∀ q ∈ C, (c'.mem q).map NODE.unlinked = (c.mem q).map NODE.unlinked)
    (h : Chain c p C) : Chain c' p C :=
  Chain.congr (fun q hq n hn => by
    obtain ⟨n', h1, -, h2, -⟩ := unlinked_some hn (hmem q hq)
    exact ⟨n', h1, h2⟩) h

/-- Linking a new node in front of bucket `idx`. -/
theorem Inv.chain_link {c2 c' : LRUCACHE} {L2 : List Ptr} (h2 : Inv c2 L2) {b : Ptr}
    (hb0 : b ≠ 0) (hbL : b ∉ L2) {idx : Nat}
    (hnodes : c'.nodes = (c2.setBucket idx b).nodes)
    (hfr : ∀ p, p ≠ b → (c'.mem p).map NODE.unlinked = (c2.mem p).map NODE.unlinked)
    (hnew : ∃ n, c'.mem b = some n ∧ n.hnext = c2.nodes idx)
    {i : Nat} {C : List Ptr} (hC : Chain c2 (c2.nodes i) C) :
    Chain c' (c'.nodes i) (if i = idx then b :: C else C) := by
  have hB := h2.bucket_of_chain hC
  have hC' : Chain c' (c2.nodes i) C := by
    refine Chain.congr_unlinked ?_ hC
    intro q hq
    exact hfr q (fun e => hbL (e ▸ (hB.2.2 q hq).1))
  by_cases hi : i = idx
  · subst hi
    obtain ⟨n, hn, hnx⟩ := hnew
    have : c'.nodes i = b := by simp [hnodes, LRUCACHE.setBucket]
    rw [this, if_pos rfl]
    exact ⟨rfl, hb0, n, hn, by rw [hnx]; exact hC'⟩
  · have : c'.nodes i = c2.nodes i := by simp [hnodes, LRUCACHE.setBucket, hi]
    rw [this, if_neg hi]
    exact hC'

/-- The eviction of the tail `t`, the first node of its bucket: that bucket is emptied. -/
theorem Inv.chain_evict {c c2 : LRUCACHE} {L : List Ptr} (h : Inv c L) {t : Ptr} {n : NODE}
    (hm : c.mem t = some n)
    (hnodes : c2.nodes = (c.setBucket (LRUCacheGetHashIndex n.key) 0).nodes)
    (hfr : ∀ p, p ≠ t → p ∈ L → (c2.mem p).map NODE.unlinked = (c.mem p).map NODE.unlinked)
    {i : Nat} {C : List Ptr} (hC : Chain c (c.nodes i) C) :
    Chain c2 (c2.nodes i) (if i = LRUCacheGetHashIndex n.key then [] else C) := by
  have hB := h.bucket_of_chain hC
  by_cases hi : i = LRUCacheGetHashIndex n.key
  · have : c2.nodes i = 0 := by simp [hnodes, LRUCACHE.setBucket, hi]
    rw [this, if_pos hi]
    rfl
  · have : c2.nodes i = c.nodes i := by simp [hnodes, LRUCACHE.setBucket, hi]
    rw [this, if_neg hi]
    refine Chain.congr_unlinked ?_ hC
    intro q hq
    refine hfr q (fun e => ?_) (hB.2.2 q hq).1
    subst e
    exact hi (hB.index_eq hq hm).symm

/-- A key that is not found matches no node of the chain of its bucket. -/
theorem Inv.no_match {c : LRUCACHE} {L : List Ptr} (h : Inv c L) {key : List Nat}
    (hf : c.find key = some 0) {C : List Ptr}
    (hC : BucketOK c L (LRUCacheGetHashIndex key) C) :
    ∀ p ∈ C, keyMatches c key p = false := by
  have h1 := h.find_chain key hC
  rw [hf] at h1
  cases hfind : C.find? (keyMatches c key) with
  | none =>
    intro p hp
    have := List.find?_eq_none.1 hfind p hp
    simpa using this
  | some r =>
    rw [hfind] at h1
    simp at h1
    have hr : r ∈ C := List.mem_of_find?_eq_some hfind
    exact absurd h1.symm (h.list.ne_zero (hC.2.2 r hr).1)

/-- The converse: when no node of the recency list matches, the key is not found. -/
theorem Inv.find_zero {c : LRUCACHE} {L : List Ptr} (h : Inv c L) {key : List Nat}
    (hno : ∀ p ∈ L, keyMatches c key p = false) : c.find key = some 0 := by
  obtain ⟨q, hq, hq'⟩ := h.find_eq key
  by_cases h0 : q = 0
  · rw [hq, h0]
  · obtain ⟨h1, h2⟩ := hq' h0
    rw [hno q h1] at h2
    cases h2

/-- The call `LRUCachePut` with a new key when nothing has to be evicted: it returns 0 and
links a new node in as the head of the recency list and of its bucket. -/
theorem Inv.put_insert {c : LRUCACHE} {L : List Ptr} (h : Inv c L) {key value : List Nat}
    {size : Nat} (hf : c.find key = some 0) (hs : size ≠ 0) (hv : size ≤ value.length)
    (hroom : c.size ≠ c.capacity ∨ L = []) :
    ∃ c', LRUCachePut c key value size Alloc.ok = some (c', 0) ∧ Inv c' (c.brk :: L) ∧
      c'.size = (c.size + 1) % UINT_RANGE ∧ c'.capacity = c.capacity ∧
      c'.brk = c.brk + 1 ∧
      c'.nodes = (c.setBucket (LRUCacheGetHashIndex key) c.brk).nodes ∧
      c'.sizeInBytes = addSizeT c.sizeInBytes
        ((SIZEOF_NODE + key.length + 1 + size) % SIZE_T_RANGE) ∧
      (∀ p, p ≠ c.brk → (c'.mem p).map NODE.unlinked = (c.mem p).map NODE.unlinked) ∧
      (c'.mem c.brk).map NODE.unlinked =
        some ⟨LRUCacheCreateHash key, key, value.take size, size, 0, 0,
          c.nodes (LRUCacheGetHashIndex key)⟩ := by
  have hg : LRUCacheGet c key = some (c, 0) := by rw [get_eq, hf]; simp
  obtain ⟨hinv1, -, hok⟩ := h.put_miss key value Alloc.ok hs rfl hv hg rfl rfl
  have hnotL : c.brk ∉ L := (h.alloc ⟨0, [], [], 0, 0, 0, 0⟩).2
  rw [nodeCreate_ok] at hinv1 hok
  have he : putEvict (({ c with brk := c.brk + 1 } : LRUCACHE).store c.brk
      ⟨LRUCacheCreateHash key, key, value.take size, size, 0, 0, 0⟩) =
      some (({ c with brk := c.brk + 1 } : LRUCACHE).store c.brk
        ⟨LRUCacheCreateHash key, key, value.take size, size, 0, 0, 0⟩) := by
    unfold putEvict
    rcases hroom with hne | hL
    · rw [if_neg (by simpa [LRUCACHE.store] using hne)]
    · have ht : c.tail = 0 := by simpa [hL] using h.list.tail_eq
      split
      · rw [removeTail_nil (by simpa [LRUCACHE.store] using ht)]
        rfl
      · rfl
  obtain ⟨c', h1, h2, h3, h4, h5, h6, h7, h8, h9⟩ :=
    hok _ he L hinv1 hnotL rfl (by simp [LRUCACHE.store])
  refine ⟨c', h1, h2, h3, h4, h5, h6, h7, ?_, h9⟩
  intro p hp
  rw [h8 p hp]
  simp [LRUCACHE.store, hp]

/-! ### Invariants of the reachable states: keys of a bucket, the `size` field -/

theorem uint_succ_mod (n : Nat) : (n % UINT_RANGE + 1) % UINT_RANGE = (n + 1) % UINT_RANGE := by
  simp only [UINT_RANGE]
  omega

theorem uint_pred_mod {n : Nat} (h : 1 ≤ n) :
    (n % UINT_RANGE + (UINT_RANGE - 1)) % UINT_RANGE = (n - 1) % UINT_RANGE := by
  simp only [UINT_RANGE]
  omega

theorem unlinked_new {m : Option NODE} {hk : Nat} {key v : List Nat} {s : Nat} {hn : Ptr}
    (hm : m.map NODE.unlinked = some ⟨hk, key, v, s, 0, 0, hn⟩) :
    ∃ n, m = some n ∧ n.key = key ∧ n.serializedValue = v ∧ n.valueSize = s ∧
      n.hnext = hn := by
  cases m with
  | none => simp at hm
  | some n =>
    simp only [Option.map_some', Option.some.injEq] at hm
    refine ⟨n, rfl, ?_, ?_, ?_, ?_⟩
    · simpa [NODE.unlinked] using congrArg NODE.key hm
    · simpa [NODE.unlinked] using congrArg NODE.serializedValue hm
    · simpa [NODE.unlinked] using congrArg NODE.valueSize hm
    · simpa [NODE.unlinked] using congrArg NODE.hnext hm

/-- Chains that only lose nodes, and keep the keys of the nodes that stay, keep the keys of
each bucket apart. -/
theorem PrefixUnique.of_sublist {c c' : LRUCACHE} {L : List Ptr} (h : Inv c L)
    (hu : PrefixUnique c)
    (hch : ∀ i C, BucketOK c L i C → ∃ C', Chain c' (c'.nodes i) C' ∧ C'.Sublist C ∧
      ∀ p ∈ C', keyAt c' p = keyAt c p) : PrefixUnique c' := by
  intro i C1 hC1
  obtain ⟨C, hC⟩ := h.hash i
  obtain ⟨C', hC', hsub, hkeys⟩ := hch i C hC
  have e := hC1.unique hC'
  subst e
  have hmap : C1.map (fun p => (keyAt c' p).take MAX_KEY_LENGTH) =
      C1.map (fun p => (keyAt c p).take MAX_KEY_LENGTH) :=
    List.map_congr_left (fun p hp => by rw [hkeys p hp])
  rw [hmap]
  exact (hsub.map _).nodup (hu i C hC.1)

/-- The invariants carried along a call of `LRUCacheGet`. -/
theorem Inv.get_full {c : LRUCACHE} {L : List Ptr} (h : Inv c L) (hu : PrefixUnique c)
    (hsz : c.size = L.length % UINT_RANGE) {key : List Nat} {c' : LRUCACHE} {q : Ptr}
    (hr : LRUCacheGet c key = some (c', q)) :
    ∃ L', Inv c' L' ∧ PrefixUnique c' ∧ c'.size = L'.length % UINT_RANGE ∧
      L'.length = L.length ∧ c'.capacity = c.capacity ∧
      ∀ p ∈ L', p ∈ L ∧ keyAt c' p = keyAt c p := by
  rcases h.get key with ⟨-, hg⟩ | ⟨q', c1, -, -, hqL, -, hg, -, hinv, hsame⟩
  · rw [hg] at hr
    cases hr
    exact ⟨L, h, hu, hsz, rfl, rfl, fun p hp => ⟨hp, rfl⟩⟩
  · rw [hg] at hr
    cases hr
    refine ⟨_, hinv, ?_, ?_, length_front hqL, hsame.capacity, ?_⟩
    · refine PrefixUnique.of_sublist h hu ?_
      intro i C hC
      refine ⟨C, ?_, List.Sublist.refl _, fun p _ => hsame.keyAt_eq p⟩
      rw [hsame.nodes]
      exact Chain.congr_unlinked (fun p _ => hsame.mem p) hC.1
    · rw [hsame.size, hsz, length_front hqL]
    · intro p hp
      refine ⟨?_, hsame.keyAt_eq p⟩
      rcases List.mem_cons.1 hp with e | e
      · rw [e]; exact hqL
      · exact List.mem_of_mem_erase e

/-- The invariants carried along a call of `LRUCacheRemove`: a call that returns has not
found the key and has changed nothing. -/
theorem Inv.remove_full {c : LRUCACHE} {L : List Ptr} (h : Inv c L) (hu : PrefixUnique c)
    (hsz : c.size = L.length % UINT_RANGE) {key : List Nat} {c' : LRUCACHE} {r : Int}
    (hr : LRUCacheRemove c key = some (c', r)) :
    ∃ L', Inv c' L' ∧ PrefixUnique c' ∧ c'.size = L'.length % UINT_RANGE ∧
      L'.length ≤ L.length ∧ c'.capacity = c.capacity ∧
      ∀ p ∈ L', p ∈ L ∧ keyAt c' p = keyAt c p := by
  rcases h.remove key with ⟨-, hg⟩ | ⟨q, -, -, -, hg⟩
  · rw [hg] at hr
    cases hr
    exact ⟨L, h, hu, hsz, le_rfl, rfl, fun p hp => ⟨hp, rfl⟩⟩
  · rw [hg] at hr
    cases hr

/-- The invariants carried along a call of `LRUCachePut`; each node of the new list is a
node of the old one with its key, or the new node that holds the key put. -/
theorem Inv.put_full {c : LRUCACHE} {L : List Ptr} (h : Inv c L) (hu : PrefixUnique c)
    (hsz : c.size = L.length % UINT_RANGE) {key value : List Nat} {size : Nat} {m : Alloc}
    {c' : LRUCACHE} {r : Int} (hr : LRUCachePut c key value size m = some (c', r)) :
    ∃ L', Inv c' L' ∧ PrefixUnique c' ∧ c'.size = L'.length % UINT_RANGE ∧
      c'.capacity = c.capacity ∧
      ∀ p ∈ L', (p ∈ L ∧ keyAt c' p = keyAt c p) ∨ keyAt c' p = key := by
  rcases h.put_cases key value size m with h0 | h0 | ⟨q, c1, n1, hq0, hqL, -, -, hsame, hinv1,
      hm1, -, -, -, h0, hinv⟩ | ⟨c2, L2, c'', hf, -, -, -, hinv2, hnot, hcap2, hev, h0, hinv,
      hsize, hcap, hbrk, hnodes, -, hfr, hnode⟩
  · rw [h0] at hr; cases hr
  · rw [h0] at hr
    cases hr
    exact ⟨L, h, hu, hsz, rfl, fun p hp => Or.inl ⟨hp, rfl⟩⟩
  · have e := h0.symm.trans hr
    simp only [Option.some.injEq, Prod.mk.injEq] at e
    obtain ⟨e1, -⟩ := e
    have hmem' : c'.mem = fun p =>
        if p = q then some { n1 with serializedValue := value.take size } else c1.mem p := by
      rw [← e1]; rfl
    have hnodes' : c'.nodes = c1.nodes := by rw [← e1]; rfl
    have hsize' : c'.size = c1.size := by rw [← e1]; rfl
    have hcap' : c'.capacity = c1.capacity := by rw [← e1]; rfl
    have hinv' : Inv c' (q :: L.erase q) := by rw [← e1]; exact hinv
    have hX : ∀ p np, c.mem p = some np → ∃ n', c'.mem p = some n' ∧
        n'.key = np.key ∧ n'.hnext = np.hnext := by
      intro p np hnp
      obtain ⟨n', f1, e2, e3, -⟩ := unlinked_some hnp (hsame.mem p)
      by_cases hpq : p = q
      · rw [hpq, hm1] at f1
        cases f1
        exact ⟨{ n1 with serializedValue := value.take size }, by simp [hmem', hpq], e2, e3⟩
      · exact ⟨n', by simpa [hmem', hpq] using f1, e2, e3⟩
    have hkeys : ∀ p, p ∈ L → keyAt c' p = keyAt c p := by
      intro p hpL
      obtain ⟨np, hnp, -⟩ := h.list.link p hpL
      obtain ⟨n', e1, e2, -⟩ := hX p np hnp
      rw [keyAt_of_mem e1, keyAt_of_mem hnp, e2]
    refine ⟨_, hinv', ?_, ?_, hcap'.trans hsame.capacity, ?_⟩
    · refine PrefixUnique.of_sublist h hu ?_
      intro i C hC
      refine ⟨C, ?_, List.Sublist.refl _, fun p hp => hkeys p (hC.2.2 p hp).1⟩
      rw [hnodes', hsame.nodes]
      refine Chain.congr ?_ hC.1
      intro p _ np hnp
      obtain ⟨n', e1, -, e3⟩ := hX p np hnp
      exact ⟨n', e1, e3⟩
    · rw [hsize', hsame.size, hsz, length_front hqL]
    · intro p hp
      have hpL : p ∈ L := by
        rcases List.mem_cons.1 hp with e | e
        · rw [e]; exact hqL
        · exact List.mem_of_mem_erase e
      exact Or.inl ⟨hpL, hkeys p hpL⟩
  · rw [h0] at hr
    cases hr
    have hb0 : c.brk ≠ 0 := Nat.pos_iff_ne_zero.1 h.brk_pos
    obtain ⟨nb, hnb, hkb, -, -, hhb⟩ := unlinked_new hnode
    -- the state after the eviction, if any
    have hmid : c2.size = L2.length % UINT_RANGE ∧ (∀ p ∈ L2, p ∈ L ∧ keyAt c2 p = keyAt c p) ∧
        ∀ i C, BucketOK c L i C → ∃ C2, Chain c2 (c2.nodes i) C2 ∧ C2.Sublist C := by
      rcases hev with ⟨hL2, hs2, hn2, -, -, hm2⟩ | ⟨n, hL2, htL, -, hmt, -, hs2, hn2, -, -, hm2⟩
      · subst hL2
        have hne : ∀ p ∈ L2, p ≠ c.brk := fun p hp e => hnot (e ▸ hp)
        refine ⟨by rw [hs2, hsz], fun p hp => ⟨hp, by simp [keyAt, hm2 p (hne p hp)]⟩, ?_⟩
        intro i C hC
        refine ⟨C, ?_, List.Sublist.refl _⟩
        rw [hn2]
        exact Chain.congr_eq (fun p hp => hm2 p (hne p (hC.2.2 p hp).1)) hC.1
      · subst hL2
        have hpos := List.length_pos_of_mem htL
        have hlen : (L.erase c.tail).length = L.length - 1 := List.length_erase_of_mem htL
        have hnb' : c.brk ∉ L := fun e => lt_irrefl _ (h.list.bound _ e)
        have hfr2 : ∀ p, p ≠ c.tail → p ∈ L →
            (c2.mem p).map NODE.unlinked = (c.mem p).map NODE.unlinked :=
          fun p hpt hpL => hm2 p hpt (fun e => hnb' (e ▸ hpL))
        refine ⟨by rw [hs2, hsz, hlen, uint_pred_mod hpos], ?_, ?_⟩
        · intro p hp
          obtain ⟨hpt, hpL⟩ := (mem_erase_ne h.list.nodup).1 hp
          exact ⟨hpL, keyAt_congr (hfr2 p hpt hpL)⟩
        · intro i C hC
          refine ⟨_, h.chain_evict hmt hn2 hfr2 hC.1, ?_⟩
          split
          · exact List.nil_sublist _
          · exact List.Sublist.refl _
    obtain ⟨hsize2, hkeys2, hch2⟩ := hmid
    have hkeys' : ∀ p ∈ L2, keyAt c' p = keyAt c p := by
      intro p hp
      have hpb : p ≠ c.brk := fun e => hnot (e ▸ hp)
      rw [keyAt_congr (hfr p hpb)]
      exact (hkeys2 p hp).2
    refine ⟨_, hinv, ?_, ?_, hcap, ?_⟩
    · intro i C1 hC1
      obtain ⟨C, hC⟩ := h.hash i
      obtain ⟨C2, hC2, hsub⟩ := hch2 i C hC
      have hB2 := hinv2.bucket_of_chain hC2
      have hlink := hinv2.chain_link hb0 hnot hnodes hfr ⟨nb, hnb, hhb⟩ hC2
      have e := hC1.unique hlink
      have hmap : C2.map (fun p => (keyAt c' p).take MAX_KEY_LENGTH) =
          C2.map (fun p => (keyAt c p).take MAX_KEY_LENGTH) :=
        List.map_congr_left (fun p hp => by rw [hkeys' p (hB2.2.2 p hp).1])
      have hnd : (C2.map (fun p => (keyAt c' p).take MAX_KEY_LENGTH)).Nodup := by
        rw [hmap]
        exact (hsub.map _).nodup (hu i C hC.1)
      rw [e]
      by_cases hi : i = LRUCacheGetHashIndex key
      · rw [if_pos hi, List.map_cons, List.nodup_cons]
        refine ⟨?_, hnd⟩
        rw [hmap, keyAt_of_mem hnb, hkb]
        intro hmem
        obtain ⟨p, hp, hpk⟩ := List.mem_map.1 hmem
        have hpC : p ∈ C := hsub.subset hp
        subst hi
        have hno := h.no_match hf hC p hpC
        obtain ⟨-, np, hnp, -⟩ := hC.2.2 p hpC
        rw [keyAt_of_mem hnp] at hpk
        have : keyMatches c key p = true := (keyMatches_iff hnp).2 hpk
        rw [hno] at this
        cases this
      · rw [if_neg hi]
        exact hnd
    · rw [hsize, hsize2, List.length_cons, uint_succ_mod]
    · intro p hp
      rcases List.mem_cons.1 hp with e | e
      · right
        rw [e, keyAt_of_mem hnb, hkb]
      · exact Or.inl ⟨(hkeys2 p e).1, hkeys' p e⟩

/-! ### The invariants along a sequence of calls -/

theorem PrefixUnique.of_fresh (capacity : Nat) : PrefixUnique (freshCache capacity) := by
  intro i C hC
  have h0 : Chain (freshCache capacity) ((freshCache capacity).nodes i) [] := rfl
  have e : C = [] := hC.unique h0
  rw [e]
  exact List.nodup_nil

/-- One call keeps the invariant, the separation of the keys of each bucket and the relation
of `size` to the length of the list; the keys in the list are old keys or the key put. -/
theorem Inv.step_full {c : LRUCACHE} {L : List Ptr} (h : Inv c L) (hu : PrefixUnique c)
    (hsz : c.size = L.length % UINT_RANGE) {op : Op} {c' : LRUCACHE}
    (hs : step c op = some c') :
    ∃ L', Inv c' L' ∧ PrefixUnique c' ∧ c'.size = L'.length % UINT_RANGE ∧
      c'.capacity = c.capacity ∧
      ∀ p ∈ L', (p ∈ L ∧ keyAt c' p = keyAt c p) ∨
        ∃ key value size m, op = Op.put key value size m ∧ keyAt c' p = key := by
  cases op with
  | put key value size m =>
    simp only [step, Option.map_eq_some'] at hs
    obtain ⟨⟨c1, r⟩, h1, h2⟩ := hs
    cases h2
    obtain ⟨L', a1, a2, a3, a4, a5⟩ := h.put_full hu hsz h1
    refine ⟨L', a1, a2, a3, a4, fun p hp => ?_⟩
    rcases a5 p hp with e | e
    · exact Or.inl e
    · exact Or.inr ⟨key, value, size, m, rfl, e⟩
  | get key =>
    simp only [step, Option.map_eq_some'] at hs
    obtain ⟨⟨c1, r⟩, h1, h2⟩ := hs
    cases h2
    obtain ⟨L', a1, a2, a3, -, a4, a5⟩ := h.get_full hu hsz h1
    exact ⟨L', a1, a2, a3, a4, fun p hp => Or.inl (a5 p hp)⟩
  | remove key =>
    simp only [step, Option.map_eq_some'] at hs
    obtain ⟨⟨c1, r⟩, h1, h2⟩ := hs
    cases h2
    obtain ⟨L', a1, a2, a3, -, a4, a5⟩ := h.remove_full hu hsz h1
    exact ⟨L', a1, a2, a3, a4, fun p hp => Or.inl (a5 p hp)⟩

/-- A property of keys that holds of the keys in the list and of every key put holds of the
keys in the list after the calls. -/
theorem Inv.run_full {c : LRUCACHE} {L : List Ptr} (h : Inv c L) (hu : PrefixUnique c)
    (hsz : c.size = L.length % UINT_RANGE) (P : List Nat → Prop)
    (hP : ∀ p ∈ L, P (keyAt c p)) {ops : List Op} {c' : LRUCACHE}
    (hops : ∀ key value size m, Op.put key value size m ∈ ops → P key)
    (hs : run c ops = some c') :
    ∃ L', Inv c' L' ∧ PrefixUnique c' ∧ c'.size = L'.length % UINT_RANGE ∧
      c'.capacity = c.capacity ∧ ∀ p ∈ L', P (keyAt c' p) := by
  induction ops generalizing c L with
  | nil =>
    simp only [run, Option.some.injEq] at hs
    subst hs
    exact ⟨L, h, hu, hsz, rfl, hP⟩
  | cons op ops ih =>
    simp only [run, Option.bind_eq_some] at hs
    obtain ⟨c1, h1, h2⟩ := hs
    obtain ⟨L1, a1, a2, a3, a4, a5⟩ := h.step_full hu hsz h1
    have hP1 : ∀ p ∈ L1, P (keyAt c1 p) := by
      intro p hp
      rcases a5 p hp with ⟨e1, e2⟩ | ⟨key, value, size, m, e1, e2⟩
      · rw [e2]; exact hP p e1
      · rw [e2]
        exact hops key value size m (by rw [e1]; exact List.mem_cons_self _ _)
    obtain ⟨L', b1, b2, b3, b4, b5⟩ := ih a1 a2 a3 hP1
      (fun key value size m hm => hops key value size m (List.mem_cons_of_mem _ hm)) h2
    exact ⟨L', b1, b2, b3, b4.trans a4, b5⟩

/-- The invariants of every state a caller can get to. -/
theorem Reachable.full {c : LRUCACHE} (h : Reachable c) :
    ∃ L, Inv c L ∧ PrefixUnique c ∧ c.size = L.length % UINT_RANGE ∧
      c.capacity < UINT_RANGE := by
  obtain ⟨capacity, a, b, c0, ops, hcap, hc, hr⟩ := h
  rw [create_some hc] at hr
  obtain ⟨L, a1, a2, a3, a4, -⟩ := (Inv.fresh capacity).run_full (PrefixUnique.of_fresh capacity)
    rfl (fun _ => True) (by simp) (fun _ _ _ _ _ => trivial) hr
  exact ⟨L, a1, a2, a3, by rw [a4]; exact hcap⟩

theorem Inv.run_length {c : LRUCACHE} {L : List Ptr} (h : Inv c L) (hsz : c.size = L.length)
    (hle : L.length ≤ c.capacity) (h1 : 1 ≤ c.capacity) (h2 : c.capacity < UINT_RANGE)
    {ops : List Op} {c' : LRUCACHE} (hs : run c ops = some c') :
    ∃ L', Inv c' L' ∧ c'.size = L'.length ∧ L'.length ≤ c'.capacity := by
  induction ops generalizing c L with
  | nil =>
    simp only [run, Option.some.injEq] at hs
    subst hs
    exact ⟨L, h, hsz, hle⟩
  | cons op ops ih =>
    simp only [run, Option.bind_eq_some] at hs
    obtain ⟨c1, hs1, hs2⟩ := hs
    obtain ⟨L1, hinv1, e1, e2, e3⟩ := h.step_size hsz hle h1 h2 hs1
    exact ih hinv1 e1 e2 (by rw [e3]; exact h1) (by rw [e3]; exact h2) hs2

/-- A cache created with a capacity of at least 1 never holds more nodes than its capacity,
and its `size` field is the number of nodes. -/
theorem Reachable.length_le {c : LRUCACHE} (h : Reachable c) (h1 : 1 ≤ c.capacity) :
    c.size = (recencyList c).length ∧ (recencyList c).length ≤ c.capacity := by
  obtain ⟨L0, hfull, -, -, hlt⟩ := h.full
  obtain ⟨capacity, a, b, c0, ops, hcap, hc, hr⟩ := h
  rw [create_some hc] at hr
  obtain ⟨L1, -, -, -, e, -⟩ := (Inv.fresh capacity).run_full (PrefixUnique.of_fresh capacity)
    rfl (fun _ => True) (by simp) (fun _ _ _ _ _ => trivial) hr
  obtain ⟨L, hinv, hs, hle⟩ := (Inv.fresh capacity).run_length rfl (Nat.zero_le _)
    (by rw [← e]; exact h1) hcap hr
  rw [hinv.list.recencyList_eq]
  exact ⟨hs, hle⟩

/-! ## Lookup, creation and the fields kept per entry -/

/-- C12 (a failed lookup changes nothing): when `LRUCacheGet(k)` returns `NULL`, the state it
leaves is the state it was called in, so `size`, the recency order, the stored values and the
hash chains are what they were; and the search had ended without a match. -/
theorem C12_failed_get_changes_nothing (c c' : LRUCACHE) (k : List Nat)
    (h : LRUCacheGet c k = some (c', 0)) : c' = c ∧ c.find k = some 0 := by
  rw [get_eq] at h
  cases hf : c.find k with
  | none => rw [hf] at h; cases h
  | some q =>
    rw [hf] at h
    by_cases hq : q = 0
    · subst hq
      simp only [if_true, Option.some.injEq, Prod.mk.injEq] at h
      exact ⟨h.1.symm, rfl⟩
    · simp only [hq, if_false, Option.map_eq_some'] at h
      obtain ⟨r, -, e⟩ := h
      simp only [Prod.mk.injEq] at e
      exact absurd e.2 hq

theorem C12_failed_get_changes_nothing_witness :
    LRUCacheGet cacheA keyB = some (cacheA, 0) ∧ (cacheA = cacheA ∧ cacheA.find keyB = some 0) :=
  ⟨rfl, C12_failed_get_changes_nothing cacheA cacheA keyB rfl⟩

/-- C14, the claim fails: `LRUCacheCreate` returns a cache for the capacity 0 and for the
capacity `MAX_CAPACITY + 1`, with that capacity stored in it. -/
theorem C14_create_accepts_any_capacity :
    LRUCacheCreate 0 true true = some (freshCache 0) ∧
    MAX_CAPACITY + 1 = 7000001 ∧
    LRUCacheCreate 7000001 true true = some (freshCache 7000001) ∧
    (freshCache 0).capacity = 0 ∧ (freshCache 7000001).capacity = 7000001 :=
  ⟨rfl, rfl, rfl, rfl, rfl⟩

/-- C14 as the code has it: `LRUCacheCreate` does not look at the capacity; it returns a
cache of the capacity asked for when its two allocations succeed and `NULL` when one of them
fails. The range check is made by `main` before the call: `main` goes on to `LRUCacheCreate`
exactly for `1 ≤ capacity ≤ MAX_CAPACITY`. -/
theorem C14_capacity_checked_by_main (capacity : Nat) (a b : Bool) :
    LRUCacheCreate capacity a b = (if a && b then some (freshCache capacity) else none) ∧
    (freshCache capacity).capacity = capacity ∧
    (mainRejectsCapacity capacity = false ↔ 1 ≤ capacity ∧ capacity ≤ MAX_CAPACITY) := by
  refine ⟨?_, rfl, ?_⟩
  · cases a <;> cases b <;> simp [LRUCacheCreate, freshCache]
  · simp only [mainRejectsCapacity, Bool.or_eq_false_iff, decide_eq_false_iff_not]
    omega

/-- C17, the claim fails: after Create(3); Put ab; Put bA; Put c; Get ab; Put d; Put ab (all
six calls return) the recency list holds two different nodes, 5 and 1, with the same key
`"ab"`, with `"d"` between them. The node 1 was cut off the hash index when Put d evicted
`"bA"`, so the last Put did not find it and made a second node for the key; only that second
node is in the bucket of `"ab"`. -/
theorem C17_duplicate_key_in_recency_list :
    (run (freshCache 3) duplicateOps).isSome = true ∧
    recencyList (runD (freshCache 3) duplicateOps) = [5, 4, 1] ∧
    recencyKeys (runD (freshCache 3) duplicateOps) = [keyAB, keyD, keyAB] ∧
    bucketList (runD (freshCache 3) duplicateOps) (LRUCacheGetHashIndex keyAB) = [5] := by
  decide

/-- C18, the claim fails: after Create(2); Put("a", 1 byte); Put("a", 2 bytes) the node of
`"a"` holds the two-byte payload while its `valueSize` field is still 1. -/
theorem C18_valueSize_not_payload_length :
    recencyList (runD (freshCache 2) (resizeOps.take 2)) = [1] ∧
    keyAt (runD (freshCache 2) (resizeOps.take 2)) 1 = keyA ∧
    valueAt (runD (freshCache 2) (resizeOps.take 2)) 1 = some [2, 3] ∧
    valueSizeAt (runD (freshCache 2) (resizeOps.take 2)) 1 = some 1 := by
  decide

/-- C19, the claim fails: after Create(2) and Puts of one, two and three bytes under `"a"`
the cache holds one entry with a key of one character and a payload of three bytes, so the
total should be `HASH_MAP_SIZE * 8 + (56 + 1 + 1 + 3)`, but `sizeInBytes` is one more; and
after Create(1); Put("a", 1 byte); Put("a", 2 bytes); Put("b", 1 byte), where the last Put
evicts `"a"`, the cache holds the one entry `"b"` with a payload of one byte, so the total
should be `HASH_MAP_SIZE * 8 + (56 + 1 + 1 + 1)`, but `sizeInBytes` is again one more. -/
theorem C19_byte_total_drifts :
    (run (freshCache 2) resizeOps).isSome = true ∧
    recencyList (runD (freshCache 2) resizeOps) = [1] ∧
    keyAt (runD (freshCache 2) resizeOps) 1 = keyA ∧
    valueAt (runD (freshCache 2) resizeOps) 1 = some [4, 5, 6] ∧
    HASH_MAP_SIZE * SIZEOF_PNODE + (SIZEOF_NODE + keyA.length + 1 + 3) = 8388645 ∧
    (runD (freshCache 2) resizeOps).sizeInBytes = 8388646 ∧
    (run (freshCache 1) resizeEvictOps).isSome = true ∧
    recencyList (runD (freshCache 1) resizeEvictOps) = [2] ∧
    keyAt (runD (freshCache 1) resizeEvictOps) 2 = keyB ∧
    valueAt (runD (freshCache 1) resizeEvictOps) 2 = some [9] ∧
    HASH_MAP_SIZE * SIZEOF_PNODE + (SIZEOF_NODE + keyB.length + 1 + 1) = 8388643 ∧
    (runD (freshCache 1) resizeEvictOps).sizeInBytes = 8388644 := by
  decide

/-- C20, the claim fails: after Create(2); Put ab; Put bA the recency list is not empty, its
tail `"ab"` is the second node of its bucket chain, and `LRUCacheRemoveTail` does not return:
it walks `next` links from the first node of the bucket, which is the head of the list, and
reads through `NULL`. -/
theorem C20_removeTail_crashes_behind_bucket_head :
    recencyKeys (runD (freshCache 2) (collisionOps.take 2)) = [keyBA, keyAB] ∧
    bucketKeys (runD (freshCache 2) (collisionOps.take 2)) (LRUCacheGetHashIndex keyAB)
      = [keyBA, keyAB] ∧
    (runD (freshCache 2) (collisionOps.take 2)).tail = 1 ∧
    (LRUCacheRemoveTail (runD (freshCache 2) (collisionOps.take 2))).isNone = true := by
  decide

/-! ## Removal of a present key -/

theorem find?_congr_mem {l : List Ptr} {f g : Ptr → Bool} (h : ∀ x ∈ l, f x = g x) :
    l.find? f = l.find? g := by
  induction l with
  | nil => rfl
  | cons a l ih =>
    rw [List.find?_cons, List.find?_cons, h a (List.mem_cons_self _ _),
      ih (fun x hx => h x (List.mem_cons_of_mem _ hx))]

/-- What the search found is the first match of the chain. -/
theorem Inv.find_first {c : LRUCACHE} {L : List Ptr} (h : Inv c L) {key : List Nat} {q : Ptr}
    (hf : c.find key = some q) (hq : q ≠ 0) {C : List Ptr}
    (hC : BucketOK c L (LRUCacheGetHashIndex key) C) :
    C.find? (keyMatches c key) = some q := by
  have h1 := h.find_chain key hC
  rw [hf] at h1
  cases hfind : C.find? (keyMatches c key) with
  | none => rw [hfind] at h1; simp at h1; exact absurd h1 hq
  | some r => rw [hfind] at h1; simp at h1; rw [h1]

/-- Apart from the order of its last statements `LRUCacheRemove` does what is asked of it:
in a state that satisfies the invariants, for a key found at the node `p`, the search, the
unlinking and `LRUCacheFreeNode` return, and in the state they leave a search for the key
finds nothing, `p` is freed and in neither the recency list nor its bucket chain, the
recency list is the old one without `p`, every other entry keeps its key and payload, and
every key that was found at another node is still found there. -/
theorem Inv.remove_unlink_correct {c : LRUCACHE} {L : List Ptr} (hinv : Inv c L)
    (hu : PrefixUnique c) {k : List Nat} {p : Ptr} (hf : c.find k = some p) (hp : p ≠ 0) :
    ∃ c1 c3 c4 c', LRUCacheGet c k = some (c1, p) ∧ listUnlink c1 p = some c3 ∧
      unlinkLoop c3 (LRUCacheGetHashIndex k) p (c3.brk + 1) 0
        (c3.nodes (LRUCacheGetHashIndex k)) = some c4 ∧
      LRUCacheFreeNode c4 p = some c' ∧ Inv c' (L.erase p) ∧
      c'.find k = some 0 ∧
      c'.mem p = none ∧ p ∉ recencyList c' ∧ p ∉ bucketList c' (LRUCacheGetHashIndex k) ∧
      recencyList c' = (recencyList c).erase p ∧
      (∀ q ∈ recencyList c, q ≠ p → keyAt c' q = keyAt c q ∧ valueAt c' q = valueAt c q) ∧
      (∀ k' q, c.find k' = some q → q ≠ 0 → q ≠ p →
        c'.find k' = some q ∧ valueAt c' q = valueAt c q) := by
  obtain ⟨c1, c3, c4, c', n, hqL, hg, hmq, h3, h4, h5, hinv', -, -, -, hdead, hdata, -,
    hchains⟩ := hinv.remove_unlink hf hp
  obtain ⟨C, hC, hpC⟩ := hinv.find_mem hf hp
  have hL : recencyList c = L := hinv.list.recencyList_eq
  have hL' : recencyList c' = L.erase p := hinv'.list.recencyList_eq
  have hkm : ∀ r, r ≠ p → r ∈ L → ∀ key, keyMatches c' key r = keyMatches c key r := by
    intro r hrp hrL key
    obtain ⟨nr, hnr, -⟩ := hinv.list.link r hrL
    obtain ⟨nr', hnr', e1, -⟩ := hdata r hrp nr hnr
    simp [keyMatches, hnr, hnr', e1]
  have hfind' : c'.find k = some 0 := by
    have hCe := hchains _ C hC
    rw [hinv'.find_chain k (hinv'.bucket_of_chain hCe)]
    have : (C.erase p).find? (keyMatches c' k) = none := by
      rw [List.find?_eq_none]
      intro r hrC hm
      obtain ⟨hrp, hrC'⟩ := (mem_erase_ne hC.2.1).1 hrC
      rw [hkm r hrp (hC.2.2 r hrC').1 k] at hm
      obtain ⟨nr, hnr⟩ := keyMatches_mem hm
      have h1 := (keyMatches_iff hnr).1 hm
      have hmp : keyMatches c k p = true := List.find?_some (hinv.find_first hf hp hC)
      have h2 := (keyMatches_iff hmq).1 hmp
      have := List.inj_on_of_nodup_map (hu _ C hC.1) hrC' hpC
        (by simp only [keyAt_of_mem hnr, keyAt_of_mem hmq, h1, h2])
      exact hrp this
    rw [this]
    rfl
  refine ⟨c1, c3, c4, c', hg, h3, h4, h5, hinv', hfind', hdead, ?_, ?_, ?_, ?_, ?_⟩
  · rw [hL']
    exact fun e => ((mem_erase_ne hinv.list.nodup).1 e).1 rfl
  · rw [hinv'.bucketList_eq (hchains _ C hC)]
    exact fun e => ((mem_erase_ne hC.2.1).1 e).1 rfl
  · rw [hL, hL']
  · intro q hq hqp
    rw [hL] at hq
    obtain ⟨nq, hnq, -⟩ := hinv.list.link q hq
    obtain ⟨nq', hnq', e1, e2, -⟩ := hdata q hqp nq hnq
    exact ⟨by rw [keyAt_of_mem hnq', keyAt_of_mem hnq, e1], by simp [valueAt, hnq, hnq', e2]⟩
  · intro k' q hfq hq0 hqp
    obtain ⟨Cj, hCj, hqCj⟩ := hinv.find_mem hfq hq0
    have hCje := hchains _ Cj hCj
    refine ⟨?_, ?_⟩
    swap
    · obtain ⟨nq, hnq, -⟩ := hinv.list.link q (hCj.2.2 q hqCj).1
      obtain ⟨nq', hnq', -, e2, -⟩ := hdata q hqp nq hnq
      simp [valueAt, hnq, hnq', e2]
    rw [hinv'.find_chain k' (hinv'.bucket_of_chain hCje)]
    have hcongr : (Cj.erase p).find? (keyMatches c' k') =
        (Cj.erase p).find? (keyMatches c k') := by
      refine find?_congr_mem ?_
      intro r hrC
      obtain ⟨hrp, hrC'⟩ := (mem_erase_ne hCj.2.1).1 hrC
      exact hkm r hrp (hCj.2.2 r hrC').1 k'
    rw [hcongr, find?_erase_of_ne (hinv.find_first hfq hq0 hCj) hqp]
    rfl

/-- C11, where the program goes wrong: whenever the search finds a node for `k`, in any
state, `LRUCacheRemove(k)` does not return 0. It calls `LRUCacheFreeNode(node)` and only then
computes `strlen(node->key)` and reads `node->valueSize` for the byte accounting
(lines 384-387): a read of the node that has just been freed, so the call does not return. -/
theorem C11_remove_reads_freed_node (c : LRUCACHE) (k : List Nat) (p : Ptr)
    (hf : c.find k = some p) (hp : p ≠ 0) : LRUCacheRemove c k = none :=
  remove_of_find hf hp

theorem C11_remove_reads_freed_node_witness :
    (Reachable cacheAB ∧ cacheAB.find keyA = some 1 ∧ (1 : Ptr) ≠ 0) ∧
    LRUCacheRemove cacheAB keyA = none :=
  ⟨⟨reachable_runD (by decide) _ (by decide), by decide, by decide⟩,
    C11_remove_reads_freed_node cacheAB keyA 1 (by decide) (by decide)⟩

/-! ## Insertion below capacity -/

/-- C15 (insert below capacity loses nothing): in a state reached from `LRUCacheCreate` by
calls that return, with `size < capacity`, a key `k` the search does not find and a payload of
`n > 0` bytes, `LRUCachePut` (its allocations succeeding) returns 0; `size` goes up by exactly
1; the recency list is the new node, which holds `k` and the payload, followed by the old list;
the old entries keep their keys and payloads; and every key that was found before is found
at the same node afterwards. -/
theorem C15_insert_below_capacity (c : LRUCACHE) (k v : List Nat) (n : Nat)
    (hr : Reachable c) (hroom : c.size < c.capacity) (hf : c.find k = some 0) (hn : n ≠ 0)
    (hv : n ≤ v.length) :
    ∃ c', LRUCachePut c k v n Alloc.ok = some (c', 0) ∧ c'.size = c.size + 1 ∧
      recencyList c' = c.brk :: recencyList c ∧
      keyAt c' c.brk = k ∧ valueAt c' c.brk = some (v.take n) ∧ c'.find k = some c.brk ∧
      (∀ q ∈ recencyList c, keyAt c' q = keyAt c q ∧ valueAt c' q = valueAt c q) ∧
      (∀ k' q, c.find k' = some q → q ≠ 0 →
        c'.find k' = some q ∧ valueAt c' q = valueAt c q) := by
  obtain ⟨L, hinv, -, -, hcaplt⟩ := hr.full
  obtain ⟨c', hput, hinv', hsize, -, hbrk, hnodes, -, hfr, hnode⟩ :=
    hinv.put_insert hf hn hv (Or.inl (by omega))
  obtain ⟨nb, hnb, hkb, hvb, -, hhb⟩ := unlinked_new hnode
  have hb0 : c.brk ≠ 0 := Nat.pos_iff_ne_zero.1 hinv.brk_pos
  have hnotL : c.brk ∉ L := fun e => lt_irrefl _ (hinv.list.bound _ e)
  have hL : recencyList c = L := hinv.list.recencyList_eq
  refine ⟨c', hput, ?_, ?_, ?_, ?_, ?_, ?_, ?_⟩
  · rw [hsize]
    exact Nat.mod_eq_of_lt (by omega)
  · rw [hL, hinv'.list.recencyList_eq]
  · rw [keyAt_of_mem hnb, hkb]
  · simp [valueAt, hnb, hvb]
  · unfold LRUCACHE.find
    rw [hbrk, hnodes]
    simp [LRUCACHE.setBucket, findLoop, hb0, LRUCACHE.load, hnb, hkb, strncmp_self]
  · intro q hq
    rw [hL] at hq
    have hqb : q ≠ c.brk := fun e => hnotL (e ▸ hq)
    exact ⟨keyAt_congr (hfr q hqb), valueAt_congr (hfr q hqb)⟩
  · intro k' q hfq hq0
    obtain ⟨Cj, hCj, hqCj⟩ := hinv.find_mem hfq hq0
    refine ⟨?_, valueAt_congr (hfr q (fun e => hnotL (e ▸ (hCj.2.2 q hqCj).1)))⟩
    have hlink := hinv.chain_link hb0 hnotL hnodes hfr ⟨nb, hnb, hhb⟩ hCj.1
    rw [hinv'.find_chain k' (hinv'.bucket_of_chain hlink)]
    have hcongr : Cj.find? (keyMatches c' k') = Cj.find? (keyMatches c k') := by
      refine find?_congr_mem ?_
      intro r hrC
      exact keyMatches_congr (hfr r (fun e => hnotL (e ▸ (hCj.2.2 r hrC).1))) k'
    by_cases hi : LRUCacheGetHashIndex k' = LRUCacheGetHashIndex k
    · have hnew : keyMatches c' k' c.brk = false := by
        cases hm : keyMatches c' k' c.brk with
        | false => rfl
        | true =>
          have h1 := (keyMatches_iff hnb).1 hm
          rw [hkb] at h1
          have hCk : BucketOK c L (LRUCacheGetHashIndex k) Cj := hi ▸ hCj
          have h2 := hinv.find_chain k hCk
          rw [find?_congr_mem (fun r _ => keyMatches_congr_key h1 r),
            hinv.find_first hfq hq0 hCj, hf] at h2
          exact absurd (Option.some.inj h2).symm hq0
      rw [if_pos hi, List.find?_cons, hnew, hcongr, hinv.find_first hfq hq0 hCj]
      rfl
    · rw [if_neg hi, hcongr, hinv.find_first hfq hq0 hCj]
      rfl

theorem C15_insert_below_capacity_witness :
    (Reachable cacheA ∧ cacheA.size < cacheA.capacity ∧ cacheA.find keyB = some 0 ∧
      (4 : Nat) ≠ 0 ∧ 4 ≤ val2.length) ∧
    ∃ c', LRUCachePut cacheA keyB val2 4 Alloc.ok = some (c', 0) ∧ c'.size = cacheA.size + 1 ∧
      recencyList c' = cacheA.brk :: recencyList cacheA ∧
      keyAt c' cacheA.brk = keyB ∧ valueAt c' cacheA.brk = some (val2.take 4) ∧
      c'.find keyB = some cacheA.brk ∧
      (∀ q ∈ recencyList cacheA, keyAt c' q = keyAt cacheA q ∧ valueAt c' q = valueAt cacheA q) ∧
      (∀ k' q, cacheA.find k' = some q → q ≠ 0 →
        c'.find k' = some q ∧ valueAt c' q = valueAt cacheA q) :=
  ⟨⟨reachable_runD (by decide) _ (by decide), by decide, by decide, by decide, by decide⟩,
    C15_insert_below_capacity cacheA keyB val2 4 (reachable_runD (by decide) _ (by decide))
      (by decide) (by decide) (by decide) (by decide)⟩

/-! ## The shape of the recency list -/

theorem counterKey_inj {i j : Nat} (hi : i < UINT_RANGE) (hj : j < UINT_RANGE)
    (h : counterKey i = counterKey j) : i = j := by
  simp only [counterKey, List.cons.injEq, and_true] at h
  obtain ⟨h0, h1, h2, h3, h4⟩ := h
  simp only [UINT_RANGE] at hi hj
  norm_num at h0 h1 h2 h3 h4
  omega

theorem counterKey_take (i : Nat) : (counterKey i).take MAX_KEY_LENGTH = counterKey i :=
  List.take_of_length_le (by simp [counterKey, MAX_KEY_LENGTH])

/-- A cache created with capacity 0 takes any number of new keys up to 2^32 without evicting:
after `n` Puts of different keys its list has `n` nodes and `size` is `n` modulo 2^32. -/
theorem fill_reachable (n : Nat) (hn : n ≤ UINT_RANGE) :
    ∃ c L, Reachable c ∧ Inv c L ∧ c.capacity = 0 ∧ L.length = n ∧
      c.size = n % UINT_RANGE ∧ ∀ p ∈ L, ∃ i, i < n ∧ keyAt c p = counterKey i := by
  induction n with
  | zero =>
    exact ⟨freshCache 0, [], ⟨0, true, true, freshCache 0, [], by decide, rfl, rfl⟩,
      Inv.fresh 0, rfl, rfl, rfl, by simp⟩
  | succ n ih =>
    obtain ⟨c, L, hreach, hinv, hcap, hlen, hsz, hkeys⟩ := ih (by omega)
    have hnlt : n < UINT_RANGE := by omega
    have hf : c.find (counterKey n) = some 0 := by
      refine hinv.find_zero ?_
      intro p hp
      obtain ⟨i, hi, hk⟩ := hkeys p hp
      obtain ⟨np, hnp, -⟩ := hinv.list.link p hp
      cases hm : keyMatches c (counterKey n) p with
      | false => rfl
      | true =>
        have h1 := (keyMatches_iff hnp).1 hm
        rw [← keyAt_of_mem hnp, hk, counterKey_take, counterKey_take] at h1
        have := counterKey_inj (by omega) hnlt h1
        omega
    have hroom : c.size ≠ c.capacity ∨ L = [] := by
      by_cases h0 : n = 0
      · right
        exact List.length_eq_zero.1 (hlen.trans h0)
      · left
        rw [hsz, hcap, Nat.mod_eq_of_lt hnlt]
        exact h0
    obtain ⟨c', hput, hinv', hsize, hcap', -, -, -, hfr, hnode⟩ :=
      @Inv.put_insert c L hinv (counterKey n) [1] 1 hf (by decide) (by simp) hroom
    obtain ⟨nb, hnb, hkb, -⟩ := unlinked_new hnode
    have hnotL : c.brk ∉ L := fun e => lt_irrefl _ (hinv.list.bound _ e)
    refine ⟨c', c.brk :: L, ?_, hinv', hcap'.trans hcap, by simp [hlen], ?_, ?_⟩
    · exact @Reachable.step_reach c c' hreach (Op.put (counterKey n) [1] 1 Alloc.ok)
        (by simp [step, hput])
    · rw [hsize, hsz, uint_succ_mod]
    · intro p hp
      rcases List.mem_cons.1 hp with e | e
      · exact ⟨n, Nat.lt_succ_self n, by rw [e, keyAt_of_mem hnb, hkb]⟩
      · obtain ⟨i, hi, hk⟩ := hkeys p e
        refine ⟨i, Nat.lt_succ_of_lt hi, ?_⟩
        rw [keyAt_congr (hfr p (fun e' => hnotL (e' ▸ e))), hk]

/-- Why the capacity has to be at least 1 for `size` to count the nodes: `LRUCacheCreate`
accepts the capacity 0, such a cache evicts only when `size == 0`, and after 2^32 calls of
`LRUCachePut` with pairwise different keys its list has 2^32 nodes while the `size` field, a
`UINT`, has wrapped to 0. -/
theorem size_wraps_at_capacity_zero :
    ∃ c, Reachable c ∧ c.capacity = 0 ∧ (recencyList c).length = UINT_RANGE ∧ c.size = 0 ∧
      c.head ≠ 0 := by
  obtain ⟨c, L, hreach, hinv, hcap, hlen, hsz, -⟩ := fill_reachable UINT_RANGE le_rfl
  have hL : recencyList c = L := hinv.list.recencyList_eq
  have hs0 : c.size = 0 := by rw [hsz]; exact Nat.mod_self _
  have hne : L ≠ [] := by
    intro e
    rw [e] at hlen
    exact absurd hlen (by decide)
  exact ⟨c, hreach, hcap, by rw [hL, hlen], hs0, hinv.list.ne_zero (hinv.list.head_mem hne)⟩

end LRUCache
